import Mathlib

/-!
A verification development for the `AABBTree2` bounding-volume hierarchy
(`AABBTree2.h`): a dynamic binary tree of axis-aligned bounding boxes stored in
a slot arena with a free list and a data-to-leaf lookup index.

The embedding instantiates the C++ template `AABBTree2<T, S, U>` at `S = 3`
(the dimension used throughout the repository) with scalars modelled as
`Option ℚ` (`none` standing for NaN) and a generic payload type `U` with
decidable equality.  Exceptions (`NodeTreeException`, `std::bad_variant_access`
and out-of-range or empty-optional accesses, which are undefined behaviour in
C++) are modelled with `Except`.  Non-structural recursions (the insertion
descent, the removal propagation loop, query traversal and subtree comparison)
take an explicit fuel argument; the public entry points supply a fuel that is
proved sufficient on well-formed trees.
-/

namespace AABB

/-- Modelled from the spec: a scalar coordinate of the floating point type `T`;
`none` stands for NaN (vecmath scalars are not part of `src/`). -/
abbrev ENum := Option ℚ

/-- Modelled from the spec: IEEE-style strict comparison; every comparison
involving NaN is false. -/
def elt : ENum → ENum → Bool
  | some x, some y => decide (x < y)
  | _, _ => false

/-- Modelled from the spec: `std::min(a, b) = (b < a) ? b : a`. -/
def emin (a b : ENum) : ENum := if elt b a then b else a

/-- Modelled from the spec: `std::max(a, b) = (a < b) ? b : a`. -/
def emax (a b : ENum) : ENum := if elt a b then b else a

/-- Modelled from the spec: subtraction, propagating NaN. -/
def esub : ENum → ENum → ENum
  | some x, some y => some (x - y)
  | _, _ => none

/-- Modelled from the spec: multiplication, propagating NaN. -/
def emul : ENum → ENum → ENum
  | some x, some y => some (x * y)
  | _, _ => none

/-- Modelled from the spec: a three-dimensional vector (`vm::vec<T, 3>`). -/
structure Vec3 where
  x : ENum
  y : ENum
  z : ENum
deriving DecidableEq, Repr

/-- Modelled from the spec: `vm::vec<T, 3>::nan()`. -/
def Vec3.nan : Vec3 := ⟨none, none, none⟩

/-- Modelled from the spec: `vm::is_nan` on a vector holds when some component
is NaN. -/
def vecIsNaN (v : Vec3) : Bool := v.x.isNone || v.y.isNone || v.z.isNone

/-- Modelled from the spec: an axis-aligned bounding box described by per-axis
minimum and maximum coordinates (`vm::bbox<T, 3>`). -/
structure BBox where
  min : Vec3
  max : Vec3
deriving DecidableEq, Repr

/-- Modelled from the spec: `vm::bbox::contains(point)` returns false exactly
when some axis has `point < min` or `point > max`. -/
def containsPoint (b : BBox) (p : Vec3) : Bool :=
  !(elt p.x b.min.x || elt b.max.x p.x
    || elt p.y b.min.y || elt b.max.y p.y
    || elt p.z b.min.z || elt b.max.z p.z)

/-- Modelled from the spec: `vm::bbox::contains(bounds)` returns false exactly
when some axis has `bounds.min < min` or `bounds.max > max`. -/
def containsBox (b : BBox) (o : BBox) : Bool :=
  !(elt o.min.x b.min.x || elt b.max.x o.max.x
    || elt o.min.y b.min.y || elt b.max.y o.max.y
    || elt o.min.z b.min.z || elt b.max.z o.max.z)

/-- Modelled from the spec: `vm::merge` takes the componentwise minimum of the
two minima and the componentwise maximum of the two maxima. -/
def merge (a b : BBox) : BBox :=
  ⟨⟨emin a.min.x b.min.x, emin a.min.y b.min.y, emin a.min.z b.min.z⟩,
   ⟨emax a.max.x b.max.x, emax a.max.y b.max.y, emax a.max.z b.max.z⟩⟩

/-- Modelled from the spec: `vm::bbox::volume` is the product of the per-axis
extents. -/
def volume (b : BBox) : ENum :=
  emul (esub b.max.x b.min.x) (emul (esub b.max.y b.min.y) (esub b.max.z b.min.z))

/-- Modelled from the spec: the bounding box made up of NaN values returned by
`bounds()` on an empty tree. -/
def nanBox : BBox := ⟨Vec3.nan, Vec3.nan⟩

/-- A box none of whose coordinates is NaN. -/
def goodBox (b : BBox) : Bool := !(vecIsNaN b.min || vecIsNaN b.max)

/-- Modelled from the spec: a ray with an origin and a direction
(`vm::ray<T, 3>`). -/
structure Ray where
  origin : Vec3
  direction : Vec3
deriving DecidableEq, Repr

/-- The set of ray parameters admitted by one axis of a slab test: no
parameter, every parameter, or a closed interval (possibly empty when
`lo > hi`). -/
inductive AxisSlab where
  | empty
  | all
  | interval (lo hi : ℚ)
deriving DecidableEq, Repr

/-- Modelled from the spec: the one-axis slab interval of a line–box
intersection test.  A zero direction component admits every parameter when the
origin lies within the slab and none otherwise; a nonzero component gives the
interval between the parameters at the two slab planes. -/
def axisSlab (o d mn mx : ℚ) : AxisSlab :=
  if d = 0 then
    if mn ≤ o ∧ o ≤ mx then .all else .empty
  else
    .interval (Min.min ((mn - o) / d) ((mx - o) / d))
              (Max.max ((mn - o) / d) ((mx - o) / d))

/-- Intersection of two per-axis parameter sets. -/
def slabCombine : AxisSlab → AxisSlab → AxisSlab
  | .empty, _ => .empty
  | _, .empty => .empty
  | .all, s => s
  | s, .all => s
  | .interval a b, .interval c d => .interval (Max.max a c) (Min.min b d)

/-- Whether a slab parameter set meets `[0, ∞)`: a nonempty interval whose
upper end is nonnegative. -/
def slabCheck : AxisSlab → Bool
  | .empty => false
  | .all => true
  | .interval lo hi => decide (lo ≤ hi) && decide (0 ≤ hi)

/-- Modelled from the spec: the slab ray–box intersection test
(`vm::intersect_ray_bbox` returns a non-NaN distance exactly when the ray hits
the box); a ray or box with a NaN component never intersects. -/
def rayIntersectsBox (r : Ray) (b : BBox) : Bool :=
  (r.origin.x.bind fun ox => r.origin.y.bind fun oy => r.origin.z.bind fun oz =>
   r.direction.x.bind fun dx => r.direction.y.bind fun dy =>
   r.direction.z.bind fun dz =>
   b.min.x.bind fun ax => b.min.y.bind fun ay => b.min.z.bind fun az =>
   b.max.x.bind fun bx => b.max.y.bind fun bby => b.max.z.map fun bz =>
     slabCheck (slabCombine
       (slabCombine (axisSlab ox dx ax bx) (axisSlab oy dy ay bby))
       (axisSlab oz dz az bz))).getD false

/-- The node test used by `findIntersectors`: the ray's origin lies inside the
bounds, or the ray intersects the bounds. -/
def intersectsTest (r : Ray) (b : BBox) : Bool :=
  containsPoint b r.origin || rayIntersectsBox r b

/-- `AABBNode`: the tagged union of `AABBFreeNode`, `AABBInnerNode` and
`AABBLeafNode`. -/
inductive ANode (U : Type) where
  | free (next : Option Nat)
  | inner (bounds : BBox) (parentIndex : Option Nat)
      (leftChildIndex rightChildIndex : Nat) (height : Nat)
  | leaf (bounds : BBox) (parentIndex : Option Nat) (data : U)
deriving DecidableEq

/-- `AABBTree2`: the node arena, the data-to-leaf lookup index
(`m_leafForData`, an unordered map modelled as an association list) and the
head of the free list. -/
structure AABBTree2 (U : Type) where
  nodes : List (ANode U)
  leafForData : List (U × Nat)
  freeNode : Option Nat
deriving DecidableEq

variable {U : Type}

/-- `m_leafForData.find`: look a key up in the association list. -/
def findData [DecidableEq U] : List (U × Nat) → U → Option Nat
  | [], _ => none
  | (k, i) :: rest, d => if k = d then some i else findData rest d

/-- `m_leafForData[d] = i`: overwrite the entry for a present key, append
otherwise. -/
def setData [DecidableEq U] : List (U × Nat) → U → Nat → List (U × Nat)
  | [], d, i => [(d, i)]
  | (k, j) :: rest, d, i =>
      if k = d then (k, i) :: rest else (k, j) :: setData rest d i

/-- `m_leafForData.erase(d)`: remove the entry for a key. -/
def eraseData [DecidableEq U] : List (U × Nat) → U → List (U × Nat)
  | [], _ => []
  | (k, j) :: rest, d => if k = d then rest else (k, j) :: eraseData rest d

/-- The failure modes of the C++ code: the four `NodeTreeException` messages,
`std::bad_variant_access`, the undefined behaviours (out-of-range arena access,
dereference of an empty optional), and fuel exhaustion of the modelling. -/
inductive TreeError where
  | invalidNodeType
  | duplicateKey
  | invalidBounds
  | notFound
  | badVariant
  | badIndex
  | badDeref
  | outOfFuel
deriving DecidableEq, Repr

/-- Computations that may raise one of the modelled failures. -/
abbrev M (α : Type) := Except TreeError α

/-- `m_nodes[index]`, with out-of-range access made explicit. -/
def getNode (t : AABBTree2 U) (i : Nat) : M (ANode U) :=
  match t.nodes[i]? with
  | some n => .ok n
  | none => .error .badIndex

/-- `getParentIndex`. -/
def getParentIndex (t : AABBTree2 U) (index : Nat) : M (Option Nat) := do
  match ← getNode t index with
  | .free _ => .error .invalidNodeType
  | .inner _ p _ _ _ => .ok p
  | .leaf _ p _ => .ok p

/-- `setParentIndex`. -/
def setParentIndex (t : AABBTree2 U) (nodeIndex : Nat) (parentIndex : Option Nat) :
    M (AABBTree2 U) := do
  match ← getNode t nodeIndex with
  | .free _ => .error .invalidNodeType
  | .inner b _ l r h =>
      .ok { t with nodes := t.nodes.set nodeIndex (.inner b parentIndex l r h) }
  | .leaf b _ d =>
      .ok { t with nodes := t.nodes.set nodeIndex (.leaf b parentIndex d) }

/-- `getLeftChildIndex`. -/
def getLeftChildIndex (t : AABBTree2 U) (index : Nat) : M Nat := do
  match ← getNode t index with
  | .inner _ _ l _ _ => .ok l
  | _ => .error .invalidNodeType

/-- `getRightChildIndex`. -/
def getRightChildIndex (t : AABBTree2 U) (index : Nat) : M Nat := do
  match ← getNode t index with
  | .inner _ _ _ r _ => .ok r
  | _ => .error .invalidNodeType

/-- `getSiblingIndex`. -/
def getSiblingIndex (t : AABBTree2 U) (index : Nat) : M Nat := do
  match ← getParentIndex t index with
  | none => .error .badDeref
  | some p =>
    match ← getNode t p with
    | .inner _ _ l r _ => .ok (if index = l then r else l)
    | _ => .error .invalidNodeType

/-- `getNodeHeight`: a leaf's height is 1. -/
def getNodeHeight (t : AABBTree2 U) (index : Nat) : M Nat := do
  match ← getNode t index with
  | .free _ => .error .invalidNodeType
  | .inner _ _ _ _ h => .ok h
  | .leaf _ _ _ => .ok 1

/-- `getNodeBounds`. -/
def getNodeBounds (t : AABBTree2 U) (index : Nat) : M BBox := do
  match ← getNode t index with
  | .free _ => .error .invalidNodeType
  | .inner b _ _ _ _ => .ok b
  | .leaf b _ _ => .ok b

/-- `storeNode`: pop the free-list head if one exists, append otherwise; a new
leaf is recorded in the lookup index. -/
def storeNode [DecidableEq U] (t : AABBTree2 U) (node : ANode U) :
    M (Nat × AABBTree2 U) := do
  let (index, t1) ←
    match t.freeNode with
    | some fi =>
      match ← getNode t fi with
      | .free next =>
          pure (fi, { t with nodes := t.nodes.set fi node, freeNode := next })
      | _ => (.error .badVariant : M (Nat × AABBTree2 U))
    | none => pure (t.nodes.length, { t with nodes := t.nodes ++ [node] })
  match node with
  | .leaf _ _ d => .ok (index, { t1 with leafForData := setData t1.leafForData d index })
  | _ => .ok (index, t1)

/-- `freeNode`: overwrite the slot with a free node pointing at the previous
free-list head. -/
def freeNode (t : AABBTree2 U) (index : Nat) : M (AABBTree2 U) := do
  match ← getNode t index with
  | .free _ => .error .invalidNodeType
  | _ =>
      .ok { t with nodes := t.nodes.set index (.free t.freeNode),
                   freeNode := some index }

/-- `moveNode`: relocate a node's content into another slot, fixing up the
children's parent pointers (inner) or the lookup index (leaf), then free the
source slot. -/
def moveNode [DecidableEq U] (t : AABBTree2 U) (fromIndex toIndex : Nat) :
    M (AABBTree2 U) := do
  let n ← getNode t fromIndex
  if toIndex < t.nodes.length then
    let t1 : AABBTree2 U := { t with nodes := t.nodes.set toIndex n }
    let t2 ←
      match n with
      | .free _ => pure t1
      | .inner _ _ l r _ => do
          let ta ← setParentIndex t1 l toIndex
          setParentIndex ta r toIndex
      | .leaf _ _ d => pure { t1 with leafForData := setData t1.leafForData d toIndex }
    freeNode t2 fromIndex
  else .error .badIndex

/-- `updateBounds`: recompute a cached inner bounds from the children, report
whether it changed. -/
def updateBounds (t : AABBTree2 U) (index : Nat) : M (Bool × AABBTree2 U) := do
  let l ← getLeftChildIndex t index
  let r ← getRightChildIndex t index
  let lb ← getNodeBounds t l
  let rb ← getNodeBounds t r
  match ← getNode t index with
  | .inner oldBounds p lc rc h =>
      let newBounds := merge lb rb
      .ok (decide (newBounds ≠ oldBounds),
           { t with nodes := t.nodes.set index (.inner newBounds p lc rc h) })
  | _ => .error .badVariant

/-- `updateHeight`: recompute a cached inner height from the children, report
whether it changed. -/
def updateHeight (t : AABBTree2 U) (index : Nat) : M (Bool × AABBTree2 U) := do
  let l ← getLeftChildIndex t index
  let r ← getRightChildIndex t index
  let lh ← getNodeHeight t l
  let rh ← getNodeHeight t r
  match ← getNode t index with
  | .inner b p lc rc oldHeight =>
      let newHeight := Max.max lh rh + 1
      .ok (decide (newHeight ≠ oldHeight),
           { t with nodes := t.nodes.set index (.inner b p lc rc newHeight) })
  | _ => .error .badVariant

/-- `selectSubtreeForInsertion`, with the function-local static round-robin
counter `choice` threaded explicitly (it is shared, process-wide state in the
C++ code). -/
def selectSubtreeForInsertion (t : AABBTree2 U) (choice : Nat)
    (node1Index node2Index : Nat) (bounds : BBox) : M (Nat × Nat) := do
  let node1Bounds ← getNodeBounds t node1Index
  let node2Bounds ← getNodeBounds t node2Index
  let node1Contains := containsBox node1Bounds bounds
  let node2Contains := containsBox node2Bounds bounds
  if node1Contains && !node2Contains then
    .ok (node1Index, choice)
  else if !node1Contains && node2Contains then
    .ok (node2Index, choice)
  else
    let volCase : Option Nat :=
      if !node1Contains && !node2Contains then
        let diff1 := esub (volume (merge node1Bounds bounds)) (volume node1Bounds)
        let diff2 := esub (volume (merge node2Bounds bounds)) (volume node2Bounds)
        if elt diff1 diff2 then some node1Index
        else if elt diff2 diff1 then some node2Index
        else none
      else none
    match volCase with
    | some idx => .ok (idx, choice)
    | none => do
      let node1Height ← getNodeHeight t node1Index
      let node2Height ← getNodeHeight t node2Index
      if node1Height < node2Height then .ok (node1Index, choice)
      else if node2Height < node1Height then .ok (node2Index, choice)
      else if choice % 2 = 0 then .ok (node1Index, choice + 1)
      else .ok (node2Index, choice + 1)

/-- The private recursive `insert`: descend to a leaf chosen by
`selectSubtreeForInsertion`, split that leaf into an inner node with the
relocated original leaf and a new leaf as children, and recompute cached
bounds/heights on the way up, skipping a recomputation as soon as the
corresponding value reported no change. -/
def insertRec [DecidableEq U] (fuel : Nat) (t : AABBTree2 U) (choice : Nat)
    (nodeIndex : Nat) (bounds : BBox) (data : U) :
    M ((Bool × Bool) × AABBTree2 U × Nat) :=
  match fuel with
  | 0 => .error .outOfFuel
  | fuel + 1 => do
    match ← getNode t nodeIndex with
    | .free _ => .error .invalidNodeType
    | .inner _ _ _ _ _ => do
        let l ← getLeftChildIndex t nodeIndex
        let r ← getRightChildIndex t nodeIndex
        let (subtreeIndex, c1) ← selectSubtreeForInsertion t choice l r bounds
        let ((bc0, hc0), t1, c2) ← insertRec fuel t c1 subtreeIndex bounds data
        let (bc, t2) ← if bc0 then updateBounds t1 nodeIndex else pure (false, t1)
        let (hc, t3) ← if hc0 then updateHeight t2 nodeIndex else pure (false, t2)
        .ok ((bc, hc), t3, c2)
    | .leaf lb lp ld => do
        let mergedBounds := merge lb bounds
        let (a1, t1) ← storeNode t (.leaf lb (some nodeIndex) ld)
        let (a2, t2) ← storeNode t1 (.leaf bounds (some nodeIndex) data)
        .ok ((true, true),
             { t2 with nodes := t2.nodes.set nodeIndex (.inner mergedBounds lp a1 a2 2) },
             choice)

/-- `checkBounds`: reject a box with a NaN coordinate. -/
def checkBounds (bounds : BBox) : M Unit :=
  if vecIsNaN bounds.min || vecIsNaN bounds.max then .error .invalidBounds
  else .ok ()

/-- `contains`: whether a key has a mapped leaf. -/
def contains [DecidableEq U] (t : AABBTree2 U) (data : U) : Bool :=
  (findData t.leafForData data).isSome

/-- `empty`. -/
def empty (t : AABBTree2 U) : Bool := t.nodes.isEmpty

/-- The tree constructed empty (the capacity hint only reserves storage). -/
def emptyTree : AABBTree2 U := ⟨[], [], none⟩

/-- `clear`: discard all slots and reset the free list and lookup index. -/
def clear (_t : AABBTree2 U) : AABBTree2 U := emptyTree

/-- The public `insert`.  The fuel `t.nodes.length + 1` dominates the descent
depth on every well-formed tree. -/
def insert [DecidableEq U] (t : AABBTree2 U) (choice : Nat) (bounds : BBox)
    (data : U) : M (AABBTree2 U × Nat) := do
  checkBounds bounds
  if contains t data then .error .duplicateKey
  else if t.nodes.isEmpty then do
    let (_, t1) ← storeNode t (.leaf bounds none data)
    .ok (t1, choice)
  else do
    let (_, t1, c1) ← insertRec (t.nodes.length + 1) t choice 0 bounds data
    .ok (t1, c1)

/-- The upward recomputation loop of `remove`: while the current slot exists,
is not the root, and either value is still marked changed, step to the parent
and recompute there whichever of bounds/height is still marked changed. -/
def removeLoop (fuel : Nat) (t : AABBTree2 U) (parentIndex : Option Nat)
    (boundsChanged heightChanged : Bool) : M (AABBTree2 U) :=
  match fuel with
  | 0 => .error .outOfFuel
  | fuel + 1 =>
    match parentIndex with
    | none => .ok t
    | some p =>
      if p ≠ 0 ∧ (boundsChanged || heightChanged) then do
        match ← getParentIndex t p with
        | none => .error .badDeref
        | some q => do
          let (bc, t1) ← if boundsChanged then updateBounds t q else pure (false, t)
          let (hc, t2) ← if heightChanged then updateHeight t1 q else pure (false, t1)
          removeLoop fuel t2 (some q) bc hc
      else .ok t

/-- The public `remove`: false for an unmapped key; clear the tree when the
target is the root; otherwise relocate the sibling into the parent's slot,
free the two vacated slots, erase the lookup entry and recompute cached values
upward. -/
def remove [DecidableEq U] (t : AABBTree2 U) (data : U) : M (Bool × AABBTree2 U) := do
  match findData t.leafForData data with
  | none => .ok (false, t)
  | some index =>
    if index = 0 then
      .ok (true, clear t)
    else do
      match ← getParentIndex t index with
      | none => .error .badDeref
      | some p => do
        let grandParentIndex ← getParentIndex t p
        let siblingIndex ← getSiblingIndex t index
        let t1 ← moveNode t siblingIndex p
        let t2 ← setParentIndex t1 p grandParentIndex
        let t3 ← freeNode t2 index
        let t4 : AABBTree2 U := { t3 with leafForData := eraseData t3.leafForData data }
        let t5 ← removeLoop (t4.nodes.length + 1) t4 (some p) true true
        .ok (true, t5)

/-- The public `update`: validate the new bounds, remove (raising `notFound`
when the key is absent), then insert. -/
def update [DecidableEq U] (t : AABBTree2 U) (choice : Nat) (newBounds : BBox)
    (data : U) : M (AABBTree2 U × Nat) := do
  checkBounds newBounds
  let (found, t1) ← remove t data
  if found then insert t1 choice newBounds data
  else .error .notFound

/-- `bounds`: the root bounds, or the NaN box on an empty tree. -/
def bounds (t : AABBTree2 U) : M BBox :=
  if t.nodes.isEmpty then .ok nanBox else getNodeBounds t 0

/-- `visitNode`: the shared depth-first query traversal, specialised to the
visitors used by the two queries, which test a node's bounds with the same
predicate at inner nodes (deciding whether to recurse into both children) and
at leaves (deciding whether to emit the payload). -/
def visitNode (fuel : Nat) (t : AABBTree2 U) (test : BBox → Bool) (index : Nat) :
    M (List U) :=
  match fuel with
  | 0 => .error .outOfFuel
  | fuel + 1 => do
    match ← getNode t index with
    | .free _ => .error .invalidNodeType
    | .inner b _ l r _ =>
        if test b then do
          let xs ← visitNode fuel t test l
          let ys ← visitNode fuel t test r
          .ok (xs ++ ys)
        else .ok []
    | .leaf b _ d => .ok (if test b then [d] else [])

/-- `visitNodes`: start the traversal at the root of a non-empty tree. -/
def visitNodes (t : AABBTree2 U) (test : BBox → Bool) : M (List U) :=
  if t.nodes.isEmpty then .ok [] else visitNode (t.nodes.length + 1) t test 0

/-- `findContainers`: every payload whose box contains the point. -/
def findContainers (t : AABBTree2 U) (point : Vec3) : M (List U) :=
  visitNodes t (fun b => containsPoint b point)

/-- `findIntersectors`: every payload whose box passes the ray test. -/
def findIntersectors (t : AABBTree2 U) (ray : Ray) : M (List U) :=
  visitNodes t (intersectsTest ray)

/-- `compareSubtrees`: the recursive logical-shape comparison; inner nodes
compare by cached bounds and height and then by children, leaves by bounds and
payload, and an out-of-range index compares unequal. -/
def compareSubtrees [DecidableEq U] (fuel : Nat) (lhsNodes rhsNodes : List (ANode U))
    (lhsIndex rhsIndex : Nat) : Bool :=
  match fuel with
  | 0 => false
  | fuel + 1 =>
    match lhsNodes[lhsIndex]?, rhsNodes[rhsIndex]? with
    | some (.free _), some (.free _) => true
    | some (.inner lb _ ll lr lh), some (.inner rb _ rl rr rh) =>
        decide (lb = rb) && decide (lh = rh)
          && compareSubtrees fuel lhsNodes rhsNodes ll rl
          && compareSubtrees fuel lhsNodes rhsNodes lr rr
    | some (.leaf lb _ ld), some (.leaf rb _ rd) =>
        decide (lb = rb) && decide (ld = rd)
    | _, _ => false

/-- `operator==` on trees: both empty, or the root subtrees compare equal. -/
def treeEq [DecidableEq U] (lhs rhs : AABBTree2 U) : Bool :=
  (lhs.nodes.isEmpty && rhs.nodes.isEmpty)
    || compareSubtrees (lhs.nodes.length + rhs.nodes.length + 1)
        lhs.nodes rhs.nodes 0 0

/-- All (bounds, data) pairs currently held by leaf slots of the arena, in
arena order: the brute-force view of the tree contents. -/
def allLeaves (t : AABBTree2 U) : List (BBox × U) :=
  t.nodes.filterMap (fun n =>
    match n with
    | .leaf b _ d => some (b, d)
    | _ => none)

/-! ## The logical tree underlying a well-formed arena -/

/-- The logical shape of a (sub)tree: the spec's binary tree whose inner data
(bounds, height) is derived rather than cached. -/
inductive BTree (U : Type) where
  | leaf (bounds : BBox) (data : U)
  | node (l r : BTree U)
deriving DecidableEq

/-- Derived height: a leaf has height 1. -/
def bheight : BTree U → Nat
  | .leaf _ _ => 1
  | .node l r => Max.max (bheight l) (bheight r) + 1

/-- Derived bounds: the merge of the two children's bounds. -/
def bbounds : BTree U → BBox
  | .leaf b _ => b
  | .node l r => merge (bbounds l) (bbounds r)

/-- The (bounds, data) pairs at the leaves, left to right. -/
def leavesOf : BTree U → List (BBox × U)
  | .leaf b d => [(b, d)]
  | .node l r => leavesOf l ++ leavesOf r

/-- The keys at the leaves, left to right. -/
def keysOf : BTree U → List U
  | .leaf _ d => [d]
  | .node l r => keysOf l ++ keysOf r

/-- Every leaf box of the logical tree is free of NaN. -/
def goodTree : BTree U → Bool
  | .leaf b _ => goodBox b
  | .node l r => goodTree l && goodTree r

/-- The slot at `i` (with recorded parent pointer `p`) represents the logical
tree `B`, occupying exactly the slot set `s`; cached bounds and heights of
inner slots agree with the derived values. -/
inductive Rep (t : AABBTree2 U) : Nat → Option Nat → BTree U → Finset Nat → Prop where
  | leaf : ∀ {i p b d}, t.nodes[i]? = some (.leaf b p d) → Rep t i p (.leaf b d) {i}
  | node : ∀ {i p l r L R sl sr},
      t.nodes[i]? = some (.inner (bbounds (.node L R)) p l r (bheight (.node L R))) →
      Rep t l (some i) L sl → Rep t r (some i) R sr →
      Disjoint sl sr → i ∉ sl → i ∉ sr →
      Rep t i p (.node L R) ({i} ∪ (sl ∪ sr))

/-- The free slots reachable from a head pointer, in chain order. -/
inductive FreeChain (t : AABBTree2 U) : Option Nat → List Nat → Prop where
  | nil : FreeChain t none []
  | cons : ∀ {i next rest}, t.nodes[i]? = some (.free next) →
      FreeChain t next rest → i ∉ rest → FreeChain t (some i) (i :: rest)

/-- The lookup index is a bijection between leaf slots and their keys: keys are
unique, every entry points at a leaf slot holding that key, and every leaf slot
is recorded. -/
def MapInv (t : AABBTree2 U) : Prop :=
  (t.leafForData.map Prod.fst).Nodup
    ∧ (∀ e ∈ t.leafForData, ∃ b pr, t.nodes[e.2]? = some (.leaf b pr e.1))
    ∧ (∀ i b pr d, t.nodes[i]? = some (.leaf b pr d) → (d, i) ∈ t.leafForData)

/-- Well-formedness of a non-empty tree: the root subtree at slot 0, the free
list, the cover of the arena by the two, the lookup index laws, and NaN-free
leaf boxes. -/
structure WFx (t : AABBTree2 U) (B : BTree U) (s : Finset Nat) (fl : List Nat) : Prop where
  rep : Rep t 0 none B s
  freechain : FreeChain t t.freeNode fl
  cover : ∀ j, j < t.nodes.length → j ∈ s ∨ j ∈ fl
  mapinv : MapInv t
  good : goodTree B = true

/-- Well-formedness: the tree is the empty tree, or a well-formed non-empty
tree. -/
def WF (t : AABBTree2 U) : Prop :=
  t = emptyTree ∨ ∃ B s fl, WFx t B s fl

/-- The trees reachable from the empty tree by successful public operations
(with the shared round-robin counter threaded at arbitrary values). -/
inductive Reaches [DecidableEq U] : AABBTree2 U → Prop where
  | base : Reaches emptyTree
  | step_insert : ∀ {t c b d t' c'}, Reaches t →
      insert t c b d = .ok (t', c') → Reaches t'
  | step_remove : ∀ {t d r t'}, Reaches t →
      remove t d = .ok (r, t') → Reaches t'
  | step_update : ∀ {t c b d t' c'}, Reaches t →
      update t c b d = .ok (t', c') → Reaches t'
  | step_clear : ∀ {t}, Reaches t → Reaches (clear t)

/-! ## Basic lemmas about the representation relation -/

@[simp]
theorem bind_ok {α β : Type} (a : α) (f : α → M β) :
    (Except.ok a : M α) >>= f = f a := rfl

@[simp]
theorem bind_error {α β : Type} (e : TreeError) (f : α → M β) :
    (Except.error e : M α) >>= f = .error e := rfl

@[simp]
theorem pure_eq_ok {α : Type} (a : α) : (pure a : M α) = Except.ok a := rfl

theorem ok_pair_inj {α β : Type} {a1 a2 : α} {b1 b2 : β}
    (h : (Except.ok (a1, b1) : M (α × β)) = .ok (a2, b2)) : a1 = a2 ∧ b1 = b2 := by
  injection h with h2
  exact ⟨congrArg Prod.fst h2, congrArg Prod.snd h2⟩

theorem set_getElem?_self {α : Type} {l : List α} {i : Nat} {a : α} (h : i < l.length) :
    (l.set i a)[i]? = some a := by
  rw [List.getElem?_set]
  simp [h]

theorem Rep.root_mem {t : AABBTree2 U} {i p B s} (h : Rep t i p B s) : i ∈ s := by
  cases h <;> simp

theorem Rep.mem_lt {t : AABBTree2 U} {i p B s} (h : Rep t i p B s) :
    ∀ j ∈ s, j < t.nodes.length := by
  induction h with
  | leaf hget =>
    intro j hj
    simp only [Finset.mem_singleton] at hj
    subst hj
    rcases List.getElem?_eq_some_iff.mp (by assumption) with ⟨hlt, _⟩
    exact hlt
  | node hget hl hr hdisj hil hir ihl ihr =>
    intro j hj
    simp only [Finset.mem_union, Finset.mem_singleton] at hj
    rcases hj with hj | hj | hj
    · subst hj
      rcases List.getElem?_eq_some_iff.mp hget with ⟨hlt, _⟩
      exact hlt
    · exact ihl j hj
    · exact ihr j hj

theorem Rep.not_free {t : AABBTree2 U} {i p B s} (h : Rep t i p B s) :
    ∀ j ∈ s, ∀ nx, t.nodes[j]? ≠ some (.free nx) := by
  induction h with
  | leaf hget =>
    intro j hj nx
    simp only [Finset.mem_singleton] at hj
    subst hj
    simp [hget]
  | node hget hl hr hdisj hil hir ihl ihr =>
    intro j hj nx
    simp only [Finset.mem_union, Finset.mem_singleton] at hj
    rcases hj with hj | hj | hj
    · subst hj; simp [hget]
    · exact ihl j hj nx
    · exact ihr j hj nx

/-- A representation only depends on the slots it occupies. -/
theorem Rep.frame {t t' : AABBTree2 U} {i p B s}
    (h : Rep t i p B s) (hagree : ∀ j ∈ s, t'.nodes[j]? = t.nodes[j]?) :
    Rep t' i p B s := by
  induction h with
  | leaf hget =>
    exact .leaf ((hagree _ (by simp)).trans hget)
  | node hget hl hr hdisj hil hir ihl ihr =>
    refine .node ((hagree _ (by simp)).trans hget) ?_ ?_ hdisj hil hir
    · exact ihl fun j hj => hagree j (by simp [hj])
    · exact ihr fun j hj => hagree j (by simp [hj])

theorem Rep.getNode_eq {t : AABBTree2 U} {i p B s} (h : Rep t i p B s) :
    ∃ n, getNode t i = .ok n ∧ t.nodes[i]? = some n := by
  cases h with
  | leaf hget => exact ⟨_, by simp [getNode, hget], hget⟩
  | node hget hl hr => exact ⟨_, by simp [getNode, hget], hget⟩

theorem Rep.getNodeBounds_eq {t : AABBTree2 U} {i p B s} (h : Rep t i p B s) :
    getNodeBounds t i = .ok (bbounds B) := by
  cases h with
  | leaf hget => simp [getNodeBounds, getNode, hget, bbounds]
  | node hget hl hr => simp [getNodeBounds, getNode, hget]

theorem Rep.getNodeHeight_eq {t : AABBTree2 U} {i p B s} (h : Rep t i p B s) :
    getNodeHeight t i = .ok (bheight B) := by
  cases h with
  | leaf hget => simp [getNodeHeight, getNode, hget, bheight]
  | node hget hl hr => simp [getNodeHeight, getNode, hget]

theorem Rep.getParentIndex_eq {t : AABBTree2 U} {i p B s} (h : Rep t i p B s) :
    getParentIndex t i = .ok p := by
  cases h with
  | leaf hget => simp [getParentIndex, getNode, hget]
  | node hget hl hr => simp [getParentIndex, getNode, hget]

/-- Any leaf slot inside the occupied set is a leaf of the logical tree. -/
theorem Rep.leaf_of_mem {t : AABBTree2 U} {i p B s} (h : Rep t i p B s) :
    ∀ j ∈ s, ∀ b pj d, t.nodes[j]? = some (.leaf b pj d) → (b, d) ∈ leavesOf B := by
  induction h with
  | leaf hget =>
    intro j hj b pj d hjget
    simp only [Finset.mem_singleton] at hj
    subst hj
    rw [hget] at hjget
    cases hjget
    simp [leavesOf]
  | node hget hl hr hdisj hil hir ihl ihr =>
    intro j hj b pj d hjget
    simp only [Finset.mem_union, Finset.mem_singleton] at hj
    rcases hj with hj | hj | hj
    · subst hj; rw [hget] at hjget; cases hjget
    · exact List.mem_append_left _ (ihl j hj b pj d hjget)
    · exact List.mem_append_right _ (ihr j hj b pj d hjget)

/-- Every leaf of the logical tree sits at some occupied slot. -/
theorem Rep.mem_leaf {t : AABBTree2 U} {i p B s} (h : Rep t i p B s) :
    ∀ b d, (b, d) ∈ leavesOf B → ∃ j ∈ s, ∃ pj, t.nodes[j]? = some (.leaf b pj d) := by
  induction h with
  | leaf hget =>
    intro b d hbd
    simp only [leavesOf, List.mem_singleton] at hbd
    cases hbd
    exact ⟨_, by simp, _, hget⟩
  | node hget hl hr hdisj hil hir ihl ihr =>
    intro b d hbd
    simp only [leavesOf, List.mem_append] at hbd
    rcases hbd with hbd | hbd
    · rcases ihl b d hbd with ⟨j, hj, pj, hg⟩
      exact ⟨j, by simp [hj], pj, hg⟩
    · rcases ihr b d hbd with ⟨j, hj, pj, hg⟩
      exact ⟨j, by simp [hj], pj, hg⟩

/-- The subtree rooted at any occupied slot is itself represented. -/
theorem Rep.subtree {t : AABBTree2 U} {i p B s} (h : Rep t i p B s) :
    ∀ j ∈ s, ∃ Bj pj sj, Rep t j pj Bj sj ∧ sj ⊆ s := by
  induction h with
  | leaf hget =>
    intro j hj
    simp only [Finset.mem_singleton] at hj
    subst hj
    exact ⟨_, _, _, .leaf hget, by simp⟩
  | node hget hl hr hdisj hil hir ihl ihr =>
    intro j hj
    simp only [Finset.mem_union, Finset.mem_singleton] at hj
    rcases hj with hj | hj | hj
    · subst hj
      exact ⟨_, _, _, .node hget hl hr hdisj hil hir, le_refl _⟩
    · rcases ihl j hj with ⟨Bj, pj, sj, hrep, hsub⟩
      exact ⟨Bj, pj, sj, hrep, hsub.trans (by intro x hx; simp [hx])⟩
    · rcases ihr j hj with ⟨Bj, pj, sj, hrep, hsub⟩
      exact ⟨Bj, pj, sj, hrep, hsub.trans (by intro x hx; simp [hx])⟩

theorem FreeChain.mem_free {t : AABBTree2 U} {h0 fl} (h : FreeChain t h0 fl) :
    ∀ j ∈ fl, ∃ nx, t.nodes[j]? = some (.free nx) := by
  induction h with
  | nil => intro j hj; cases hj
  | cons hget hnext hnotmem ih =>
    intro j hj
    rcases List.mem_cons.mp hj with hj | hj
    · subst hj; exact ⟨_, hget⟩
    · exact ih j hj

theorem FreeChain.frame_chain {t t' : AABBTree2 U} {h0 fl}
    (h : FreeChain t h0 fl) (hagree : ∀ j ∈ fl, t'.nodes[j]? = t.nodes[j]?) :
    FreeChain t' h0 fl := by
  induction h with
  | nil => exact .nil
  | cons hget hnext hnotmem ih =>
    refine .cons ((hagree _ (by simp)).trans hget) ?_ hnotmem
    exact ih fun j hj => hagree j (by simp [hj])

/-- Occupied slots and free-chain slots are disjoint. -/
theorem rep_freechain_disjoint {t : AABBTree2 U} {i p B s h0 fl}
    (hrep : Rep t i p B s) (hfc : FreeChain t h0 fl) :
    ∀ j ∈ s, j ∉ fl := by
  intro j hjs hjf
  rcases hfc.mem_free j hjf with ⟨nx, hget⟩
  exact hrep.not_free j hjs nx hget

theorem Rep.bheight_le_card {t : AABBTree2 U} {i p B s} (h : Rep t i p B s) :
    bheight B ≤ s.card := by
  induction h with
  | leaf hget => simp [bheight]
  | node hget hl hr hdisj hil hir ihl ihr =>
    rename_i i2 p2 l2 r2 L2 R2 sl2 sr2
    have hcard : ({i2} ∪ (sl2 ∪ sr2) : Finset Nat).card = 1 + (sl2 ∪ sr2).card := by
      rw [Finset.card_union_of_disjoint]
      · simp
      · simp only [Finset.disjoint_union_right, Finset.disjoint_singleton_left]
        exact ⟨hil, hir⟩
    simp only [bheight]
    rw [hcard, Finset.card_union_of_disjoint hdisj]
    omega

theorem Rep.card_le_length {t : AABBTree2 U} {i p B s} (h : Rep t i p B s) :
    s.card ≤ t.nodes.length := by
  have : s ⊆ Finset.range t.nodes.length := by
    intro j hj
    simp only [Finset.mem_range]
    exact h.mem_lt j hj
  calc s.card ≤ (Finset.range t.nodes.length).card := Finset.card_le_card this
    _ = t.nodes.length := by simp

/-! ## Lookup-index (association list) lemmas -/

theorem findData_mem [DecidableEq U] {l : List (U × Nat)} {d : U} {i : Nat}
    (h : findData l d = some i) : (d, i) ∈ l := by
  induction l with
  | nil => simp [findData] at h
  | cons e rest ih =>
    obtain ⟨k, j⟩ := e
    simp only [findData] at h
    by_cases hk : k = d
    · simp [hk] at h
      simp [hk, h]
    · simp [hk] at h
      exact List.mem_cons_of_mem _ (ih h)

theorem mem_findData_isSome [DecidableEq U] {l : List (U × Nat)} {d : U} {i : Nat}
    (h : (d, i) ∈ l) : (findData l d).isSome := by
  induction l with
  | nil => cases h
  | cons e rest ih =>
    obtain ⟨k, j⟩ := e
    simp only [findData]
    by_cases hk : k = d
    · simp [hk]
    · simp only [hk, if_false]
      rcases List.mem_cons.mp h with h | h
      · cases h; simp at hk
      · exact ih h

theorem mem_findData [DecidableEq U] {l : List (U × Nat)} {d : U} {i : Nat}
    (hnd : (l.map Prod.fst).Nodup) (h : (d, i) ∈ l) : findData l d = some i := by
  induction l with
  | nil => cases h
  | cons e rest ih =>
    obtain ⟨k, j⟩ := e
    simp only [List.map_cons, List.nodup_cons] at hnd
    simp only [findData]
    rcases List.mem_cons.mp h with h | h
    · cases h; simp
    · have hk : k ≠ d := by
        intro hkd
        apply hnd.1
        rw [hkd]
        exact List.mem_map.mpr ⟨(d, i), h, rfl⟩
      simp only [hk, if_false]
      exact ih hnd.2 h

theorem findData_none [DecidableEq U] {l : List (U × Nat)} {d : U}
    (h : findData l d = none) : ∀ i, (d, i) ∉ l := by
  intro i hmem
  have := mem_findData_isSome hmem
  rw [h] at this
  cases this

theorem mem_setData [DecidableEq U] {l : List (U × Nat)} {d : U} {i : Nat}
    (hnd : (l.map Prod.fst).Nodup) :
    ∀ e ∈ setData l d i, e = (d, i) ∨ (e ∈ l ∧ e.1 ≠ d) := by
  induction l with
  | nil => intro e he; simp [setData] at he; simp [he]
  | cons p rest ih =>
    obtain ⟨k, j⟩ := p
    simp only [List.map_cons, List.nodup_cons] at hnd
    intro e he
    simp only [setData] at he
    by_cases hk : k = d
    · subst hk
      rcases List.mem_cons.mp (by simpa [if_pos rfl] using he) with h | h
      · left; simp [h]
      · right
        refine ⟨List.mem_cons_of_mem _ h, ?_⟩
        intro hek
        exact hnd.1 (List.mem_map.mpr ⟨e, h, hek⟩)
    · rcases List.mem_cons.mp (by simpa [hk] using he) with h | h
      · subst h
        right
        refine ⟨List.mem_cons_self _ _, ?_⟩
        simpa using hk
      · exact match ih hnd.2 e h with
        | .inl h1 => .inl h1
        | .inr ⟨h1, h2⟩ => .inr ⟨List.mem_cons_of_mem _ h1, h2⟩

theorem setData_mem_self [DecidableEq U] (l : List (U × Nat)) (d : U) (i : Nat) :
    (d, i) ∈ setData l d i := by
  induction l with
  | nil => simp [setData]
  | cons p rest ih =>
    obtain ⟨k, j⟩ := p
    simp only [setData]
    by_cases hk : k = d
    · subst hk; simp
    · simp only [hk, if_false]
      exact List.mem_cons_of_mem _ ih

theorem setData_mem_of_ne [DecidableEq U] {l : List (U × Nat)} {e : U × Nat} {d : U}
    (hmem : e ∈ l) (hne : e.1 ≠ d) (i : Nat) : e ∈ setData l d i := by
  induction l with
  | nil => cases hmem
  | cons p rest ih =>
    obtain ⟨k, j⟩ := p
    simp only [setData]
    by_cases hk : k = d
    · subst hk
      rcases List.mem_cons.mp hmem with h | h
      · subst h; simp at hne
      · simp only [if_pos rfl]
        exact List.mem_cons_of_mem _ h
    · simp only [hk, if_false]
      rcases List.mem_cons.mp hmem with h | h
      · subst h; exact List.mem_cons_self _ _
      · exact List.mem_cons_of_mem _ (ih h)

theorem setData_map_fst [DecidableEq U] (l : List (U × Nat)) (d : U) (i : Nat) :
    (setData l d i).map Prod.fst = l.map Prod.fst
      ∨ (setData l d i).map Prod.fst = l.map Prod.fst ++ [d] := by
  induction l with
  | nil => right; simp [setData]
  | cons p rest ih =>
    obtain ⟨k, j⟩ := p
    simp only [setData]
    by_cases hk : k = d
    · subst hk; left; simp
    · simp only [hk, if_false, List.map_cons]
      rcases ih with h | h
      · left; rw [h]
      · right; rw [h]; simp

theorem setData_nodup [DecidableEq U] {l : List (U × Nat)} {d : U} {i : Nat}
    (hnd : (l.map Prod.fst).Nodup) :
    ((setData l d i).map Prod.fst).Nodup := by
  induction l with
  | nil => simp [setData]
  | cons p rest ih =>
    obtain ⟨k, j⟩ := p
    simp only [List.map_cons, List.nodup_cons] at hnd
    simp only [setData]
    by_cases hk : k = d
    · subst hk
      rw [if_pos rfl]
      simp only [List.map_cons, List.nodup_cons]
      exact hnd
    · simp only [hk, if_false, List.map_cons, List.nodup_cons]
      refine ⟨?_, ih hnd.2⟩
      intro hmem
      rcases setData_map_fst rest d i with h | h
      · rw [h] at hmem; exact hnd.1 hmem
      · rw [h] at hmem
        rcases List.mem_append.mp hmem with h2 | h2
        · exact hnd.1 h2
        · simp at h2; exact hk h2

theorem eraseData_sublist [DecidableEq U] (l : List (U × Nat)) (d : U) :
    (eraseData l d).Sublist l := by
  induction l with
  | nil => simp [eraseData]
  | cons p rest ih =>
    obtain ⟨k, j⟩ := p
    simp only [eraseData]
    by_cases hk : k = d
    · simp only [hk, if_pos rfl]
      exact (List.sublist_cons_self _ _)
    · simp only [hk, if_false]
      exact ih.cons₂ _

theorem eraseData_nodup [DecidableEq U] {l : List (U × Nat)} {d : U}
    (hnd : (l.map Prod.fst).Nodup) : ((eraseData l d).map Prod.fst).Nodup :=
  (((eraseData_sublist l d).map Prod.fst).nodup hnd)

theorem mem_eraseData [DecidableEq U] {l : List (U × Nat)} {d : U}
    (hnd : (l.map Prod.fst).Nodup) :
    ∀ e ∈ eraseData l d, e ∈ l ∧ e.1 ≠ d := by
  induction l with
  | nil => intro e he; simp [eraseData] at he
  | cons p rest ih =>
    obtain ⟨k, j⟩ := p
    simp only [List.map_cons, List.nodup_cons] at hnd
    intro e he
    simp only [eraseData] at he
    by_cases hk : k = d
    · subst hk
      refine ⟨List.mem_cons_of_mem _ (by simpa using he), ?_⟩
      intro hek
      exact hnd.1 (List.mem_map.mpr ⟨e, by simpa using he, hek⟩)
    · rcases List.mem_cons.mp (by simpa [hk] using he) with h | h
      · subst h
        exact ⟨List.mem_cons_self _ _, by simpa using hk⟩
      · rcases ih hnd.2 e h with ⟨h1, h2⟩
        exact ⟨List.mem_cons_of_mem _ h1, h2⟩

theorem eraseData_mem_of_ne [DecidableEq U] {l : List (U × Nat)} {e : U × Nat} {d : U}
    (hmem : e ∈ l) (hne : e.1 ≠ d) : e ∈ eraseData l d := by
  induction l with
  | nil => cases hmem
  | cons p rest ih =>
    obtain ⟨k, j⟩ := p
    simp only [eraseData]
    by_cases hk : k = d
    · subst hk
      rcases List.mem_cons.mp hmem with h | h
      · subst h; simp at hne
      · simpa using h
    · simp only [hk, if_false]
      rcases List.mem_cons.mp hmem with h | h
      · subst h; exact List.mem_cons_self _ _
      · exact List.mem_cons_of_mem _ (ih h)

/-! ## Allocation -/

/-- What `storeNode` does: it returns a slot popped from the free list or
appended at the end, writes the node there, leaves every other slot alone,
shortens the free chain accordingly, and records a stored leaf in the lookup
index. -/
theorem storeNode_ok [DecidableEq U] {t : AABBTree2 U} {fl : List Nat}
    (hfc : FreeChain t t.freeNode fl) (n : ANode U) :
    ∃ idx t' fl', storeNode t n = .ok (idx, t') ∧
      t'.nodes[idx]? = some n ∧
      (∀ j, j ≠ idx → t'.nodes[j]? = t.nodes[j]?) ∧
      (idx ∈ fl ∨ idx = t.nodes.length) ∧
      t.nodes.length ≤ t'.nodes.length ∧
      (∀ j, j < t'.nodes.length → j < t.nodes.length ∨ j = idx) ∧
      FreeChain t' t'.freeNode fl' ∧
      (∀ j ∈ fl', j ∈ fl) ∧ (∀ j ∈ fl, j = idx ∨ j ∈ fl') ∧ idx ∉ fl' ∧
      t'.leafForData = (match n with
        | .leaf _ _ d => setData t.leafForData d idx
        | _ => t.leafForData) := by
  rcases hfn : t.freeNode with _ | i
  · rw [hfn] at hfc
    cases hfc
    refine ⟨t.nodes.length,
      (match n with
       | .leaf b pr d =>
          { t with nodes := t.nodes ++ [ANode.leaf b pr d],
                   leafForData := setData t.leafForData d t.nodes.length }
       | .free nx => { t with nodes := t.nodes ++ [ANode.free nx] }
       | .inner b pr l r h => { t with nodes := t.nodes ++ [ANode.inner b pr l r h] }),
      [], ?_, ?_, ?_, ?_, ?_, ?_, ?_, ?_, ?_, ?_, ?_⟩
    · cases n <;> simp [storeNode, hfn]
    · cases n <;> simp [List.getElem?_concat_length]
    · intro j hj
      cases n <;>
      · simp only
        rcases Nat.lt_trichotomy j t.nodes.length with h | h | h
        · rw [List.getElem?_append_left h]
        · exact absurd h hj
        · rw [List.getElem?_eq_none (by simp; omega), List.getElem?_eq_none (by omega)]
    · right; rfl
    · cases n <;> simp
    · intro j hj
      cases n <;> simp at hj <;> omega
    · cases n <;>
      · show FreeChain _ t.freeNode []
        rw [hfn]
        exact .nil
    · simp
    · simp
    · simp
    · cases n <;> rfl
  · rw [hfn] at hfc
    rcases hfc with _ | ⟨hget, hrest, hnotmem⟩
    rename_i next rest
    have hilt : i < t.nodes.length := by
      rcases List.getElem?_eq_some_iff.mp hget with ⟨h, _⟩
      exact h
    refine ⟨i,
      (match n with
       | .leaf b pr d =>
          { t with nodes := t.nodes.set i (ANode.leaf b pr d), freeNode := next,
                   leafForData := setData t.leafForData d i }
       | .free nx => { t with nodes := t.nodes.set i (ANode.free nx), freeNode := next }
       | .inner b pr l r h =>
          { t with nodes := t.nodes.set i (ANode.inner b pr l r h), freeNode := next }),
      rest, ?_, ?_, ?_, ?_, ?_, ?_, ?_, ?_, ?_, ?_, ?_⟩
    · cases n <;> simp [storeNode, hfn, getNode, hget]
    · cases n <;> simp [List.getElem?_set, hilt]
    · intro j hj
      cases n <;> · simp only; rw [List.getElem?_set_ne (by omega)]
    · left; exact List.mem_cons_self _ _
    · cases n <;> simp
    · intro j hj
      cases n <;> simp at hj <;> omega
    · cases n <;>
      · refine FreeChain.frame_chain hrest ?_
        intro j hj
        simp only
        exact List.getElem?_set_ne (fun h => by cases h; exact hnotmem hj)
    · intro j hj; exact List.mem_cons_of_mem _ hj
    · intro j hj
      rcases List.mem_cons.mp hj with h | h
      · left; exact h
      · right; exact h
    · exact hnotmem
    · cases n <;> rfl

/-! ## Insertion -/

/-- The logical effect of the insertion descent: some leaf `L0` of the tree is
replaced by an inner node whose left child is (the relocation of) `L0` and
whose right child is the new leaf. -/
inductive Inserted (bounds : BBox) (d : U) : BTree U → BTree U → Prop where
  | leaf : ∀ b0 d0, Inserted bounds d (.leaf b0 d0) (.node (.leaf b0 d0) (.leaf bounds d))
  | left : ∀ {L L'} (R : BTree U), Inserted bounds d L L' →
      Inserted bounds d (.node L R) (.node L' R)
  | right : ∀ (L : BTree U) {R R'}, Inserted bounds d R R' →
      Inserted bounds d (.node L R) (.node L R')

theorem Inserted.goodTree {bounds : BBox} {d : U} {B B' : BTree U}
    (h : Inserted bounds d B B') (hg : goodTree B = true) (hb : goodBox bounds = true) :
    goodTree B' = true := by
  induction h with
  | leaf b0 d0 => simp only [AABB.goodTree] at hg ⊢; simp [hg, hb]
  | left R hI ih =>
    simp only [AABB.goodTree, Bool.and_eq_true] at hg ⊢
    exact ⟨ih hg.1, hg.2⟩
  | right L hI ih =>
    simp only [AABB.goodTree, Bool.and_eq_true] at hg ⊢
    exact ⟨hg.1, ih hg.2⟩

theorem Inserted.mem_leaves {bounds : BBox} {d : U} {B B' : BTree U}
    (h : Inserted bounds d B B') :
    ∀ b2 d2, ((b2, d2) ∈ leavesOf B' ↔ (b2, d2) ∈ leavesOf B ∨ (b2 = bounds ∧ d2 = d)) := by
  induction h with
  | leaf b0 d0 =>
    intro b2 d2
    simp only [leavesOf, List.mem_append, List.mem_singleton, Prod.mk.injEq]
  | left R hI ih =>
    intro b2 d2
    simp only [leavesOf, List.mem_append, ih]
    tauto
  | right L hI ih =>
    intro b2 d2
    simp only [leavesOf, List.mem_append, ih]
    tauto

/-- On represented children, subtree selection succeeds and picks one of the
two children. -/
theorem select_ok {t : AABBTree2 U} {l r : Nat} {pl pr : Option Nat} {L R : BTree U}
    {sl sr : Finset Nat} (hl : Rep t l pl L sl) (hr : Rep t r pr R sr)
    (choice : Nat) (bounds : BBox) :
    ∃ ci c', selectSubtreeForInsertion t choice l r bounds = .ok (ci, c')
      ∧ (ci = l ∨ ci = r) := by
  simp only [selectSubtreeForInsertion, hl.getNodeBounds_eq, hr.getNodeBounds_eq,
    hl.getNodeHeight_eq, hr.getNodeHeight_eq, bind_ok]
  split_ifs <;> simp_all

theorem updateBounds_spec {t : AABBTree2 U} {i l r : Nat} {b0 : BBox}
    {p : Option Nat} {h0 : Nat} {lb rb : BBox}
    (hget : t.nodes[i]? = some (.inner b0 p l r h0))
    (hlb : getNodeBounds t l = .ok lb) (hrb : getNodeBounds t r = .ok rb) :
    updateBounds t i = .ok (decide (merge lb rb ≠ b0),
      { t with nodes := t.nodes.set i (.inner (merge lb rb) p l r h0) }) := by
  simp only [updateBounds, getLeftChildIndex, getRightChildIndex, getNode, hget,
    bind_ok, hlb, hrb]

theorem updateHeight_spec {t : AABBTree2 U} {i l r : Nat} {b0 : BBox}
    {p : Option Nat} {h0 : Nat} {lh rh : Nat}
    (hget : t.nodes[i]? = some (.inner b0 p l r h0))
    (hlh : getNodeHeight t l = .ok lh) (hrh : getNodeHeight t r = .ok rh) :
    updateHeight t i = .ok (decide (Max.max lh rh + 1 ≠ h0),
      { t with nodes := t.nodes.set i (.inner b0 p l r (Max.max lh rh + 1)) }) := by
  simp only [updateHeight, getLeftChildIndex, getRightChildIndex, getNode, hget,
    bind_ok, hlh, hrh]

theorem nodup_key_inj [DecidableEq U] {l : List (U × Nat)}
    (hnd : (l.map Prod.fst).Nodup) {d : U} {i1 i2 : Nat}
    (h1 : (d, i1) ∈ l) (h2 : (d, i2) ∈ l) : i1 = i2 := by
  have e1 := mem_findData hnd h1
  have e2 := mem_findData hnd h2
  rw [e1] at e2
  exact (Option.some.injEq _ _ ▸ e2).symm ▸ rfl

/-- The simulation of the private recursive `insert` on a represented subtree:
it succeeds, realises an `Inserted` step of the logical tree, re-establishes
the representation on a slot set grown only by freed or appended slots, leaves
every slot outside the subtree untouched, preserves the lookup-index laws, and
returns change flags that are sound for the caller's early stopping. -/
theorem insertRec_ok [DecidableEq U] (B : BTree U) :
    ∀ (fuel : Nat) (t : AABBTree2 U) (choice i : Nat) (p : Option Nat) (s : Finset Nat)
      (fl : List Nat) (bounds : BBox) (d : U),
    Rep t i p B s → FreeChain t t.freeNode fl → bheight B < fuel → MapInv t →
    findData t.leafForData d = none →
    ∃ bc hc t' c' s' fl' B',
      insertRec fuel t choice i bounds d = .ok ((bc, hc), t', c') ∧
      Inserted bounds d B B' ∧
      Rep t' i p B' s' ∧
      (∀ j ∈ s, j ∈ s') ∧
      (∀ j ∈ s', j ∈ s ∨ j ∈ fl ∨ t.nodes.length ≤ j) ∧
      FreeChain t' t'.freeNode fl' ∧
      (∀ j ∈ fl', j ∈ fl) ∧
      (∀ j ∈ fl, j ∈ fl' ∨ j ∈ s') ∧
      (∀ j, j < t.nodes.length → j ∉ s → j ∉ fl → t'.nodes[j]? = t.nodes[j]?) ∧
      t.nodes.length ≤ t'.nodes.length ∧
      (∀ j, j < t'.nodes.length → j < t.nodes.length ∨ j ∈ s') ∧
      MapInv t' ∧
      (bc = false → bbounds B' = bbounds B) ∧
      (hc = false → bheight B' = bheight B) := by
  induction B with
  | leaf b0 d0 =>
    intro fuel t choice i p s fl bounds d hrep hfc hfuel hmap hfind
    cases hrep with
    | leaf hget =>
    rcases fuel with _ | f
    · exact absurd hfuel (by omega)
    have hd0i : (d0, i) ∈ t.leafForData := hmap.2.2 i b0 p d0 hget
    have hd0d : d0 ≠ d := by
      intro h
      subst h
      have := mem_findData_isSome hd0i
      rw [hfind] at this
      cases this
    have hilt : i < t.nodes.length := (List.getElem?_eq_some_iff.mp hget).1
    have hinotfl : i ∉ fl := rep_freechain_disjoint (Rep.leaf hget) hfc i (by simp)
    rcases storeNode_ok hfc (ANode.leaf b0 (some i) d0) with
      ⟨a1, t1, fl1, hst1, ha1get, ha1frame, ha1src, hlen1, hcov1, hfc1, hfl1sub,
        hfl1cov, ha1nfl1, hmapeq1⟩
    have hmapeq1' : t1.leafForData = setData t.leafForData d0 a1 := hmapeq1
    rcases storeNode_ok hfc1 (ANode.leaf bounds (some i) d) with
      ⟨a2, t2, fl2, hst2, ha2get, ha2frame, ha2src, hlen2, hcov2, hfc2, hfl2sub,
        hfl2cov, ha2nfl2, hmapeq2⟩
    have hmapeq2' : t2.leafForData = setData t1.leafForData d a2 := hmapeq2
    have ha1i : a1 ≠ i := by
      rcases ha1src with h | h
      · intro he; rw [he] at h; exact hinotfl h
      · omega
    have ha1lt1 : a1 < t1.nodes.length := (List.getElem?_eq_some_iff.mp ha1get).1
    have ha2i : a2 ≠ i := by
      rcases ha2src with h | h
      · intro he; rw [he] at h; exact hinotfl (hfl1sub _ h)
      · omega
    have ha2a1 : a2 ≠ a1 := by
      rcases ha2src with h | h
      · intro he; rw [he] at h; exact ha1nfl1 h
      · omega
    have h1i : t1.nodes[i]? = some (.leaf b0 p d0) := (ha1frame i (Ne.symm ha1i)).trans hget
    have h2i : t2.nodes[i]? = some (.leaf b0 p d0) := (ha2frame i (Ne.symm ha2i)).trans h1i
    have h2a1 : t2.nodes[a1]? = some (.leaf b0 (some i) d0) :=
      (ha2frame a1 ha2a1.symm).trans ha1get
    have hilt2 : i < t2.nodes.length := (List.getElem?_eq_some_iff.mp h2i).1
    -- the final tree
    refine ⟨true, true,
      { t2 with nodes := t2.nodes.set i (.inner (merge b0 bounds) p a1 a2 2) },
      choice, {i} ∪ ({a1} ∪ {a2}), fl2,
      .node (.leaf b0 d0) (.leaf bounds d),
      ?_, Inserted.leaf b0 d0, ?_, ?_, ?_, ?_, ?_, ?_, ?_, ?_, ?_, ?_, ?_, ?_⟩
    · simp only [insertRec, getNode, hget, bind_ok, hst1, hst2]
    · refine Rep.node ?_ (.leaf ?_) (.leaf ?_) (by simp; omega) (by simp; omega)
        (by simp; omega)
      · have : bbounds (BTree.node (BTree.leaf b0 d0) (BTree.leaf bounds d))
            = merge b0 bounds := rfl
        rw [this]
        have : bheight (BTree.node (BTree.leaf b0 d0) (BTree.leaf bounds d)) = 2 := rfl
        rw [this]
        exact set_getElem?_self hilt2
      · exact (List.getElem?_set_ne (Ne.symm ha1i)).trans h2a1
      · exact (List.getElem?_set_ne (Ne.symm ha2i)).trans ha2get
    · intro j hj
      simp only [Finset.mem_singleton] at hj
      simp [hj]
    · intro j hj
      simp only [Finset.mem_union, Finset.mem_singleton] at hj
      rcases hj with hj | hj | hj
      · left; simp [hj]
      · rcases ha1src with h | h
        · right; left; rw [hj]; exact h
        · right; right; omega
      · rcases ha2src with h | h
        · right; left; rw [hj]; exact hfl1sub _ h
        · right; right; omega
    · refine FreeChain.frame_chain hfc2 ?_
      intro j hj
      have hji : j ≠ i := by
        intro he; rw [he] at hj; exact hinotfl (hfl1sub _ (hfl2sub _ hj))
      exact List.getElem?_set_ne (Ne.symm hji)
    · intro j hj; exact hfl1sub _ (hfl2sub _ hj)
    · intro j hj
      rcases hfl1cov j hj with h | h
      · right; simp [h]
      · rcases hfl2cov j h with h2 | h2
        · right; simp [h2]
        · left; exact h2
    · intro j hjlt hjs hjfl
      simp only [Finset.mem_singleton] at hjs
      have hja1 : j ≠ a1 := by
        rcases ha1src with h | h
        · intro he; rw [he] at hjfl; exact hjfl h
        · omega
      have hja2 : j ≠ a2 := by
        rcases ha2src with h | h
        · intro he; rw [he] at hjfl; exact hjfl (hfl1sub _ h)
        · omega
      exact (List.getElem?_set_ne (Ne.symm hjs)).trans
        ((ha2frame j hja2).trans (ha1frame j hja1))
    · simp only [List.length_set]; omega
    · intro j hj
      simp only [List.length_set] at hj
      rcases hcov2 j hj with h | h
      · rcases hcov1 j h with h2 | h2
        · left; exact h2
        · right; simp [h2]
      · right; simp [h]
    · refine ⟨?_, ?_, ?_⟩
      · show ((t2.leafForData).map Prod.fst).Nodup
        rw [hmapeq2', hmapeq1']
        exact setData_nodup (setData_nodup hmap.1)
      · intro e he
        replace he : e ∈ setData (setData t.leafForData d0 a1) d a2 := by
          rw [← hmapeq1', ← hmapeq2']; exact he
        rcases mem_setData (setData_nodup hmap.1) e he with he2 | ⟨he2, hne⟩
        · subst he2
          refine ⟨bounds, some i, ?_⟩
          exact (List.getElem?_set_ne (Ne.symm ha2i)).trans ha2get
        · rcases mem_setData hmap.1 e he2 with he3 | ⟨he3, hne3⟩
          · subst he3
            refine ⟨b0, some i, ?_⟩
            exact (List.getElem?_set_ne (Ne.symm ha1i)).trans h2a1
          · rcases hmap.2.1 e he3 with ⟨b2, pr2, hleaf⟩
            have he2lt : e.2 < t.nodes.length := (List.getElem?_eq_some_iff.mp hleaf).1
            have hei : e.2 ≠ i := by
              intro he4
              rw [he4, hget] at hleaf
              cases hleaf
              exact hne3 rfl
            have hea1 : e.2 ≠ a1 := by
              rcases ha1src with h | h
              · intro he4
                rcases hfc.mem_free a1 h with ⟨nx, hf⟩
                rw [he4, hf] at hleaf
                cases hleaf
              · omega
            have hea2 : e.2 ≠ a2 := by
              rcases ha2src with h | h
              · intro he4
                rcases hfc.mem_free a2 (hfl1sub _ h) with ⟨nx, hf⟩
                rw [he4, hf] at hleaf
                cases hleaf
              · omega
            refine ⟨b2, pr2, ?_⟩
            exact (List.getElem?_set_ne (Ne.symm hei)).trans
              ((ha2frame _ hea2).trans ((ha1frame _ hea1).trans hleaf))
      · intro j b2 pr2 d2 hleaf
        have hleaf2 : (t2.nodes.set i (ANode.inner (merge b0 bounds) p a1 a2 2))[j]?
            = some (ANode.leaf b2 pr2 d2) := hleaf
        show (d2, j) ∈ t2.leafForData
        rw [hmapeq2', hmapeq1']
        by_cases hji : j = i
        · rw [hji, set_getElem?_self hilt2] at hleaf2
          cases hleaf2
        · rw [List.getElem?_set_ne (Ne.symm hji)] at hleaf2
          by_cases hja2 : j = a2
          · rw [hja2, ha2get] at hleaf2
            cases hleaf2
            rw [hja2]
            exact setData_mem_self _ _ _
          · rw [ha2frame j hja2] at hleaf2
            by_cases hja1 : j = a1
            · rw [hja1, ha1get] at hleaf2
              cases hleaf2
              rw [hja1]
              exact setData_mem_of_ne (setData_mem_self _ _ _) hd0d _
            · rw [ha1frame j hja1] at hleaf2
              have hmem := hmap.2.2 j b2 pr2 d2 hleaf2
              have hd2d0 : d2 ≠ d0 := by
                intro he
                subst he
                exact hji (nodup_key_inj hmap.1 hmem hd0i)
              have hd2d : d2 ≠ d := by
                intro he
                subst he
                have := mem_findData_isSome hmem
                rw [hfind] at this
                cases this
              exact setData_mem_of_ne (setData_mem_of_ne hmem hd2d0 _) hd2d _
    · intro h; cases h
    · intro h; cases h
  | node L R ihL ihR =>
    intro fuel t choice i p s fl bounds d hrep hfc hfuel hmap hfind
    cases hrep with
    | @node _ _ l r _ _ sl sr hget hl hr hdisj hil hir =>
    rcases fuel with _ | f
    · exact absurd hfuel (by omega)
    have hfuelL : bheight L < f := by
      simp only [bheight] at hfuel
      omega
    have hfuelR : bheight R < f := by
      simp only [bheight] at hfuel
      omega
    have hilt : i < t.nodes.length := (List.getElem?_eq_some_iff.mp hget).1
    have hinotfl : i ∉ fl :=
      rep_freechain_disjoint (Rep.node hget hl hr hdisj hil hir) hfc i (by simp)
    have hslfl : ∀ j ∈ sl, j ∉ fl := fun j hj =>
      rep_freechain_disjoint (Rep.node hget hl hr hdisj hil hir) hfc j (by simp [hj])
    have hsrfl : ∀ j ∈ sr, j ∉ fl := fun j hj =>
      rep_freechain_disjoint (Rep.node hget hl hr hdisj hil hir) hfc j (by simp [hj])
    have hgl : getLeftChildIndex t i = .ok l := by
      simp [getLeftChildIndex, getNode, hget]
    have hgr : getRightChildIndex t i = .ok r := by
      simp [getRightChildIndex, getNode, hget]
    rcases select_ok hl hr choice bounds with ⟨ci, c1, hsel, hci⟩
    rcases hci with hci | hci
    · -- descend into the left child
      subst hci
      rcases ihL f t c1 ci (some i) sl fl bounds d hl hfc hfuelL hmap hfind with
        ⟨bc0, hc0, t1, c2, s1, fl1, L', heq1, hins1, hrepL', hsub1, hnew1, hfc1,
          hfl1sub, hfl1cov, hframe1, hlen1, hcov1, hmap1, hbc0, hhc0⟩
      have h1i : t1.nodes[i]? = t.nodes[i]? := hframe1 i hilt hil hinotfl
      have hrepR1 : Rep t1 r (some i) R sr := hr.frame (fun j hj =>
        hframe1 j (hr.mem_lt j hj) (fun hmem => (Finset.disjoint_left.mp hdisj hmem) hj)
          (hsrfl j hj))
      have his1 : i ∉ s1 := by
        intro hmem
        rcases hnew1 i hmem with h | h | h
        · exact hil h
        · exact hinotfl h
        · omega
      have hdisj1 : Disjoint s1 sr := by
        rw [Finset.disjoint_left]
        intro j hj hjr
        rcases hnew1 j hj with h | h | h
        · exact Finset.disjoint_left.mp hdisj h hjr
        · exact hsrfl j hjr h
        · exact absurd (hr.mem_lt j hjr) (by omega)
      -- recompute bounds at i (or skip soundly)
      obtain ⟨bc, t2, hstep2, h2i, h2frame, h2len, h2map, h2free, h2bc⟩ :
          ∃ bc t2, (if bc0 then updateBounds t1 i else pure (false, t1)
              : M (Bool × AABBTree2 U)) = .ok (bc, t2) ∧
            t2.nodes[i]? = some (.inner (bbounds (.node L' R)) p ci r
              (bheight (.node L R))) ∧
            (∀ j, j ≠ i → t2.nodes[j]? = t1.nodes[j]?) ∧
            t2.nodes.length = t1.nodes.length ∧
            t2.leafForData = t1.leafForData ∧
            t2.freeNode = t1.freeNode ∧
            (bc = false → bbounds (BTree.node L' R) = bbounds (BTree.node L R)) := by
        cases bc0 with
        | false =>
          have hbb : bbounds (BTree.node L' R) = bbounds (BTree.node L R) := by
            simp only [bbounds, hbc0 rfl]
          refine ⟨false, t1, rfl, ?_, fun j _ => rfl, rfl, rfl, rfl, fun _ => hbb⟩
          rw [hbb, h1i]
          exact hget
        | true =>
          have hgl1 : t1.nodes[i]? = some (.inner (bbounds (.node L R)) p ci r
              (bheight (.node L R))) := by rw [h1i]; exact hget
          have hlt1 : i < t1.nodes.length := (List.getElem?_eq_some_iff.mp hgl1).1
          have hub := updateBounds_spec hgl1 hrepL'.getNodeBounds_eq
            hrepR1.getNodeBounds_eq
          refine ⟨decide (merge (bbounds L') (bbounds R) ≠ bbounds (BTree.node L R)),
            { t1 with nodes := t1.nodes.set i (ANode.inner
                (merge (bbounds L') (bbounds R)) p ci r (bheight (BTree.node L R))) },
            hub, ?_, ?_, by simp, rfl, rfl, ?_⟩
          · exact set_getElem?_self hlt1
          · intro j hj
            exact List.getElem?_set_ne (Ne.symm hj)
          · intro hbc
            exact not_not.mp (of_decide_eq_false hbc)
      -- recompute height at i (or skip soundly)
      obtain ⟨hcb, t3, hstep3, h3i, h3frame, h3len, h3map, h3free, h3hc⟩ :
          ∃ hcb t3, (if hc0 then updateHeight t2 i else pure (false, t2)
              : M (Bool × AABBTree2 U)) = .ok (hcb, t3) ∧
            t3.nodes[i]? = some (.inner (bbounds (.node L' R)) p ci r
              (bheight (.node L' R))) ∧
            (∀ j, j ≠ i → t3.nodes[j]? = t2.nodes[j]?) ∧
            t3.nodes.length = t2.nodes.length ∧
            t3.leafForData = t2.leafForData ∧
            t3.freeNode = t2.freeNode ∧
            (hcb = false → bheight (BTree.node L' R) = bheight (BTree.node L R)) := by
        have hrepL2 : Rep t2 ci (some i) L' s1 := hrepL'.frame (fun j hj =>
          h2frame j (fun he => his1 (he ▸ hj)))
        have hrepR2 : Rep t2 r (some i) R sr := hrepR1.frame (fun j hj =>
          h2frame j (fun he => hir (he ▸ hj)))
        cases hc0 with
        | false =>
          have hbh : bheight (BTree.node L' R) = bheight (BTree.node L R) := by
            simp only [bheight, hhc0 rfl]
          refine ⟨false, t2, rfl, ?_, fun j _ => rfl, rfl, rfl, rfl, fun _ => hbh⟩
          rw [hbh]
          exact h2i
        | true =>
          have hlt2 : i < t2.nodes.length := (List.getElem?_eq_some_iff.mp h2i).1
          have huh := updateHeight_spec h2i hrepL2.getNodeHeight_eq
            hrepR2.getNodeHeight_eq
          refine ⟨decide (Max.max (bheight L') (bheight R) + 1 ≠ bheight (BTree.node L R)),
            { t2 with nodes := t2.nodes.set i (ANode.inner (bbounds (BTree.node L' R))
                p ci r (Max.max (bheight L') (bheight R) + 1)) },
            huh, ?_, ?_, by simp, rfl, rfl, ?_⟩
          · exact set_getElem?_self hlt2
          · intro j hj
            exact List.getElem?_set_ne (Ne.symm hj)
          · intro hhc
            exact not_not.mp (of_decide_eq_false hhc)
      refine ⟨bc, hcb, t3, c2, {i} ∪ (s1 ∪ sr), fl1, .node L' R,
        ?_, Inserted.left R hins1, ?_, ?_, ?_, ?_, ?_, ?_, ?_, ?_, ?_, ?_, h2bc, h3hc⟩
      · simp only [insertRec, getNode, hget, bind_ok, hgl, hgr, hsel, heq1]
        cases bc0 with
        | false =>
          have h2 := hstep2
          rw [if_neg (by simp)] at h2
          rw [pure_eq_ok] at h2
          obtain ⟨h1e, h2e⟩ := ok_pair_inj h2
          subst h1e
          subst h2e
          cases hc0 with
          | false =>
            have h3 := hstep3
            rw [if_neg (by simp)] at h3
            rw [pure_eq_ok] at h3
            obtain ⟨h1f, h2f⟩ := ok_pair_inj h3
            subst h1f
            subst h2f
            simp
          | true =>
            have h3 := hstep3
            rw [if_pos rfl] at h3
            simp [h3]
        | true =>
          have h2 := hstep2
          rw [if_pos rfl] at h2
          cases hc0 with
          | false =>
            have h3 := hstep3
            rw [if_neg (by simp)] at h3
            rw [pure_eq_ok] at h3
            obtain ⟨h1f, h2f⟩ := ok_pair_inj h3
            subst h1f
            subst h2f
            simp [h2]
          | true =>
            have h3 := hstep3
            rw [if_pos rfl] at h3
            simp [h2, h3]
      · refine Rep.node h3i ?_ ?_ hdisj1 his1 hir
        · exact hrepL'.frame (fun j hj => by
            rw [h3frame j (fun he => his1 (he ▸ hj)),
              h2frame j (fun he => his1 (he ▸ hj))])
        · exact hrepR1.frame (fun j hj => by
            rw [h3frame j (fun he => hir (he ▸ hj)),
              h2frame j (fun he => hir (he ▸ hj))])
      · intro j hj
        simp only [Finset.mem_union, Finset.mem_singleton] at hj ⊢
        rcases hj with hj | hj | hj
        · left; exact hj
        · right; left; exact hsub1 j hj
        · right; right; exact hj
      · intro j hj
        simp only [Finset.mem_union, Finset.mem_singleton] at hj ⊢
        rcases hj with hj | hj | hj
        · left; left; exact hj
        · rcases hnew1 j hj with h | h | h
          · left; right; left; exact h
          · right; left; exact h
          · right; right; exact h
        · left; right; right; exact hj
      · have hA : FreeChain t2 t1.freeNode fl1 :=
          FreeChain.frame_chain hfc1 (fun j hj => h2frame j (fun he => hinotfl (he ▸ hfl1sub j hj)))
        have hB : FreeChain t3 t1.freeNode fl1 :=
          FreeChain.frame_chain hA (fun j hj => h3frame j (fun he => hinotfl (he ▸ hfl1sub j hj)))
        rw [h3free, h2free]
        exact hB
      · exact hfl1sub
      · intro j hj
        rcases hfl1cov j hj with h | h
        · left; exact h
        · right; simp [h]
      · intro j hjlt hjs hjfl
        simp only [Finset.mem_union, Finset.mem_singleton, not_or] at hjs
        rw [h3frame j hjs.1, h2frame j hjs.1]
        exact hframe1 j hjlt hjs.2.1 hjfl
      · omega
      · intro j hj
        rw [h3len, h2len] at hj
        rcases hcov1 j hj with h | h
        · left; exact h
        · right; simp [h]
      · refine ⟨?_, ?_, ?_⟩
        · rw [h3map, h2map]; exact hmap1.1
        · intro e he
          rw [h3map, h2map] at he
          rcases hmap1.2.1 e he with ⟨b2, pr2, hleaf⟩
          have hei : e.2 ≠ i := by
            intro he2
            rw [he2, h1i, hget] at hleaf
            cases hleaf
          refine ⟨b2, pr2, ?_⟩
          rw [h3frame _ hei, h2frame _ hei]
          exact hleaf
        · intro j b2 pr2 d2 hleaf
          rw [h3map, h2map]
          have hji : j ≠ i := by
            intro he
            rw [he, h3i] at hleaf
            cases hleaf
          rw [h3frame _ hji, h2frame _ hji] at hleaf
          exact hmap1.2.2 j b2 pr2 d2 hleaf
    · -- descend into the right child
      subst hci
      rcases ihR f t c1 ci (some i) sr fl bounds d hr hfc hfuelR hmap hfind with
        ⟨bc0, hc0, t1, c2, s1, fl1, R', heq1, hins1, hrepR', hsub1, hnew1, hfc1,
          hfl1sub, hfl1cov, hframe1, hlen1, hcov1, hmap1, hbc0, hhc0⟩
      have h1i : t1.nodes[i]? = t.nodes[i]? := hframe1 i hilt hir hinotfl
      have hrepL1 : Rep t1 l (some i) L sl := hl.frame (fun j hj =>
        hframe1 j (hl.mem_lt j hj) (fun hmem => (Finset.disjoint_left.mp hdisj hj) hmem)
          (hslfl j hj))
      have his1 : i ∉ s1 := by
        intro hmem
        rcases hnew1 i hmem with h | h | h
        · exact hir h
        · exact hinotfl h
        · omega
      have hdisj1 : Disjoint sl s1 := by
        rw [Finset.disjoint_left]
        intro j hj hjr
        rcases hnew1 j hjr with h | h | h
        · exact Finset.disjoint_left.mp hdisj hj h
        · exact hslfl j hj h
        · exact absurd (hl.mem_lt j hj) (by omega)
      obtain ⟨bc, t2, hstep2, h2i, h2frame, h2len, h2map, h2free, h2bc⟩ :
          ∃ bc t2, (if bc0 then updateBounds t1 i else pure (false, t1)
              : M (Bool × AABBTree2 U)) = .ok (bc, t2) ∧
            t2.nodes[i]? = some (.inner (bbounds (.node L R')) p l ci
              (bheight (.node L R))) ∧
            (∀ j, j ≠ i → t2.nodes[j]? = t1.nodes[j]?) ∧
            t2.nodes.length = t1.nodes.length ∧
            t2.leafForData = t1.leafForData ∧
            t2.freeNode = t1.freeNode ∧
            (bc = false → bbounds (BTree.node L R') = bbounds (BTree.node L R)) := by
        cases bc0 with
        | false =>
          have hbb : bbounds (BTree.node L R') = bbounds (BTree.node L R) := by
            simp only [bbounds, hbc0 rfl]
          refine ⟨false, t1, rfl, ?_, fun j _ => rfl, rfl, rfl, rfl, fun _ => hbb⟩
          rw [hbb, h1i]
          exact hget
        | true =>
          have hgl1 : t1.nodes[i]? = some (.inner (bbounds (.node L R)) p l ci
              (bheight (.node L R))) := by rw [h1i]; exact hget
          have hlt1 : i < t1.nodes.length := (List.getElem?_eq_some_iff.mp hgl1).1
          have hub := updateBounds_spec hgl1 hrepL1.getNodeBounds_eq
            hrepR'.getNodeBounds_eq
          refine ⟨decide (merge (bbounds L) (bbounds R') ≠ bbounds (BTree.node L R)),
            { t1 with nodes := t1.nodes.set i (ANode.inner
                (merge (bbounds L) (bbounds R')) p l ci (bheight (BTree.node L R))) },
            hub, ?_, ?_, by simp, rfl, rfl, ?_⟩
          · exact set_getElem?_self hlt1
          · intro j hj
            exact List.getElem?_set_ne (Ne.symm hj)
          · intro hbc
            exact not_not.mp (of_decide_eq_false hbc)
      obtain ⟨hcb, t3, hstep3, h3i, h3frame, h3len, h3map, h3free, h3hc⟩ :
          ∃ hcb t3, (if hc0 then updateHeight t2 i else pure (false, t2)
              : M (Bool × AABBTree2 U)) = .ok (hcb, t3) ∧
            t3.nodes[i]? = some (.inner (bbounds (.node L R')) p l ci
              (bheight (.node L R'))) ∧
            (∀ j, j ≠ i → t3.nodes[j]? = t2.nodes[j]?) ∧
            t3.nodes.length = t2.nodes.length ∧
            t3.leafForData = t2.leafForData ∧
            t3.freeNode = t2.freeNode ∧
            (hcb = false → bheight (BTree.node L R') = bheight (BTree.node L R)) := by
        have hrepR2 : Rep t2 ci (some i) R' s1 := hrepR'.frame (fun j hj =>
          h2frame j (fun he => his1 (he ▸ hj)))
        have hrepL2 : Rep t2 l (some i) L sl := hrepL1.frame (fun j hj =>
          h2frame j (fun he => hil (he ▸ hj)))
        cases hc0 with
        | false =>
          have hbh : bheight (BTree.node L R') = bheight (BTree.node L R) := by
            simp only [bheight, hhc0 rfl]
          refine ⟨false, t2, rfl, ?_, fun j _ => rfl, rfl, rfl, rfl, fun _ => hbh⟩
          rw [hbh]
          exact h2i
        | true =>
          have hlt2 : i < t2.nodes.length := (List.getElem?_eq_some_iff.mp h2i).1
          have huh := updateHeight_spec h2i hrepL2.getNodeHeight_eq
            hrepR2.getNodeHeight_eq
          refine ⟨decide (Max.max (bheight L) (bheight R') + 1 ≠ bheight (BTree.node L R)),
            { t2 with nodes := t2.nodes.set i (ANode.inner (bbounds (BTree.node L R'))
                p l ci (Max.max (bheight L) (bheight R') + 1)) },
            huh, ?_, ?_, by simp, rfl, rfl, ?_⟩
          · exact set_getElem?_self hlt2
          · intro j hj
            exact List.getElem?_set_ne (Ne.symm hj)
          · intro hhc
            exact not_not.mp (of_decide_eq_false hhc)
      refine ⟨bc, hcb, t3, c2, {i} ∪ (sl ∪ s1), fl1, .node L R',
        ?_, Inserted.right L hins1, ?_, ?_, ?_, ?_, ?_, ?_, ?_, ?_, ?_, ?_, h2bc, h3hc⟩
      · simp only [insertRec, getNode, hget, bind_ok, hgl, hgr, hsel, heq1]
        cases bc0 with
        | false =>
          have h2 := hstep2
          rw [if_neg (by simp)] at h2
          rw [pure_eq_ok] at h2
          obtain ⟨h1e, h2e⟩ := ok_pair_inj h2
          subst h1e
          subst h2e
          cases hc0 with
          | false =>
            have h3 := hstep3
            rw [if_neg (by simp)] at h3
            rw [pure_eq_ok] at h3
            obtain ⟨h1f, h2f⟩ := ok_pair_inj h3
            subst h1f
            subst h2f
            simp
          | true =>
            have h3 := hstep3
            rw [if_pos rfl] at h3
            simp [h3]
        | true =>
          have h2 := hstep2
          rw [if_pos rfl] at h2
          cases hc0 with
          | false =>
            have h3 := hstep3
            rw [if_neg (by simp)] at h3
            rw [pure_eq_ok] at h3
            obtain ⟨h1f, h2f⟩ := ok_pair_inj h3
            subst h1f
            subst h2f
            simp [h2]
          | true =>
            have h3 := hstep3
            rw [if_pos rfl] at h3
            simp [h2, h3]
      · refine Rep.node h3i ?_ ?_ hdisj1 hil his1
        · exact hrepL1.frame (fun j hj => by
            rw [h3frame j (fun he => hil (he ▸ hj)),
              h2frame j (fun he => hil (he ▸ hj))])
        · exact hrepR'.frame (fun j hj => by
            rw [h3frame j (fun he => his1 (he ▸ hj)),
              h2frame j (fun he => his1 (he ▸ hj))])
      · intro j hj
        simp only [Finset.mem_union, Finset.mem_singleton] at hj ⊢
        rcases hj with hj | hj | hj
        · left; exact hj
        · right; left; exact hj
        · right; right; exact hsub1 j hj
      · intro j hj
        simp only [Finset.mem_union, Finset.mem_singleton] at hj ⊢
        rcases hj with hj | hj | hj
        · left; left; exact hj
        · left; right; left; exact hj
        · rcases hnew1 j hj with h | h | h
          · left; right; right; exact h
          · right; left; exact h
          · right; right; exact h
      · have hA : FreeChain t2 t1.freeNode fl1 :=
          FreeChain.frame_chain hfc1 (fun j hj => h2frame j (fun he => hinotfl (he ▸ hfl1sub j hj)))
        have hB : FreeChain t3 t1.freeNode fl1 :=
          FreeChain.frame_chain hA (fun j hj => h3frame j (fun he => hinotfl (he ▸ hfl1sub j hj)))
        rw [h3free, h2free]
        exact hB
      · exact hfl1sub
      · intro j hj
        rcases hfl1cov j hj with h | h
        · left; exact h
        · right; simp [h]
      · intro j hjlt hjs hjfl
        simp only [Finset.mem_union, Finset.mem_singleton, not_or] at hjs
        rw [h3frame j hjs.1, h2frame j hjs.1]
        exact hframe1 j hjlt hjs.2.2 hjfl
      · omega
      · intro j hj
        rw [h3len, h2len] at hj
        rcases hcov1 j hj with h | h
        · left; exact h
        · right; simp [h]
      · refine ⟨?_, ?_, ?_⟩
        · rw [h3map, h2map]; exact hmap1.1
        · intro e he
          rw [h3map, h2map] at he
          rcases hmap1.2.1 e he with ⟨b2, pr2, hleaf⟩
          have hei : e.2 ≠ i := by
            intro he2
            rw [he2, h1i, hget] at hleaf
            cases hleaf
          refine ⟨b2, pr2, ?_⟩
          rw [h3frame _ hei, h2frame _ hei]
          exact hleaf
        · intro j b2 pr2 d2 hleaf
          rw [h3map, h2map]
          have hji : j ≠ i := by
            intro he
            rw [he, h3i] at hleaf
            cases hleaf
          rw [h3frame _ hji, h2frame _ hji] at hleaf
          exact hmap1.2.2 j b2 pr2 d2 hleaf

theorem checkBounds_ok {b : BBox} (hb : goodBox b = true) : checkBounds b = .ok () := by
  simp only [goodBox, Bool.not_eq_true', Bool.or_eq_false_iff] at hb
  simp [checkBounds, hb.1, hb.2]

theorem checkBounds_error {b : BBox} (hb : ¬ goodBox b = true) :
    checkBounds b = .error .invalidBounds := by
  simp only [goodBox, Bool.not_eq_true', Bool.or_eq_false_iff, not_and_or,
    Bool.not_eq_false] at hb
  rcases hb with h | h <;> simp [checkBounds, h]

/-- `insert` with NaN bounds fails with `invalidBounds` before touching any
state. -/
theorem insert_nan [DecidableEq U] (t : AABBTree2 U) (choice : Nat) {bounds : BBox}
    (d : U) (hb : ¬ goodBox bounds = true) :
    insert t choice bounds d = .error .invalidBounds := by
  simp [insert, checkBounds_error hb]

/-- `insert` with a duplicate key fails with `duplicateKey` before touching any
state. -/
theorem insert_dup [DecidableEq U] (t : AABBTree2 U) (choice : Nat) {bounds : BBox}
    {d : U} (hb : goodBox bounds = true) (hdup : contains t d = true) :
    insert t choice bounds d = .error .duplicateKey := by
  simp [insert, checkBounds_ok hb, hdup]

/-- `insert` into the empty tree stores the new leaf at the root slot. -/
theorem insert_empty_ok [DecidableEq U] (choice : Nat) {bounds : BBox} (d : U)
    (hb : goodBox bounds = true) :
    insert (emptyTree : AABBTree2 U) choice bounds d
      = .ok (⟨[.leaf bounds none d], [(d, 0)], none⟩, choice) := by
  simp [insert, checkBounds_ok hb, contains, findData, emptyTree, storeNode, setData]

theorem WFx.nonempty {t : AABBTree2 U} {B s fl} (hwf : WFx t B s fl) :
    t.nodes.isEmpty = false := by
  have h0 : (0 : Nat) < t.nodes.length := hwf.rep.mem_lt 0 hwf.rep.root_mem
  cases hn : t.nodes with
  | nil => rw [hn] at h0; simp at h0
  | cons a l => simp

/-- The public `insert` on a well-formed non-empty tree: success, and the
result is well-formed and represents an `Inserted` step of the logical tree. -/
theorem insert_ok [DecidableEq U] {t : AABBTree2 U} {B s fl} (hwf : WFx t B s fl)
    (choice : Nat) {bounds : BBox} {d : U} (hb : goodBox bounds = true)
    (hfree : findData t.leafForData d = none) :
    ∃ t' c' B' s' fl', insert t choice bounds d = .ok (t', c')
      ∧ Inserted bounds d B B' ∧ WFx t' B' s' fl' := by
  have hfuel : bheight B < t.nodes.length + 1 :=
    Nat.lt_succ_of_le (hwf.rep.bheight_le_card.trans hwf.rep.card_le_length)
  rcases insertRec_ok B (t.nodes.length + 1) t choice 0 none s fl bounds d hwf.rep
      hwf.freechain hfuel hwf.mapinv hfree with
    ⟨bc, hc, t', c', s', fl', B', heq, hins, hrep', hsub, hnew, hfc', hflsub,
      hflcov, hframe, hlen, hcov, hmap', hbc, hhc⟩
  refine ⟨t', c', B', s', fl', ?_, hins, ?_⟩
  · have hcont : contains t d = false := by
      simp [contains, hfree]
    simp [insert, checkBounds_ok hb, hcont, hwf.nonempty, heq]
  · refine ⟨hrep', hfc', ?_, hmap', hins.goodTree hwf.good hb⟩
    intro j hj
    rcases hcov j hj with h | h
    · rcases hwf.cover j h with h2 | h2
      · left; exact hsub j h2
      · rcases hflcov j h2 with h3 | h3
        · right; exact h3
        · left; exact h3
    · left; exact h

/-- `insert` preserves well-formedness. -/
theorem insert_wf [DecidableEq U] {t t' : AABBTree2 U} {choice c' : Nat}
    {bounds : BBox} {d : U} (hwf : WF t)
    (h : insert t choice bounds d = .ok (t', c')) : WF t' := by
  by_cases hb : goodBox bounds = true
  · by_cases hdup : contains t d = true
    · rw [insert_dup t choice hb hdup] at h
      cases h
    · have hfree : findData t.leafForData d = none := by
        simp only [contains, Bool.not_eq_true] at hdup
        exact Option.not_isSome_iff_eq_none.mp (by rw [hdup]; simp)
      rcases hwf with he | ⟨B, s, fl, hwfx⟩
      · subst he
        rw [insert_empty_ok choice d hb] at h
        injection h with h2
        injection h2 with h3 h4
        subst h3
        right
        refine ⟨.leaf bounds d, {0}, [], .leaf (by simp), .nil, ?_, ?_, ?_⟩
        · intro j hj
          simp at hj
          simp [hj]
        · refine ⟨by simp, ?_, ?_⟩
          · intro e he
            simp at he
            subst he
            exact ⟨bounds, none, by simp⟩
          · intro i b2 pr2 d2 hleaf
            simp only [List.getElem?_eq_some_iff] at hleaf
            rcases hleaf with ⟨hlt, hleaf⟩
            simp at hlt
            subst hlt
            simp at hleaf
            simp [hleaf]
        · simpa [goodTree] using hb
      · rcases insert_ok hwfx choice hb hfree with ⟨t2, c2, B', s', fl', heq, hins, hwfx'⟩
        rw [heq] at h
        injection h with h2
        injection h2 with h3 h4
        subst h3
        exact .inr ⟨B', s', fl', hwfx'⟩
  · rw [insert_nan t choice d hb] at h
    cases h

/-! ## Removal: spines (trees with one hole along a slot path) -/

/-- The logical effect of `remove` on a non-root leaf: the parent of the
unique leaf holding the key is replaced by that leaf's sibling subtree. -/
inductive Removed (d : U) : BTree U → BTree U → Prop where
  | base_left : ∀ (b : BBox) (R : BTree U), Removed d (.node (.leaf b d) R) R
  | base_right : ∀ (L : BTree U) (b : BBox), Removed d (.node L (.leaf b d)) L
  | go_left : ∀ {L L'} (R : BTree U), Removed d L L' →
      Removed d (.node L R) (.node L' R)
  | go_right : ∀ (L : BTree U) {R R'}, Removed d R R' →
      Removed d (.node L R) (.node L R')

/-- One ancestor level above a hole: the ancestor's slot, which side the hole
is on, and the sibling subtree with its root slot and occupied set. -/
structure SFrame (U : Type) where
  idx : Nat
  side : Bool
  sibIdx : Nat
  sib : BTree U
  sibSet : Finset Nat

/-- Plug a subtree into one ancestor level. -/
def glue (fr : SFrame U) (X : BTree U) : BTree U :=
  if fr.side then .node X fr.sib else .node fr.sib X

/-- Plug a subtree into a whole spine (innermost frame first). -/
def fillT : List (SFrame U) → BTree U → BTree U
  | [], X => X
  | fr :: rest, X => fillT rest (glue fr X)

/-- The parent pointer stored at the top of a spine suffix. -/
def anchor (p : Option Nat) : List (SFrame U) → Option Nat
  | [] => p
  | fr :: _ => some fr.idx

/-- All slots occupied by the spine itself and its sibling subtrees. -/
def spineSet : List (SFrame U) → Finset Nat
  | [] => ∅
  | fr :: rest => {fr.idx} ∪ (fr.sibSet ∪ spineSet rest)

/-- `SpineAt t i p hole frames O`: starting from the subtree root `i` (with
parent pointer `p`), the chain of inner slots `frames` leads down to the slot
`hole`; the cached bounds/heights along the chain are those of the tree with
`O` plugged into the hole, and each sibling subtree is represented. -/
inductive SpineAt (t : AABBTree2 U) (i : Nat) (p : Option Nat) :
    Nat → List (SFrame U) → BTree U → Prop where
  | nil : ∀ O, SpineAt t i p i [] O
  | cons : ∀ {hole : Nat} {fr : SFrame U} {rest : List (SFrame U)} {O : BTree U},
      t.nodes[fr.idx]? = some (.inner (bbounds (glue fr O)) (anchor p rest)
        (if fr.side then hole else fr.sibIdx)
        (if fr.side then fr.sibIdx else hole)
        (bheight (glue fr O))) →
      Rep t fr.sibIdx (some fr.idx) fr.sib fr.sibSet →
      SpineAt t i p fr.idx rest (glue fr O) →
      fr.idx ∉ fr.sibSet → fr.idx ∉ spineSet rest →
      Disjoint fr.sibSet (spineSet rest) →
      hole ∉ ({fr.idx} ∪ (fr.sibSet ∪ spineSet rest)) →
      SpineAt t i p hole (fr :: rest) O

theorem spineSet_append (l1 l2 : List (SFrame U)) :
    spineSet (l1 ++ l2) = spineSet l1 ∪ spineSet l2 := by
  induction l1 with
  | nil => simp [spineSet]
  | cons fr rest ih =>
    ext j
    simp only [List.cons_append, spineSet, List.append_eq, ih, Finset.mem_union]
    tauto

theorem fillT_append (l1 l2 : List (SFrame U)) (X : BTree U) :
    fillT (l1 ++ l2) X = fillT l2 (fillT l1 X) := by
  induction l1 generalizing X with
  | nil => simp [fillT]
  | cons fr rest ih =>
    simp only [List.cons_append, fillT, List.append_eq]
    exact ih (glue fr X)

theorem anchor_append (p : Option Nat) (l : List (SFrame U)) (fr : SFrame U) :
    anchor p (l ++ [fr]) = anchor (some fr.idx) l := by
  cases l <;> simp [anchor]

theorem SpineAt.frame_spine {t t' : AABBTree2 U} {i p hole frames O}
    (h : SpineAt t i p hole frames O)
    (hagree : ∀ j ∈ spineSet frames, t'.nodes[j]? = t.nodes[j]?) :
    SpineAt t' i p hole frames O := by
  induction h with
  | nil O => exact .nil O
  | cons hget hsib hrest hnotsib hnotrest hdisj hhole ih =>
    refine .cons ((hagree _ (by simp [spineSet])).trans hget)
      (hsib.frame fun j hj => hagree j (by simp [spineSet, hj])) ?_
      hnotsib hnotrest hdisj hhole
    exact ih fun j hj => hagree j (by simp [spineSet, hj])

theorem SpineAt.congr {t : AABBTree2 U} {i p hole frames O O'}
    (h : SpineAt t i p hole frames O)
    (hb : bbounds O' = bbounds O) (hh : bheight O' = bheight O) :
    SpineAt t i p hole frames O' := by
  induction h generalizing O' with
  | nil O => exact .nil O'
  | cons hget hsib hrest hnotsib hnotrest hdisj hhole ih =>
    rename_i hole2 fr rest O2
    have hgb : bbounds (glue fr O') = bbounds (glue fr O2) := by
      cases hside : fr.side <;> simp [glue, hside, bbounds, hb]
    have hgh : bheight (glue fr O') = bheight (glue fr O2) := by
      cases hside : fr.side <;> simp [glue, hside, bheight, hh]
    exact .cons (by rw [hgb, hgh]; exact hget) hsib (ih hgb hgh)
      hnotsib hnotrest hdisj hhole

theorem SpineAt.mem_lt_spine {t : AABBTree2 U} {i p hole frames O}
    (h : SpineAt t i p hole frames O) :
    ∀ j ∈ spineSet frames, j < t.nodes.length := by
  induction h with
  | nil O => intro j hj; simp [spineSet] at hj
  | cons hget hsib hrest hnotsib hnotrest hdisj hhole ih =>
    intro j hj
    simp only [spineSet, Finset.mem_union, Finset.mem_singleton] at hj
    rcases hj with hj | hj | hj
    · subst hj; exact (List.getElem?_eq_some_iff.mp hget).1
    · exact hsib.mem_lt j hj
    · exact ih j hj

theorem SpineAt.length_le_card {t : AABBTree2 U} {i p hole frames O}
    (h : SpineAt t i p hole frames O) :
    frames.length ≤ (spineSet frames).card := by
  induction h with
  | nil O => simp
  | cons hget hsib hrest hnotsib hnotrest hdisj hhole ih =>
    rename_i hole2 fr rest O2
    simp only [List.length_cons, spineSet]
    have h1 : ({fr.idx} ∪ (fr.sibSet ∪ spineSet rest)).card
        = 1 + (fr.sibSet ∪ spineSet rest).card := by
      rw [Finset.card_union_of_disjoint]
      · simp
      · simp only [Finset.disjoint_union_right, Finset.disjoint_singleton_left]
        exact ⟨hnotsib, hnotrest⟩
    rw [h1]
    have h2 : (spineSet rest).card ≤ (fr.sibSet ∪ spineSet rest).card :=
      Finset.card_le_card (by intro x hx; simp [hx])
    omega

theorem SpineAt.head_mem {t : AABBTree2 U} {i p hole frames O}
    (h : SpineAt t i p hole frames O) (hne : frames ≠ []) : i ∈ spineSet frames := by
  induction h with
  | nil O => exact absurd rfl hne
  | cons hget hsib hrest hnotsib hnotrest hdisj hhole ih =>
    rename_i hole2 fr rest O2
    by_cases hr : rest = []
    · subst hr
      have hidx : fr.idx = i := by cases hrest; rfl
      simp [spineSet, hidx]
    · have := ih hr
      simp only [spineSet, Finset.mem_union, Finset.mem_singleton] at this ⊢
      tauto

/-- Rebuild the representation of the whole subtree from a spine whose caches
match the plugged subtree and a representation of that subtree. -/
theorem spine_fill {t : AABBTree2 U} {i p hole frames N}
    (h : SpineAt t i p hole frames N) :
    ∀ sn, Rep t hole (anchor p frames) N sn → Disjoint sn (spineSet frames) →
      Rep t i p (fillT frames N) (sn ∪ spineSet frames) := by
  induction h with
  | nil O =>
    intro sn hrep hdisj
    simpa [fillT, spineSet] using hrep
  | cons hget hsib hrest hnotsib hnotrest hdisjf hhole ih =>
    rename_i hole2 fr rest O2
    intro sn hrep hdisj
    simp only [spineSet, Finset.disjoint_union_right, Finset.disjoint_singleton_right]
      at hdisj
    obtain ⟨hdx, hdsib, hdrest⟩ := hdisj
    cases hside : fr.side with
    | true =>
      have hglue : glue fr O2 = .node O2 fr.sib := by simp [glue, hside]
      have hget2 : t.nodes[fr.idx]? = some (.inner (bbounds (BTree.node O2 fr.sib))
          (anchor p rest) hole2 fr.sibIdx (bheight (BTree.node O2 fr.sib))) := by
        rw [← hglue]
        simpa [hside] using hget
      have hnode : Rep t fr.idx (anchor p rest) (.node O2 fr.sib)
          ({fr.idx} ∪ (sn ∪ fr.sibSet)) :=
        Rep.node hget2 hrep hsib hdsib hdx hnotsib
      rw [← hglue] at hnode
      have hres := ih ({fr.idx} ∪ (sn ∪ fr.sibSet)) hnode (by
        simp only [Finset.disjoint_union_left, Finset.disjoint_singleton_left]
        exact ⟨hnotrest, hdrest, hdisjf⟩)
      have hset : ({fr.idx} ∪ (sn ∪ fr.sibSet)) ∪ spineSet rest
          = sn ∪ ({fr.idx} ∪ (fr.sibSet ∪ spineSet rest)) := by
        ext x; simp; tauto
      rw [hset] at hres
      exact hres
    | false =>
      have hglue : glue fr O2 = .node fr.sib O2 := by simp [glue, hside]
      have hget2 : t.nodes[fr.idx]? = some (.inner (bbounds (BTree.node fr.sib O2))
          (anchor p rest) fr.sibIdx hole2 (bheight (BTree.node fr.sib O2))) := by
        rw [← hglue]
        simpa [hside] using hget
      have hnode : Rep t fr.idx (anchor p rest) (.node fr.sib O2)
          ({fr.idx} ∪ (fr.sibSet ∪ sn)) :=
        Rep.node hget2 hsib hrep hdsib.symm hnotsib hdx
      rw [← hglue] at hnode
      have hres := ih ({fr.idx} ∪ (fr.sibSet ∪ sn)) hnode (by
        simp only [Finset.disjoint_union_left, Finset.disjoint_singleton_left]
        exact ⟨hnotrest, hdisjf, hdrest⟩)
      have hset : ({fr.idx} ∪ (fr.sibSet ∪ sn)) ∪ spineSet rest
          = sn ∪ ({fr.idx} ∪ (fr.sibSet ∪ spineSet rest)) := by
        ext x; simp; tauto
      rw [hset] at hres
      exact hres

/-- Extend a spine by one frame at the top. -/
theorem SpineAt.snoc {t : AABBTree2 U} {l k : Nat} {frames : List (SFrame U)}
    {X : BTree U} (fr : SFrame U) (p0 : Option Nat)
    (h : SpineAt t l (some fr.idx) k frames X)
    (hsib : Rep t fr.sibIdx (some fr.idx) fr.sib fr.sibSet)
    (hnotsib : fr.idx ∉ fr.sibSet) :
    t.nodes[fr.idx]? = some (.inner (bbounds (glue fr (fillT frames X))) p0
      (if fr.side then l else fr.sibIdx) (if fr.side then fr.sibIdx else l)
      (bheight (glue fr (fillT frames X)))) →
    Disjoint (spineSet frames) ({fr.idx} ∪ fr.sibSet) →
    k ∉ ({fr.idx} ∪ fr.sibSet) →
    SpineAt t fr.idx p0 k (frames ++ [fr]) X := by
  induction h with
  | nil O =>
    intro hget hd hk
    refine .cons hget hsib (.nil _) hnotsib (by simp [spineSet]) (by simp [spineSet]) ?_
    simp only [spineSet, Finset.union_empty] at hk ⊢
    simpa using hk
  | cons hget2 hsib2 hrest2 hnotsib2 hnotrest2 hdisj2 hhole2 ih =>
    rename_i hole2 fr2 rest2 O2
    intro hget hd hk
    have hd2 : Disjoint (spineSet rest2) ({fr.idx} ∪ fr.sibSet) := by
      refine Finset.disjoint_of_subset_left ?_ hd
      intro x hx; simp [spineSet, hx]
    have hfr2 : fr2.idx ∉ ({fr.idx} ∪ fr.sibSet) :=
      Finset.disjoint_left.mp hd (by simp [spineSet])
    have hsib2sub : ∀ x ∈ fr2.sibSet, x ∉ ({fr.idx} ∪ fr.sibSet) := fun x hx =>
      Finset.disjoint_left.mp hd (by simp [spineSet, hx])
    have hih := ih hget hd2 hfr2
    refine .cons ?_ hsib2 hih hnotsib2 ?_ ?_ ?_
    · simp only [List.append_eq]
      rw [anchor_append]
      exact hget2
    · simp only [List.append_eq]
      rw [spineSet_append]
      simp only [Finset.mem_union, not_or]
      refine ⟨hnotrest2, ?_⟩
      simpa [spineSet] using hfr2
    · simp only [List.append_eq]
      rw [spineSet_append]
      simp only [Finset.disjoint_union_right]
      refine ⟨hdisj2, ?_⟩
      rw [Finset.disjoint_left]
      intro x hx
      have := hsib2sub x hx
      simp only [spineSet, Finset.union_empty]
      simpa using this
    · simp only [List.append_eq]
      rw [spineSet_append]
      simp only [Finset.mem_union, Finset.mem_singleton, not_or] at hhole2 ⊢
      refine ⟨hhole2.1, hhole2.2.1, hhole2.2.2, ?_⟩
      simp only [spineSet, Finset.union_empty]
      simpa using hk

/-- Every occupied slot decomposes the representation into the subtree at the
slot and a spine above it. -/
theorem Rep.decompose {t : AABBTree2 U} {i0 : Nat} {p0 : Option Nat} {B s}
    (h : Rep t i0 p0 B s) :
    ∀ k ∈ s, ∃ X sx frames, Rep t k (anchor p0 frames) X sx ∧
      SpineAt t i0 p0 k frames X ∧ fillT frames X = B ∧
      s = sx ∪ spineSet frames ∧ Disjoint sx (spineSet frames) := by
  induction h with
  | leaf hget =>
    intro k hk
    simp only [Finset.mem_singleton] at hk
    subst hk
    exact ⟨_, _, [], .leaf hget, .nil _, rfl, by simp [spineSet], by simp [spineSet]⟩
  | node hget hl hr hdisj hil hir ihl ihr =>
    rename_i i2 p2 l2 r2 L R sl sr
    intro k hk
    simp only [Finset.mem_union, Finset.mem_singleton] at hk
    rcases hk with hk | hk | hk
    · subst hk
      exact ⟨.node L R, _, [], .node hget hl hr hdisj hil hir, .nil _, rfl,
        by simp [spineSet], by simp [spineSet]⟩
    · rcases ihl k hk with ⟨X, sx, frames, hrepX, hspine, hfill, hseq, hdisjx⟩
      have hssub : spineSet frames ⊆ sl := by
        rw [hseq]; intro x hx; simp [hx]
      have hsxsub : sx ⊆ sl := by
        rw [hseq]; intro x hx; simp [hx]
      refine ⟨X, sx, frames ++ [⟨i2, true, r2, R, sr⟩], ?_, ?_, ?_, ?_, ?_⟩
      · rw [anchor_append]; exact hrepX
      · refine SpineAt.snoc ⟨i2, true, r2, R, sr⟩ p2 hspine hr hir ?_ ?_ ?_
        · show t.nodes[i2]? = _
          have hglue : glue ⟨i2, true, r2, R, sr⟩ (fillT frames X) = BTree.node L R := by
            simp [glue, hfill]
          rw [hglue]
          simpa using hget
        · show Disjoint (spineSet frames) ({i2} ∪ sr)
          rw [Finset.disjoint_left]
          intro x hx
          have hxl := hssub hx
          simp only [Finset.mem_union, Finset.mem_singleton, not_or]
          constructor
          · intro he; subst he; exact hil hxl
          · intro he; exact Finset.disjoint_left.mp hdisj hxl he
        · show k ∉ ({i2} ∪ sr)
          simp only [Finset.mem_union, Finset.mem_singleton, not_or]
          constructor
          · intro he; subst he; exact hil hk
          · intro he; exact Finset.disjoint_left.mp hdisj hk he
      · rw [fillT_append, hfill]
        simp [fillT, glue]
      · rw [spineSet_append, hseq]
        ext x
        simp only [spineSet, Finset.union_empty, Finset.mem_union, Finset.mem_singleton]
        have : (x ∈ sl) = (x ∈ sx ∨ x ∈ spineSet frames) := by
          rw [hseq]; simp
        tauto
      · rw [spineSet_append, Finset.disjoint_union_right]
        refine ⟨hdisjx, ?_⟩
        rw [Finset.disjoint_left]
        intro x hx
        have hxl := hsxsub hx
        simp only [spineSet, Finset.union_empty, Finset.mem_union, Finset.mem_singleton,
          not_or]
        constructor
        · intro he; subst he; exact hil hxl
        · intro he; exact Finset.disjoint_left.mp hdisj hxl he
    · rcases ihr k hk with ⟨X, sx, frames, hrepX, hspine, hfill, hseq, hdisjx⟩
      have hssub : spineSet frames ⊆ sr := by
        rw [hseq]; intro x hx; simp [hx]
      have hsxsub : sx ⊆ sr := by
        rw [hseq]; intro x hx; simp [hx]
      refine ⟨X, sx, frames ++ [⟨i2, false, l2, L, sl⟩], ?_, ?_, ?_, ?_, ?_⟩
      · rw [anchor_append]; exact hrepX
      · refine SpineAt.snoc ⟨i2, false, l2, L, sl⟩ p2 hspine hl hil ?_ ?_ ?_
        · show t.nodes[i2]? = _
          have hglue : glue ⟨i2, false, l2, L, sl⟩ (fillT frames X) = BTree.node L R := by
            simp [glue, hfill]
          rw [hglue]
          simpa using hget
        · show Disjoint (spineSet frames) ({i2} ∪ sl)
          rw [Finset.disjoint_left]
          intro x hx
          have hxr := hssub hx
          simp only [Finset.mem_union, Finset.mem_singleton, not_or]
          constructor
          · intro he; subst he; exact hir hxr
          · intro he; exact Finset.disjoint_left.mp hdisj.symm hxr he
        · show k ∉ ({i2} ∪ sl)
          simp only [Finset.mem_union, Finset.mem_singleton, not_or]
          constructor
          · intro he; subst he; exact hir hk
          · intro he; exact Finset.disjoint_left.mp hdisj.symm hk he
      · rw [fillT_append, hfill]
        simp [fillT, glue]
      · rw [spineSet_append, hseq]
        ext x
        simp only [spineSet, Finset.union_empty, Finset.mem_union, Finset.mem_singleton]
        have : (x ∈ sr) = (x ∈ sx ∨ x ∈ spineSet frames) := by
          rw [hseq]; simp
        tauto
      · rw [spineSet_append, Finset.disjoint_union_right]
        refine ⟨hdisjx, ?_⟩
        rw [Finset.disjoint_left]
        intro x hx
        have hxr := hsxsub hx
        simp only [spineSet, Finset.union_empty, Finset.mem_union, Finset.mem_singleton,
          not_or]
        constructor
        · intro he; subst he; exact hir hxr
        · intro he; exact Finset.disjoint_left.mp hdisj.symm hxr he

set_option maxHeartbeats 1000000 in
/-- Simulation of the upward recomputation loop of `remove`: starting just
below a spine whose caches still describe the old subtree `O`, with the new
subtree `N` plugged in at the hole, the loop succeeds and re-establishes the
representation of the whole tree with `N` in place; it touches only spine
slots and the change flags justify every early stop. -/
theorem removeLoop_ok [DecidableEq U] (frames : List (SFrame U)) :
    ∀ (fuel : Nat) (t : AABBTree2 U) (cur : Nat) (N O : BTree U) (sn : Finset Nat)
      (bc hc : Bool),
    SpineAt t 0 none cur frames O →
    Rep t cur (anchor none frames) N sn →
    Disjoint sn (spineSet frames) →
    (bc = false → bbounds N = bbounds O) →
    (hc = false → bheight N = bheight O) →
    frames.length < fuel →
    ∃ t', removeLoop fuel t (some cur) bc hc = .ok t' ∧
      Rep t' 0 none (fillT frames N) (sn ∪ spineSet frames) ∧
      (∀ j, j ∉ spineSet frames → t'.nodes[j]? = t.nodes[j]?) ∧
      (∀ (j : Nat) (b : BBox) (pr : Option Nat) (d : U),
        t'.nodes[j]? = some (ANode.leaf b pr d)
        ↔ t.nodes[j]? = some (ANode.leaf b pr d)) ∧
      t'.nodes.length = t.nodes.length ∧
      t'.leafForData = t.leafForData ∧
      t'.freeNode = t.freeNode := by
  induction frames with
  | nil =>
    intro fuel t cur N O sn bc hc hspine hrep hdisj hbc hhc hfuel
    have hcur : cur = 0 := by cases hspine; rfl
    subst hcur
    rcases fuel with _ | f
    · omega
    refine ⟨t, ?_, ?_, fun j _ => rfl, fun j b pr d => Iff.rfl, rfl, rfl, rfl⟩
    · simp [removeLoop]
    · simpa [fillT, spineSet] using hrep
  | cons fr rest ih =>
    intro fuel t cur N O sn bc hc hspine hrep hdisj hbc hhc hfuel
    rcases fuel with _ | f
    · omega
    by_cases hstop : bc = false ∧ hc = false
    · rcases hstop with ⟨rfl, rfl⟩
      have hspine' : SpineAt t 0 none cur (fr :: rest) N :=
        hspine.congr (hbc rfl) (hhc rfl)
      refine ⟨t, ?_, ?_, fun j _ => rfl, fun j b pr d => Iff.rfl, rfl, rfl, rfl⟩
      · simp [removeLoop]
      · exact spine_fill hspine' sn hrep hdisj
    · have hOr : bc = true ∨ hc = true := by
        cases hbce : bc
        · cases hhce : hc
          · exact absurd ⟨hbce, hhce⟩ hstop
          · exact .inr rfl
        · exact .inl rfl
      cases hspine with
      | cons hget hsib hrest hnotsib hnotrest hdisjf hhole =>
      have hcur0 : cur ≠ 0 := by
        intro he
        subst he
        exact hhole ((SpineAt.cons hget hsib hrest hnotsib hnotrest hdisjf
          hhole).head_mem (by simp))
      have hfrcur : fr.idx ≠ cur := by
        intro he
        exact hhole (by simp [← he])
      have hparent : getParentIndex t cur = .ok (some fr.idx) := hrep.getParentIndex_eq
      have hcurnsib : cur ∉ fr.sibSet := by
        intro he
        exact hhole (by simp [he])
      have hfrlt : fr.idx < t.nodes.length := (List.getElem?_eq_some_iff.mp hget).1
      have hfrnsn : fr.idx ∉ sn := by
        intro he
        exact Finset.disjoint_left.mp hdisj he (by simp [spineSet])
      -- bounds step
      obtain ⟨bc2, t2, hstep2, h2idx, h2frame, h2len, h2map, h2free, h2bc⟩ :
          ∃ bc2 t2, (if bc then updateBounds t fr.idx else pure (false, t)
              : M (Bool × AABBTree2 U)) = .ok (bc2, t2) ∧
            t2.nodes[fr.idx]? = some (.inner (bbounds (glue fr N)) (anchor none rest)
              (if fr.side then cur else fr.sibIdx)
              (if fr.side then fr.sibIdx else cur)
              (bheight (glue fr O))) ∧
            (∀ j, j ≠ fr.idx → t2.nodes[j]? = t.nodes[j]?) ∧
            t2.nodes.length = t.nodes.length ∧
            t2.leafForData = t.leafForData ∧
            t2.freeNode = t.freeNode ∧
            (bc2 = false → bbounds (glue fr N) = bbounds (glue fr O)) := by
        cases bc with
        | false =>
          have hbbg : bbounds (glue fr N) = bbounds (glue fr O) := by
            cases hside : fr.side <;> simp [glue, hside, bbounds, hbc rfl]
          refine ⟨false, t, rfl, ?_, fun j _ => rfl, rfl, rfl, rfl, fun _ => hbbg⟩
          rw [hbbg]
          exact hget
        | true =>
          cases hside : fr.side with
          | true =>
            have hget' : t.nodes[fr.idx]? = some (.inner (bbounds (glue fr O))
                (anchor none rest) cur fr.sibIdx (bheight (glue fr O))) := by
              simpa [hside] using hget
            have hub := updateBounds_spec hget' hrep.getNodeBounds_eq
              hsib.getNodeBounds_eq
            refine ⟨_, _, hub, ?_, ?_, by simp, rfl, rfl, ?_⟩
            · rw [set_getElem?_self hfrlt]
              simp [hside, glue, bbounds]
            · intro j hj
              exact List.getElem?_set_ne (Ne.symm hj)
            · intro hbc2
              have h2 := not_not.mp (of_decide_eq_false hbc2)
              have hg : glue fr N = BTree.node N fr.sib := by simp [glue, hside]
              rw [hg]
              exact h2
          | false =>
            have hget' : t.nodes[fr.idx]? = some (.inner (bbounds (glue fr O))
                (anchor none rest) fr.sibIdx cur (bheight (glue fr O))) := by
              simpa [hside] using hget
            have hub := updateBounds_spec hget' hsib.getNodeBounds_eq
              hrep.getNodeBounds_eq
            refine ⟨_, _, hub, ?_, ?_, by simp, rfl, rfl, ?_⟩
            · rw [set_getElem?_self hfrlt]
              simp [hside, glue, bbounds]
            · intro j hj
              exact List.getElem?_set_ne (Ne.symm hj)
            · intro hbc2
              have h2 := not_not.mp (of_decide_eq_false hbc2)
              have hg : glue fr N = BTree.node fr.sib N := by simp [glue, hside]
              rw [hg]
              exact h2
      -- height step
      have hrep2 : Rep t2 cur (some fr.idx) N sn :=
        hrep.frame (fun j hj => h2frame j (fun he => hfrnsn (he ▸ hj)))
      have hsib2 : Rep t2 fr.sibIdx (some fr.idx) fr.sib fr.sibSet :=
        hsib.frame (fun j hj => h2frame j (fun he => hnotsib (he ▸ hj)))
      obtain ⟨hc2, t3, hstep3, h3idx, h3frame, h3len, h3map, h3free, h3hc⟩ :
          ∃ hc2 t3, (if hc then updateHeight t2 fr.idx else pure (false, t2)
              : M (Bool × AABBTree2 U)) = .ok (hc2, t3) ∧
            t3.nodes[fr.idx]? = some (.inner (bbounds (glue fr N)) (anchor none rest)
              (if fr.side then cur else fr.sibIdx)
              (if fr.side then fr.sibIdx else cur)
              (bheight (glue fr N))) ∧
            (∀ j, j ≠ fr.idx → t3.nodes[j]? = t2.nodes[j]?) ∧
            t3.nodes.length = t2.nodes.length ∧
            t3.leafForData = t2.leafForData ∧
            t3.freeNode = t2.freeNode ∧
            (hc2 = false → bheight (glue fr N) = bheight (glue fr O)) := by
        cases hc with
        | false =>
          have hbhg : bheight (glue fr N) = bheight (glue fr O) := by
            cases hside : fr.side <;> simp [glue, hside, bheight, hhc rfl]
          refine ⟨false, t2, rfl, ?_, fun j _ => rfl, rfl, rfl, rfl, fun _ => hbhg⟩
          rw [hbhg]
          exact h2idx
        | true =>
          have hfrlt2 : fr.idx < t2.nodes.length :=
            (List.getElem?_eq_some_iff.mp h2idx).1
          cases hside : fr.side with
          | true =>
            have hget' : t2.nodes[fr.idx]? = some (.inner (bbounds (glue fr N))
                (anchor none rest) cur fr.sibIdx (bheight (glue fr O))) := by
              simpa [hside] using h2idx
            have huh := updateHeight_spec hget' hrep2.getNodeHeight_eq
              hsib2.getNodeHeight_eq
            refine ⟨_, _, huh, ?_, ?_, by simp, rfl, rfl, ?_⟩
            · rw [set_getElem?_self hfrlt2]
              simp [hside, glue, bheight]
            · intro j hj
              exact List.getElem?_set_ne (Ne.symm hj)
            · intro hhc2
              have h2 := not_not.mp (of_decide_eq_false hhc2)
              have hg : glue fr N = BTree.node N fr.sib := by simp [glue, hside]
              rw [hg]
              exact h2
          | false =>
            have hget' : t2.nodes[fr.idx]? = some (.inner (bbounds (glue fr N))
                (anchor none rest) fr.sibIdx cur (bheight (glue fr O))) := by
              simpa [hside] using h2idx
            have huh := updateHeight_spec hget' hsib2.getNodeHeight_eq
              hrep2.getNodeHeight_eq
            refine ⟨_, _, huh, ?_, ?_, by simp, rfl, rfl, ?_⟩
            · rw [set_getElem?_self hfrlt2]
              simp [hside, glue, bheight]
            · intro j hj
              exact List.getElem?_set_ne (Ne.symm hj)
            · intro hhc2
              have h2 := not_not.mp (of_decide_eq_false hhc2)
              have hg : glue fr N = BTree.node fr.sib N := by simp [glue, hside]
              rw [hg]
              exact h2
      -- new representation of the filled frame
      have hrep3 : Rep t3 cur (some fr.idx) N sn :=
        hrep2.frame (fun j hj => h3frame j (fun he => hfrnsn (he ▸ hj)))
      have hsib3 : Rep t3 fr.sibIdx (some fr.idx) fr.sib fr.sibSet :=
        hsib2.frame (fun j hj => h3frame j (fun he => hnotsib (he ▸ hj)))
      have hdsnsib : Disjoint sn fr.sibSet := by
        rw [Finset.disjoint_left]
        intro x hx hx2
        exact Finset.disjoint_left.mp hdisj hx (by simp [spineSet, hx2])
      obtain ⟨snew, hrepNew, hsnew⟩ :
          ∃ snew, Rep t3 fr.idx (anchor none rest) (glue fr N) snew ∧
            ∀ j, j ∈ snew ↔ (j = fr.idx ∨ j ∈ sn ∨ j ∈ fr.sibSet) := by
        cases hside : fr.side with
        | true =>
          have hglue : glue fr N = BTree.node N fr.sib := by simp [glue, hside]
          have hidx : t3.nodes[fr.idx]? = some (.inner (bbounds (BTree.node N fr.sib))
              (anchor none rest) cur fr.sibIdx (bheight (BTree.node N fr.sib))) := by
            rw [← hglue]
            simpa [hside] using h3idx
          refine ⟨{fr.idx} ∪ (sn ∪ fr.sibSet), ?_, ?_⟩
          · rw [hglue]
            exact Rep.node hidx hrep3 hsib3 hdsnsib hfrnsn hnotsib
          · intro j; simp
        | false =>
          have hglue : glue fr N = BTree.node fr.sib N := by simp [glue, hside]
          have hidx : t3.nodes[fr.idx]? = some (.inner (bbounds (BTree.node fr.sib N))
              (anchor none rest) fr.sibIdx cur (bheight (BTree.node fr.sib N))) := by
            rw [← hglue]
            simpa [hside] using h3idx
          refine ⟨{fr.idx} ∪ (fr.sibSet ∪ sn), ?_, ?_⟩
          · rw [hglue]
            exact Rep.node hidx hsib3 hrep3 hdsnsib.symm hnotsib hfrnsn
          · intro j
            simp only [Finset.mem_union, Finset.mem_singleton]
            constructor
            · rintro (h | h | h)
              · exact Or.inl h
              · exact Or.inr (Or.inr h)
              · exact Or.inr (Or.inl h)
            · rintro (h | h | h)
              · exact Or.inl h
              · exact Or.inr (Or.inr h)
              · exact Or.inr (Or.inl h)
      have hrest3 : SpineAt t3 0 none fr.idx rest (glue fr O) :=
        hrest.frame_spine (fun j hj => by
          rw [h3frame j (fun he => hnotrest (he ▸ hj)),
            h2frame j (fun he => hnotrest (he ▸ hj))])
      have hdisjnew : Disjoint snew (spineSet rest) := by
        rw [Finset.disjoint_left]
        intro x hx hx2
        rcases (hsnew x).mp hx with h | h | h
        · subst h; exact hnotrest hx2
        · exact Finset.disjoint_left.mp hdisj h (by simp [spineSet, hx2])
        · exact Finset.disjoint_left.mp hdisjf h hx2
      rcases ih f t3 fr.idx (glue fr N) (glue fr O) snew bc2 hc2 hrest3 hrepNew
          hdisjnew h2bc h3hc (by simp at hfuel ⊢; omega) with
        ⟨t', heq', hrep', hframe', hleaf', hlen', hmap', hfree'⟩
      refine ⟨t', ?_, ?_, ?_, ?_, ?_, ?_, ?_⟩
      · -- the loop equation
        have hcond : cur ≠ 0 ∧ (bc || hc) = true := ⟨hcur0, by
          rcases hOr with h | h <;> simp [h]⟩
        simp only [removeLoop]
        rw [if_pos hcond]
        simp only [hparent, bind_ok]
        cases bc with
        | false =>
          have hA := hstep2
          rw [if_neg (by simp)] at hA
          rw [pure_eq_ok] at hA
          obtain ⟨h1e, h2e⟩ := ok_pair_inj hA
          subst h1e
          subst h2e
          cases hc with
          | false =>
            have hB := hstep3
            rw [if_neg (by simp)] at hB
            rw [pure_eq_ok] at hB
            obtain ⟨h1f, h2f⟩ := ok_pair_inj hB
            subst h1f
            subst h2f
            simp [heq']
          | true =>
            have hB := hstep3
            rw [if_pos rfl] at hB
            simp [hB, heq']
        | true =>
          have hA := hstep2
          rw [if_pos rfl] at hA
          cases hc with
          | false =>
            have hB := hstep3
            rw [if_neg (by simp)] at hB
            rw [pure_eq_ok] at hB
            obtain ⟨h1f, h2f⟩ := ok_pair_inj hB
            subst h1f
            subst h2f
            simp [hA, heq']
          | true =>
            have hB := hstep3
            rw [if_pos rfl] at hB
            simp [hA, hB, heq']
      · have hset : snew ∪ spineSet rest = sn ∪ spineSet (fr :: rest) := by
          ext x
          simp only [Finset.mem_union, hsnew x, spineSet, Finset.mem_singleton]
          constructor
          · rintro ((h | h | h) | h)
            · exact Or.inr (Or.inl h)
            · exact Or.inl h
            · exact Or.inr (Or.inr (Or.inl h))
            · exact Or.inr (Or.inr (Or.inr h))
          · rintro (h | h | h | h)
            · exact Or.inl (Or.inr (Or.inl h))
            · exact Or.inl (Or.inl h)
            · exact Or.inl (Or.inr (Or.inr h))
            · exact Or.inr h
        rw [← hset]
        exact hrep'
      · intro j hj
        have hj1 : j ∉ spineSet rest := by
          intro h2; exact hj (by simp [spineSet, h2])
        have hj2 : j ≠ fr.idx := by
          intro h2; exact hj (by simp [spineSet, h2])
        rw [hframe' j hj1, h3frame j hj2, h2frame j hj2]
      · intro j b pr d
        rw [hleaf' j b pr d]
        by_cases hj : j = fr.idx
        · subst hj
          rw [h3idx, hget]
          simp
        · rw [h3frame j hj, h2frame j hj]
      · omega
      · rw [hmap', h3map, h2map]
      · rw [hfree', h3free, h2free]

/-! ## Removal: the surgery on the arena -/

theorem Removed.good_out {d : U} {B B2 : BTree U} (h : Removed d B B2)
    (hg : AABB.goodTree B = true) : AABB.goodTree B2 = true := by
  induction h with
  | base_left b R =>
    simp only [AABB.goodTree, Bool.and_eq_true] at hg
    exact hg.2
  | base_right L b =>
    simp only [AABB.goodTree, Bool.and_eq_true] at hg
    exact hg.1
  | go_left R hI ih =>
    simp only [AABB.goodTree, Bool.and_eq_true] at hg ⊢
    exact ⟨ih hg.1, hg.2⟩
  | go_right L hI ih =>
    simp only [AABB.goodTree, Bool.and_eq_true] at hg ⊢
    exact ⟨hg.1, ih hg.2⟩

/-- A `Removed` step at the hole lifts through plugging into a spine. -/
theorem removed_fillT {d : U} (frames : List (SFrame U)) {X Y : BTree U}
    (h : Removed d X Y) : Removed d (fillT frames X) (fillT frames Y) := by
  induction frames generalizing X Y with
  | nil => exact h
  | cons fr rest ih =>
    simp only [fillT]
    cases hside : fr.side with
    | true =>
      have hg : ∀ Z : BTree U, glue fr Z = BTree.node Z fr.sib := fun Z => by
        simp [glue, hside]
      rw [hg X, hg Y]
      exact ih (Removed.go_left fr.sib h)
    | false =>
      have hg : ∀ Z : BTree U, glue fr Z = BTree.node fr.sib Z := fun Z => by
        simp [glue, hside]
      rw [hg X, hg Y]
      exact ih (Removed.go_right fr.sib h)

/-- Unplugging the leaf holding `d` from one ancestor level is a `Removed`
step. -/
theorem removed_glue {d : U} (fr : SFrame U) (b : BBox) :
    Removed d (glue fr (.leaf b d)) fr.sib := by
  cases hside : fr.side with
  | true =>
    have hg : glue fr (BTree.leaf b d) = BTree.node (.leaf b d) fr.sib := by
      simp [glue, hside]
    rw [hg]
    exact Removed.base_left b fr.sib
  | false =>
    have hg : glue fr (BTree.leaf b d) = BTree.node fr.sib (.leaf b d) := by
      simp [glue, hside]
    rw [hg]
    exact Removed.base_right fr.sib b

/-- What `setParentIndex` does at the root of a represented subtree: rewrite
the stored parent pointer, leaving every other slot and the rest of the state
alone. -/
theorem setParentIndex_ok {t : AABBTree2 U} {j : Nat} {pj : Option Nat}
    {Bj : BTree U} {sj : Finset Nat} (h : Rep t j pj Bj sj) (p2 : Option Nat) :
    ∃ t', setParentIndex t j p2 = .ok t' ∧
      Rep t' j p2 Bj sj ∧
      (∀ k, k ≠ j → t'.nodes[k]? = t.nodes[k]?) ∧
      (∀ (b : BBox) (d2 : U),
        (∃ pk, t'.nodes[j]? = some (ANode.leaf b pk d2))
          ↔ (∃ pk, t.nodes[j]? = some (ANode.leaf b pk d2))) ∧
      t'.nodes.length = t.nodes.length ∧
      t'.leafForData = t.leafForData ∧
      t'.freeNode = t.freeNode := by
  cases h with
  | leaf hget =>
    rename_i b d
    have hlt : j < t.nodes.length := (List.getElem?_eq_some_iff.mp hget).1
    refine ⟨{ t with nodes := t.nodes.set j (.leaf b p2 d) }, ?_, ?_, ?_, ?_,
      by simp, rfl, rfl⟩
    · simp [setParentIndex, getNode, hget]
    · exact .leaf (set_getElem?_self hlt)
    · intro k hk
      exact List.getElem?_set_ne (Ne.symm hk)
    · intro b2 d2
      have hj2 : ({ t with nodes := t.nodes.set j (ANode.leaf b p2 d) }
            : AABBTree2 U).nodes[j]? = some (ANode.leaf b p2 d) :=
        set_getElem?_self hlt
      rw [hj2, hget]
      simp
  | @node _ _ l r L R sl sr hget hl hr hdisj hil hir =>
    have hlt : j < t.nodes.length := (List.getElem?_eq_some_iff.mp hget).1
    refine ⟨{ t with nodes := (t.nodes.set j
        (.inner (bbounds (.node L R)) p2 l r (bheight (.node L R)))) }, ?_, ?_, ?_, ?_,
      by simp, rfl, rfl⟩
    · simp [setParentIndex, getNode, hget]
    · refine Rep.node (set_getElem?_self hlt) ?_ ?_ hdisj hil hir
      · exact hl.frame fun k hk => List.getElem?_set_ne (fun he => hil (by rw [he]; exact hk))
      · exact hr.frame fun k hk => List.getElem?_set_ne (fun he => hir (by rw [he]; exact hk))
    · intro k hk
      exact List.getElem?_set_ne (Ne.symm hk)
    · intro b2 d2
      have hj2 : ({ t with nodes := (t.nodes.set j
            (.inner (bbounds (.node L R)) p2 l r (bheight (.node L R)))) }
            : AABBTree2 U).nodes[j]?
          = some (ANode.inner (bbounds (.node L R)) p2 l r (bheight (.node L R))) :=
        set_getElem?_self hlt
      rw [hj2, hget]
      simp

/-- The lookup-index effect of relocating a subtree root to slot `q`:
`moveNode` repoints the entry of a leaf, and leaves the index alone for an
inner node. -/
def relocMap [DecidableEq U] (m : List (U × Nat)) (q : Nat) : BTree U → List (U × Nat)
  | .leaf _ ds => setData m ds q
  | .node _ _ => m

theorem Rep.leaf_inv {t : AABBTree2 U} {i : Nat} {p : Option Nat} {b : BBox}
    {d : U} {s : Finset Nat} (h : Rep t i p (.leaf b d) s) :
    t.nodes[i]? = some (.leaf b p d) := by
  cases h with
  | leaf hget => exact hget

theorem Rep.node_inv {t : AABBTree2 U} {i : Nat} {p : Option Nat} {L R : BTree U}
    {s : Finset Nat} (h : Rep t i p (.node L R) s) :
    ∃ l r, t.nodes[i]? = some (.inner (bbounds (.node L R)) p l r
      (bheight (.node L R))) := by
  cases h with
  | node hget hl hr => exact ⟨_, _, hget⟩

/-- The relocation performed by `remove`: `moveNode` copies the sibling
subtree's root into the parent's slot, fixes the children's parent pointers
(inner) or the lookup entry (leaf), and frees the sibling's slot; the
following `setParentIndex` points the relocated node at the grandparent. -/
theorem reloc_ok [DecidableEq U] {t : AABBTree2 U} {c q : Nat} {S : BTree U}
    {ss : Finset Nat} (hsib : Rep t c (some q) S ss) (hq : q ∉ ss)
    (hqlt : q < t.nodes.length) (gp : Option Nat) :
    ∃ t1 t2, moveNode t c q = .ok t1 ∧ setParentIndex t1 q gp = .ok t2 ∧
      Rep t2 q gp S ({q} ∪ ss.erase c) ∧
      t2.nodes[c]? = some (.free t.freeNode) ∧
      t2.freeNode = some c ∧
      (∀ j, j ≠ q → j ≠ c → j ∉ ss → t2.nodes[j]? = t.nodes[j]?) ∧
      (∀ (j : Nat) (b : BBox) (d2 : U), j ≠ q → j ≠ c →
        ((∃ pk, t2.nodes[j]? = some (ANode.leaf b pk d2))
          ↔ (∃ pk, t.nodes[j]? = some (ANode.leaf b pk d2)))) ∧
      t2.nodes.length = t.nodes.length ∧
      t2.leafForData = relocMap t.leafForData q S := by
  have hcq : c ≠ q := fun he => hq (he ▸ hsib.root_mem)
  cases hsib with
  | leaf hget =>
    rename_i b d
    have hclt : c < t.nodes.length := (List.getElem?_eq_some_iff.mp hget).1
    have hc2 : (t.nodes.set q (ANode.leaf b (some q) d))[c]?
        = some (ANode.leaf b (some q) d) := by
      rw [List.getElem?_set_ne (Ne.symm hcq), hget]
    refine ⟨⟨(t.nodes.set q (ANode.leaf b (some q) d)).set c (.free t.freeNode),
             setData t.leafForData d q, some c⟩,
            ⟨((t.nodes.set q (ANode.leaf b (some q) d)).set c
               (.free t.freeNode)).set q (ANode.leaf b gp d),
             setData t.leafForData d q, some c⟩,
            ?_, ?_, ?_, ?_, rfl, ?_, ?_, ?_, rfl⟩
    · simp only [moveNode, getNode, hget, bind_ok]
      rw [if_pos hqlt]
      simp only [bind_ok, pure_eq_ok, freeNode, getNode, hc2]
    · have hq2 : ((t.nodes.set q (ANode.leaf b (some q) d)).set c
            (.free t.freeNode))[q]? = some (ANode.leaf b (some q) d) := by
        rw [List.getElem?_set_ne hcq]
        exact set_getElem?_self hqlt
      simp only [setParentIndex, getNode, hq2, bind_ok]
    · have hset : ({q} ∪ ({c} : Finset Nat).erase c) = ({q} : Finset Nat) := by simp
      rw [hset]
      exact Rep.leaf (set_getElem?_self (by simpa using hqlt))
    · exact (List.getElem?_set_ne (Ne.symm hcq)).trans
        (set_getElem?_self (by simpa using hclt))
    · intro j hjq hjc hjss
      exact ((List.getElem?_set_ne (Ne.symm hjq)).trans
        (List.getElem?_set_ne (Ne.symm hjc))).trans
        (List.getElem?_set_ne (Ne.symm hjq))
    · intro j b2 d2 hjq hjc
      have he : (⟨((t.nodes.set q (ANode.leaf b (some q) d)).set c
            (.free t.freeNode)).set q (ANode.leaf b gp d),
          setData t.leafForData d q, some c⟩ : AABBTree2 U).nodes[j]?
          = t.nodes[j]? :=
        ((List.getElem?_set_ne (Ne.symm hjq)).trans
          (List.getElem?_set_ne (Ne.symm hjc))).trans
          (List.getElem?_set_ne (Ne.symm hjq))
      rw [he]
    · simp
  | @node _ _ sl sr SL SR ssl ssr hget hl hr hdisj hcl hcr =>
    have hclt : c < t.nodes.length := (List.getElem?_eq_some_iff.mp hget).1
    have hqnsl : q ∉ ssl := fun hx => hq (by simp [hx])
    have hqnsr : q ∉ ssr := fun hx => hq (by simp [hx])
    have hslmem : sl ∈ ssl := hl.root_mem
    have hsrmem : sr ∈ ssr := hr.root_mem
    have hslq : sl ≠ q := fun he => hqnsl (he ▸ hslmem)
    have hsrq : sr ≠ q := fun he => hqnsr (he ▸ hsrmem)
    have hslc : sl ≠ c := fun he => hcl (he ▸ hslmem)
    have hsrc : sr ≠ c := fun he => hcr (he ▸ hsrmem)
    have hslsr : sl ≠ sr :=
      fun he => Finset.disjoint_left.mp hdisj hslmem (by rw [he]; exact hsrmem)
    have hrepL1 : Rep { t with nodes := (t.nodes.set q (ANode.inner
          (bbounds (.node SL SR)) (some q) sl sr (bheight (.node SL SR)))) }
        sl (some c) SL ssl :=
      hl.frame fun k hk => List.getElem?_set_ne (fun he => hqnsl (by rw [he]; exact hk))
    obtain ⟨ta, hspa, hrepa, hframea, hleafa, hlena, hmapa, hfna⟩ :=
      setParentIndex_ok hrepL1 (some q)
    have hrepR1 : Rep { t with nodes := (t.nodes.set q (ANode.inner
          (bbounds (.node SL SR)) (some q) sl sr (bheight (.node SL SR)))) }
        sr (some c) SR ssr :=
      hr.frame fun k hk => List.getElem?_set_ne (fun he => hqnsr (by rw [he]; exact hk))
    have hrepRa : Rep ta sr (some c) SR ssr :=
      hrepR1.frame fun k hk => hframea k
        (fun he => Finset.disjoint_left.mp hdisj (by rw [he]; exact hslmem) hk)
    obtain ⟨tb, hspb, hrepb, hframeb, hleafb, hlenb, hmapb, hfnb⟩ :=
      setParentIndex_ok hrepRa (some q)
    have hfnt : tb.freeNode = t.freeNode := hfnb.trans hfna
    have hmapt : tb.leafForData = t.leafForData := hmapb.trans hmapa
    have htbc : tb.nodes[c]? = some (ANode.inner
        (bbounds (.node SL SR)) (some q) sl sr (bheight (.node SL SR))) :=
      ((hframeb c (Ne.symm hsrc)).trans (hframea c (Ne.symm hslc))).trans
        ((List.getElem?_set_ne (Ne.symm hcq)).trans hget)
    have hfreeeq : freeNode tb c = .ok { tb with
        nodes := tb.nodes.set c (.free tb.freeNode)
        freeNode := some c } := by
      simp [freeNode, getNode, htbc]
    have hmv : moveNode t c q = .ok { tb with
        nodes := tb.nodes.set c (.free tb.freeNode)
        freeNode := some c } := by
      simp only [moveNode, getNode, hget, bind_ok]
      rw [if_pos hqlt]
      simp only [bind_ok, hspa, hspb, hfreeeq]
    have hlentb : tb.nodes.length = t.nodes.length := by
      rw [hlenb, hlena]
      simp
    have hclttb : c < tb.nodes.length := by rw [hlentb]; exact hclt
    have htcq : ({ tb with
          nodes := tb.nodes.set c (.free tb.freeNode)
          freeNode := some c } : AABBTree2 U).nodes[q]? = some (ANode.inner
        (bbounds (.node SL SR)) (some q) sl sr (bheight (.node SL SR))) :=
      (List.getElem?_set_ne hcq).trans
        (((hframeb q (Ne.symm hsrq)).trans (hframea q (Ne.symm hslq))).trans
          (set_getElem?_self hqlt))
    have hsp2 : setParentIndex { tb with
          nodes := tb.nodes.set c (.free tb.freeNode)
          freeNode := some c } q gp = .ok { tb with
        nodes := ((tb.nodes.set c (.free tb.freeNode)).set q (ANode.inner
          (bbounds (.node SL SR)) gp sl sr (bheight (.node SL SR))))
        freeNode := some c } := by
      simp only [setParentIndex, getNode, htcq, bind_ok]
    refine ⟨_, _, hmv, hsp2, ?_, ?_, rfl, ?_, ?_, ?_, ?_⟩
    · have hes : (({c} ∪ (ssl ∪ ssr) : Finset Nat)).erase c = ssl ∪ ssr := by
        ext x
        simp only [Finset.mem_erase, Finset.mem_union, Finset.mem_singleton]
        constructor
        · rintro ⟨hne, h | h | h⟩
          · exact absurd h hne
          · exact Or.inl h
          · exact Or.inr h
        · rintro (h | h)
          · exact ⟨fun he => hcl (he ▸ h), Or.inr (Or.inl h)⟩
          · exact ⟨fun he => hcr (he ▸ h), Or.inr (Or.inr h)⟩
      rw [hes]
      have hqlt2 : q < ((tb.nodes.set c (ANode.free tb.freeNode))).length := by
        simp [hlentb, hqlt]
      refine Rep.node (set_getElem?_self hqlt2) ?_ ?_ hdisj hqnsl hqnsr
      · refine hrepa.frame fun k hk => ?_
        have h1 : q ≠ k := fun he => hqnsl (he ▸ hk)
        have h2 : c ≠ k := fun he => hcl (he ▸ hk)
        have h3 : k ≠ sr :=
          fun he => Finset.disjoint_left.mp hdisj hk (by rw [he]; exact hsrmem)
        exact ((List.getElem?_set_ne h1).trans
          (List.getElem?_set_ne h2)).trans (hframeb k h3)
      · refine hrepb.frame fun k hk => ?_
        have h1 : q ≠ k := fun he => hqnsr (he ▸ hk)
        have h2 : c ≠ k := fun he => hcr (he ▸ hk)
        exact (List.getElem?_set_ne h1).trans (List.getElem?_set_ne h2)
    · have h1 : (((tb.nodes.set c (ANode.free tb.freeNode)).set q (ANode.inner
          (bbounds (.node SL SR)) gp sl sr (bheight (.node SL SR)))))[c]?
          = some (ANode.free tb.freeNode) :=
        (List.getElem?_set_ne (Ne.symm hcq)).trans (set_getElem?_self hclttb)
      rw [show (({ tb with
          nodes := ((tb.nodes.set c (.free tb.freeNode)).set q
            (ANode.inner (bbounds (.node SL SR)) gp sl sr (bheight (.node SL SR))))
          freeNode := some c } : AABBTree2 U)).nodes[c]?
          = some (ANode.free tb.freeNode) from h1, hfnt]
    · intro j hjq hjc hjss
      simp only [Finset.mem_union, Finset.mem_singleton, not_or] at hjss
      have hjsl : j ≠ sl := fun he => hjss.2.1 (he ▸ hslmem)
      have hjsr : j ≠ sr := fun he => hjss.2.2 (he ▸ hsrmem)
      exact ((((List.getElem?_set_ne (Ne.symm hjq)).trans
        (List.getElem?_set_ne (Ne.symm hjc))).trans
        (hframeb j hjsr)).trans (hframea j hjsl)).trans
        (List.getElem?_set_ne (Ne.symm hjq))
    · intro j b2 d2 hjq hjc
      by_cases hjsl : j = sl
      · rw [hjsl]
        have h1 : (⟨((tb.nodes.set c (.free tb.freeNode)).set q (ANode.inner
              (bbounds (.node SL SR)) gp sl sr (bheight (.node SL SR)))),
              tb.leafForData, some c⟩ : AABBTree2 U).nodes[sl]? = ta.nodes[sl]? :=
          ((List.getElem?_set_ne (Ne.symm hslq)).trans
            (List.getElem?_set_ne (Ne.symm hslc))).trans (hframeb sl hslsr)
        have h2 : ({ t with nodes := (t.nodes.set q (ANode.inner
              (bbounds (.node SL SR)) (some q) sl sr (bheight (.node SL SR)))) }
              : AABBTree2 U).nodes[sl]? = t.nodes[sl]? :=
          List.getElem?_set_ne (Ne.symm hslq)
        rw [h1, ← h2]
        exact hleafa b2 d2
      · by_cases hjsr : j = sr
        · rw [hjsr]
          have h1 : (⟨((tb.nodes.set c (.free tb.freeNode)).set q (ANode.inner
                (bbounds (.node SL SR)) gp sl sr (bheight (.node SL SR)))),
                tb.leafForData, some c⟩ : AABBTree2 U).nodes[sr]? = tb.nodes[sr]? :=
            (List.getElem?_set_ne (Ne.symm hsrq)).trans
              (List.getElem?_set_ne (Ne.symm hsrc))
          have h2 : ta.nodes[sr]? = t.nodes[sr]? :=
            (hframea sr (fun he => hslsr he.symm)).trans
              (List.getElem?_set_ne (Ne.symm hsrq))
          rw [h1, ← h2]
          exact hleafb b2 d2
        · have h1 : (⟨(tb.nodes.set c (.free tb.freeNode)).set q (ANode.inner
                (bbounds (.node SL SR)) gp sl sr (bheight (.node SL SR))),
                tb.leafForData, some c⟩ : AABBTree2 U).nodes[j]? = t.nodes[j]? :=
            ((((List.getElem?_set_ne (Ne.symm hjq)).trans
              (List.getElem?_set_ne (Ne.symm hjc))).trans
              (hframeb j hjsr)).trans (hframea j hjsl)).trans
              (List.getElem?_set_ne (Ne.symm hjq))
          rw [h1]
    · simp [hlentb]
    · exact hmapt

/-- `remove` on an unmapped key: `false`, no error, and the tree is returned
untouched. -/
theorem remove_absent [DecidableEq U] {t : AABBTree2 U} {d : U}
    (h : findData t.leafForData d = none) : remove t d = .ok (false, t) := by
  simp [remove, h]

/-- `remove` of the leaf stored in the root slot clears the tree. -/
theorem remove_root [DecidableEq U] {t : AABBTree2 U} {d : U}
    (h : findData t.leafForData d = some 0) : remove t d = .ok (true, emptyTree) := by
  simp [remove, h, clear]

/-- The public `remove` on a well-formed tree holding the key at a non-root
slot: it succeeds with `true`, the logical tree takes a `Removed` step, and
the result is well-formed. -/
theorem remove_ok [DecidableEq U] {t : AABBTree2 U} {B s fl} (hwf : WFx t B s fl)
    {d : U} {i : Nat} (hfind : findData t.leafForData d = some i) (hi0 : i ≠ 0) :
    ∃ t' B' s' fl', remove t d = .ok (true, t') ∧ Removed d B B' ∧
      WFx t' B' s' fl' := by
  have hnd : (t.leafForData.map Prod.fst).Nodup := hwf.mapinv.1
  have hmem : (d, i) ∈ t.leafForData := findData_mem hfind
  obtain ⟨b, pr, hleafi0⟩ := hwf.mapinv.2.1 (d, i) hmem
  have hleafi : t.nodes[i]? = some (ANode.leaf b pr d) := hleafi0
  clear hleafi0
  have hmap21 : ∀ (k : U) (j2 : Nat), (k, j2) ∈ t.leafForData →
      ∃ b2 pr2, t.nodes[j2]? = some (ANode.leaf b2 pr2 k) := by
    intro k j2 hkj
    exact hwf.mapinv.2.1 (k, j2) hkj
  have hilt : i < t.nodes.length := (List.getElem?_eq_some_iff.mp hleafi).1
  have his : i ∈ s := by
    rcases hwf.cover i hilt with h | h
    · exact h
    · rcases hwf.freechain.mem_free i h with ⟨nx, hfree⟩
      rw [hleafi] at hfree
      cases hfree
  rcases hwf.rep.decompose i his with ⟨X, sx, frames, hrepX, hspine, hfill, hseq, hdisjx⟩
  cases hrepX with
  | node hgetN hlN hrN hdisjN hilN hirN =>
    rw [hleafi] at hgetN
    cases hgetN
  | leaf hget0 =>
  rename_i b0 d0
  rw [hleafi] at hget0
  injection hget0 with hg1
  injection hg1 with hb1 hp1 hd1
  subst hb1
  subst hd1
  subst hp1
  cases frames with
  | nil =>
    cases hspine
    exact absurd rfl hi0
  | cons fr rest =>
  cases hspine with
  | cons hget hsib hrest hnotsib hnotrest hdisjf hhole =>
  have hfrlt : fr.idx < t.nodes.length := (List.getElem?_eq_some_iff.mp hget).1
  have hsibmem : fr.sibIdx ∈ fr.sibSet := hsib.root_mem
  have hifr : i ≠ fr.idx := fun he => hhole (by simp [he])
  have hinsib : i ∉ fr.sibSet := fun hx => hhole (by simp [hx])
  have hinrest : i ∉ spineSet rest := fun hx => hhole (by simp [hx])
  have hisib : i ≠ fr.sibIdx := fun he => hinsib (he ▸ hsibmem)
  have hfrsib : fr.idx ≠ fr.sibIdx := fun he => hnotsib (he ▸ hsibmem)
  have hsibnrest : fr.sibIdx ∉ spineSet rest :=
    fun hx => Finset.disjoint_left.mp hdisjf hsibmem hx
  have hsibslt : fr.sibIdx < t.nodes.length := hsib.mem_lt _ hsibmem
  -- membership of the various slots in the occupied set
  have hsubspine : ∀ j ∈ spineSet rest, j ∈ s := fun j hj => by
    rw [hseq]; simp [spineSet, hj]
  have hfrs : fr.idx ∈ s := by rw [hseq]; simp [spineSet]
  have hsibsub : ∀ j ∈ fr.sibSet, j ∈ s := fun j hj => by
    rw [hseq]; simp [spineSet, hj]
  have hnfl : ∀ j ∈ s, j ∉ fl := rep_freechain_disjoint hwf.rep hwf.freechain
  -- the step equations up to the relocation
  have hpar_i : getParentIndex t i = .ok (some fr.idx) := by
    simp [getParentIndex, getNode, hleafi, anchor]
  have hpar_fr : getParentIndex t fr.idx = .ok (anchor none rest) := by
    simp [getParentIndex, getNode, hget]
  have hsibix : getSiblingIndex t i = .ok fr.sibIdx := by
    cases hside : fr.side with
    | true =>
      simp [getSiblingIndex, getParentIndex, getNode, hleafi, anchor, hget, hside]
    | false =>
      simp [getSiblingIndex, getParentIndex, getNode, hleafi, anchor, hget, hside, hisib]
  obtain ⟨t1, t2, hmv, hsp, hrep2, hc2free, hfn2, hframe2, hleaf2, hlen2, hmap2⟩ :=
    reloc_ok hsib hnotsib hfrlt (anchor none rest)
  have hilt2 : i < t2.nodes.length := by rw [hlen2]; exact hilt
  have ht2i : t2.nodes[i]? = some (.leaf b (anchor none (fr :: rest)) d) := by
    rw [hframe2 i hifr hisib hinsib]
    exact hleafi
  have hfr3 : freeNode t2 i = .ok { t2 with
      nodes := t2.nodes.set i (.free t2.freeNode)
      freeNode := some i } := by
    simp [freeNode, getNode, ht2i]
  -- the state handed to the recomputation loop
  have hspine4 : SpineAt (⟨t2.nodes.set i (.free t2.freeNode),
      eraseData t2.leafForData d, some i⟩ : AABBTree2 U) 0 none fr.idx rest
      (glue fr (.leaf b d)) :=
    hrest.frame_spine fun j hj => by
      have hjfr : j ≠ fr.idx := fun he => hnotrest (he ▸ hj)
      have hjsib : j ∉ fr.sibSet := fun hx => Finset.disjoint_left.mp hdisjf hx hj
      have hjsibIdx : j ≠ fr.sibIdx := fun he => hjsib (he ▸ hsibmem)
      have hji : j ≠ i := fun he => hinrest (he ▸ hj)
      exact (List.getElem?_set_ne (Ne.symm hji)).trans (hframe2 j hjfr hjsibIdx hjsib)
  have hrep4 : Rep (⟨t2.nodes.set i (.free t2.freeNode),
      eraseData t2.leafForData d, some i⟩ : AABBTree2 U) fr.idx (anchor none rest)
      fr.sib ({fr.idx} ∪ fr.sibSet.erase fr.sibIdx) :=
    hrep2.frame fun j hj => by
      have hji : j ≠ i := by
        intro he
        subst he
        rcases Finset.mem_union.mp hj with h | h
        · exact hifr (Finset.mem_singleton.mp h)
        · exact hinsib (Finset.mem_of_mem_erase h)
      exact List.getElem?_set_ne (Ne.symm hji)
  have hdisj4 : Disjoint ({fr.idx} ∪ fr.sibSet.erase fr.sibIdx) (spineSet rest) := by
    rw [Finset.disjoint_left]
    intro x hx hx2
    rcases Finset.mem_union.mp hx with h | h
    · rw [Finset.mem_singleton] at h
      subst h
      exact hnotrest hx2
    · exact Finset.disjoint_left.mp hdisjf (Finset.mem_of_mem_erase h) hx2
  have hfuel : rest.length < t2.nodes.length + 1 := by
    have h1 := hrest.length_le_card
    have h2 : (spineSet rest).card ≤ t.nodes.length := by
      have hsub : spineSet rest ⊆ Finset.range t.nodes.length := by
        intro j hj
        simp only [Finset.mem_range]
        exact hrest.mem_lt_spine j hj
      calc (spineSet rest).card ≤ (Finset.range t.nodes.length).card :=
            Finset.card_le_card hsub
        _ = t.nodes.length := by simp
    omega
  rcases removeLoop_ok rest (t2.nodes.length + 1)
      (⟨t2.nodes.set i (.free t2.freeNode), eraseData t2.leafForData d, some i⟩
        : AABBTree2 U)
      fr.idx fr.sib (glue fr (.leaf b d)) ({fr.idx} ∪ fr.sibSet.erase fr.sibIdx)
      true true hspine4 hrep4 hdisj4 (fun h => absurd h (by simp))
      (fun h => absurd h (by simp)) hfuel with
    ⟨t5, hloop, hrep5, hframe5, hleaf5, hlen5, hmap5, hfn5⟩
  -- content of the two freed slots and the relocated slot in the final tree
  have h5i : t5.nodes[i]? = some (.free t2.freeNode) :=
    (hframe5 i hinrest).trans (set_getElem?_self hilt2)
  have h5sib : t5.nodes[fr.sibIdx]? = some (.free t.freeNode) :=
    ((hframe5 _ hsibnrest).trans (List.getElem?_set_ne hisib)).trans hc2free
  have h5fr : t5.nodes[fr.idx]? = t2.nodes[fr.idx]? :=
    (hframe5 _ hnotrest).trans (List.getElem?_set_ne hifr)
  have hmapt5 : t5.leafForData = eraseData t2.leafForData d := hmap5
  have hfn5s : t5.freeNode = some i := hfn5
  have hnd2 : (t2.leafForData.map Prod.fst).Nodup := by
    rw [hmap2]
    cases hS : fr.sib with
    | leaf bs ds => exact setData_nodup hnd
    | node SL SR => exact hnd
  -- transfer of untouched leaf slots between the initial and final tree
  have htrans : ∀ (j : Nat) (b2 : BBox) (d2 : U), j ≠ i → j ≠ fr.sibIdx →
      j ≠ fr.idx →
      ((∃ pk, t5.nodes[j]? = some (ANode.leaf b2 pk d2))
        ↔ (∃ pk, t.nodes[j]? = some (ANode.leaf b2 pk d2))) := by
    intro j b2 d2 hji hjsib hjfr
    constructor
    · rintro ⟨pk, hpk⟩
      rw [hleaf5 j b2 pk d2] at hpk
      have h4 : (⟨t2.nodes.set i (.free t2.freeNode), eraseData t2.leafForData d,
          some i⟩ : AABBTree2 U).nodes[j]? = t2.nodes[j]? :=
        List.getElem?_set_ne (Ne.symm hji)
      rw [h4] at hpk
      exact (hleaf2 j b2 d2 hjfr hjsib).mp ⟨pk, hpk⟩
    · rintro ⟨pk, hpk⟩
      rcases (hleaf2 j b2 d2 hjfr hjsib).mpr ⟨pk, hpk⟩ with ⟨pk2, hpk2⟩
      refine ⟨pk2, ?_⟩
      rw [hleaf5 j b2 pk2 d2]
      have h4 : (⟨t2.nodes.set i (.free t2.freeNode), eraseData t2.leafForData d,
          some i⟩ : AABBTree2 U).nodes[j]? = t2.nodes[j]? :=
        List.getElem?_set_ne (Ne.symm hji)
      rw [h4]
      exact hpk2
  -- the logical step
  have hrm : Removed d B (fillT rest fr.sib) := by
    rw [← hfill]
    exact removed_fillT rest (removed_glue fr b)
  refine ⟨t5, fillT rest fr.sib,
    ({fr.idx} ∪ fr.sibSet.erase fr.sibIdx) ∪ spineSet rest,
    i :: fr.sibIdx :: fl, ?_, hrm, ?_⟩
  · simp only [remove, hfind]
    rw [if_neg hi0]
    simp only [hpar_i, bind_ok, hpar_fr, hsibix, hmv, hsp, hfr3, List.length_set, hloop]
  · refine ⟨hrep5, ?_, ?_, ?_, ?_⟩
    · -- the free chain
      rw [show FreeChain t5 t5.freeNode (i :: fr.sibIdx :: fl)
          = FreeChain t5 (some i) (i :: fr.sibIdx :: fl) from by rw [hfn5s]]
      refine FreeChain.cons ?_ (FreeChain.cons h5sib ?_ ?_) ?_
      · rw [h5i, hfn2]
      · refine hwf.freechain.frame_chain ?_
        intro j hj
        have hjs : j ∉ s := fun hx => hnfl j hx hj
        have hjrest : j ∉ spineSet rest := fun hx => hjs (hsubspine j hx)
        have hji : j ≠ i := fun he => hjs (he ▸ his)
        have hjfr : j ≠ fr.idx := fun he => hjs (he ▸ hfrs)
        have hjsibIdx : j ≠ fr.sibIdx := fun he => hjs (he ▸ hsibsub _ hsibmem)
        have hjsib : j ∉ fr.sibSet := fun hx => hjs (hsibsub j hx)
        exact ((hframe5 j hjrest).trans
          (List.getElem?_set_ne (Ne.symm hji))).trans
          (hframe2 j hjfr hjsibIdx hjsib)
      · exact fun hx => hnfl _ (hsibsub _ hsibmem) hx
      · intro hx
        rcases List.mem_cons.mp hx with h | h
        · exact hisib h
        · exact hnfl i his h
    · -- cover
      intro j hjlt
      have hjt : j < t.nodes.length := by
        have e5 : t5.nodes.length = t2.nodes.length := by
          rw [hlen5]; simp
        omega
      rcases hwf.cover j hjt with h | h
      · rw [hseq] at h
        rcases Finset.mem_union.mp h with h | h
        · rw [Finset.mem_singleton] at h
          subst h
          right
          exact List.mem_cons_self _ _
        · simp only [spineSet, Finset.mem_union, Finset.mem_singleton] at h
          rcases h with h | h | h
          · subst h
            left
            exact Finset.mem_union_left _ (by simp)
          · by_cases he : j = fr.sibIdx
            · subst he
              right
              exact List.mem_cons_of_mem _ (List.mem_cons_self _ _)
            · left
              exact Finset.mem_union_left _
                (Finset.mem_union_right _ (Finset.mem_erase.mpr ⟨he, h⟩))
          · left
            exact Finset.mem_union_right _ h
      · right
        exact List.mem_cons_of_mem _ (List.mem_cons_of_mem _ h)
    · -- the lookup index laws
      refine ⟨?_, ?_, ?_⟩
      · rw [hmapt5]
        exact eraseData_nodup hnd2
      · intro e he
        obtain ⟨ek, ej⟩ := e
        rw [hmapt5] at he
        obtain ⟨heA, hed⟩ := mem_eraseData hnd2 _ he
        have hed2 : ek ≠ d := hed
        rw [hmap2] at heA
        show ∃ b2 pr2, t5.nodes[ej]? = some (ANode.leaf b2 pr2 ek)
        have hnotat : ∀ (k : U) (j2 : Nat), (k, j2) ∈ t.leafForData → k ≠ d →
            j2 ≠ i ∧ j2 ≠ fr.idx := by
          intro k j2 hmemk hkd
          obtain ⟨b2, pr2, hjj⟩ := hmap21 k j2 hmemk
          constructor
          · intro he4
            subst he4
            rw [hleafi] at hjj
            injection hjj with hjj2
            injection hjj2 with hz1 hz2 hz3
            exact hkd hz3.symm
          · intro he4
            subst he4
            rw [hget] at hjj
            cases hjj
        cases hS : fr.sib with
        | leaf bs ds =>
          rw [hS] at heA hsib
          have hsgetT := hsib.leaf_inv
          have hdsmem : (ds, fr.sibIdx) ∈ t.leafForData :=
            hwf.mapinv.2.2 _ _ _ _ hsgetT
          rcases mem_setData hnd _ heA with he2 | ⟨he2, he3⟩
          · injection he2 with hek hej
            subst hek
            subst hej
            rw [hS] at hrep2
            have hget2 := hrep2.leaf_inv
            refine ⟨bs, anchor none rest, ?_⟩
            rw [h5fr]
            exact hget2
          · have he3b : ek ≠ ds := he3
            obtain ⟨b2, pr2, hjj⟩ := hmap21 ek ej he2
            obtain ⟨hji, hjfr⟩ := hnotat ek ej he2 hed2
            have hjsibIdx : ej ≠ fr.sibIdx := by
              intro he4
              subst he4
              rw [hsgetT] at hjj
              injection hjj with hjj2
              injection hjj2 with hz1 hz2 hz3
              exact he3b hz3.symm
            rcases (htrans ej b2 ek hji hjsibIdx hjfr).mpr ⟨pr2, hjj⟩ with ⟨pk, hpk⟩
            exact ⟨b2, pk, hpk⟩
        | node SL SR =>
          rw [hS] at heA hsib
          have heA2 : (ek, ej) ∈ t.leafForData := heA
          obtain ⟨b2, pr2, hjj⟩ := hmap21 ek ej heA2
          obtain ⟨hji, hjfr⟩ := hnotat ek ej heA2 hed2
          have hjsibIdx : ej ≠ fr.sibIdx := by
            intro he4
            subst he4
            obtain ⟨xl, xr, hsgetT⟩ := hsib.node_inv
            rw [hsgetT] at hjj
            cases hjj
          rcases (htrans ej b2 ek hji hjsibIdx hjfr).mpr ⟨pr2, hjj⟩ with ⟨pk, hpk⟩
          exact ⟨b2, pk, hpk⟩
      · intro j b2 pr2 d2 hj5
        have hji : j ≠ i := by
          intro he
          rw [he, h5i] at hj5
          cases hj5
        have hjsibIdx : j ≠ fr.sibIdx := by
          intro he
          rw [he, h5sib] at hj5
          cases hj5
        by_cases hjfr : j = fr.idx
        · rw [hjfr, h5fr] at hj5
          cases hS : fr.sib with
          | leaf bs ds =>
            rw [hS] at hrep2 hsib
            have hget2 := hrep2.leaf_inv
            rw [hget2] at hj5
            injection hj5 with hj6
            injection hj6 with hy1 hy2 hy3
            have hsgetT := hsib.leaf_inv
            have hdsmem : (ds, fr.sibIdx) ∈ t.leafForData :=
              hwf.mapinv.2.2 _ _ _ _ hsgetT
            have hdsd : ds ≠ d := by
              intro he
              subst he
              exact hisib (nodup_key_inj hnd hmem hdsmem)
            rw [hmapt5, hmap2, hS, hjfr]
            refine eraseData_mem_of_ne ?_ ?_
            · rw [← hy3]
              exact setData_mem_self t.leafForData ds fr.idx
            · rw [hy3] at hdsd
              exact hdsd
          | node SL SR =>
            rw [hS] at hrep2
            obtain ⟨xl, xr, hget2⟩ := hrep2.node_inv
            rw [hget2] at hj5
            cases hj5
        · rcases (htrans j b2 d2 hji hjsibIdx hjfr).mp ⟨pr2, hj5⟩ with ⟨pk, hpkT⟩
          have hmemT : (d2, j) ∈ t.leafForData := hwf.mapinv.2.2 j b2 pk d2 hpkT
          have hd2d : d2 ≠ d := by
            intro he
            subst he
            exact hji (nodup_key_inj hnd hmemT hmem)
          rw [hmapt5]
          refine eraseData_mem_of_ne ?_ hd2d
          rw [hmap2]
          cases hS : fr.sib with
          | leaf bs ds =>
            rw [hS] at hsib
            have hsgetT := hsib.leaf_inv
            have hdsmem : (ds, fr.sibIdx) ∈ t.leafForData :=
              hwf.mapinv.2.2 _ _ _ _ hsgetT
            have hd2ds : d2 ≠ ds := by
              intro he
              subst he
              exact hjsibIdx (nodup_key_inj hnd hmemT hdsmem)
            exact setData_mem_of_ne hmemT hd2ds fr.idx
          | node SL SR =>
            exact hmemT
    · -- the leaf boxes remain NaN-free
      exact hrm.good_out hwf.good

/-- `remove` preserves well-formedness. -/
theorem remove_wf [DecidableEq U] {t t' : AABBTree2 U} {d : U} {r : Bool}
    (hwf : WF t) (h : remove t d = .ok (r, t')) : WF t' := by
  cases hfd : findData t.leafForData d with
  | none =>
    rw [remove_absent hfd] at h
    injection h with h2
    injection h2 with h3 h4
    subst h4
    exact hwf
  | some i =>
    by_cases hi0 : i = 0
    · subst hi0
      rw [remove_root hfd] at h
      injection h with h2
      injection h2 with h3 h4
      subst h4
      exact .inl rfl
    · rcases hwf with he | ⟨B, s, fl, hwfx⟩
      · subst he
        simp [emptyTree, findData] at hfd
      · rcases remove_ok hwfx hfd hi0 with ⟨t5, B2, s2, fl2, heq, hrm, hwfx2⟩
        rw [heq] at h
        injection h with h2
        injection h2 with h3 h4
        subst h4
        exact .inr ⟨B2, s2, fl2, hwfx2⟩

/-- `update` preserves well-formedness. -/
theorem update_wf [DecidableEq U] {t t' : AABBTree2 U} {choice c' : Nat}
    {bounds : BBox} {d : U} (hwf : WF t)
    (h : update t choice bounds d = .ok (t', c')) : WF t' := by
  by_cases hb : goodBox bounds = true
  · rw [show update t choice bounds d
        = (do let (found, t1) ← remove t d
              if found then insert t1 choice bounds d else .error .notFound)
        from by simp [update, checkBounds_ok hb]] at h
    cases hrem : remove t d with
    | error e => rw [hrem] at h; cases h
    | ok p =>
      obtain ⟨found, t1⟩ := p
      rw [hrem] at h
      have hwf1 : WF t1 := remove_wf hwf hrem
      cases found with
      | false => simp at h
      | true =>
        simp only [bind_ok, if_pos rfl] at h
        exact insert_wf hwf1 h
  · rw [show update t choice bounds d = .error .invalidBounds
        from by simp [update, checkBounds_error hb]] at h
    cases h

/-- `clear` always yields the empty tree, which is well-formed. -/
theorem clear_wf (t : AABBTree2 U) : WF (clear t) := .inl rfl

/-- Every reachable tree is well-formed: the six invariants of the spec hold
after any successful sequence of public operations. -/
theorem reaches_wf [DecidableEq U] {t : AABBTree2 U} (h : Reaches t) : WF t := by
  induction h with
  | base => exact .inl rfl
  | step_insert hr heq ih => exact insert_wf ih heq
  | step_remove hr heq ih => exact remove_wf ih heq
  | step_update hr heq ih => exact update_wf ih heq
  | step_clear hr ih => exact clear_wf _

/-! ## The box tests: monotonicity under merging -/

/-- Modelled from the spec: IEEE-style non-strict comparison; false when
either side is NaN. -/
def ele : ENum → ENum → Bool
  | some x, some y => decide (x ≤ y)
  | _, _ => false

/-- A proper axis-aligned box: per-axis ordered (hence NaN-free)
coordinates. -/
def properBox (b : BBox) : Bool :=
  ele b.min.x b.max.x && ele b.min.y b.max.y && ele b.min.z b.max.z

theorem emin_some (x y : ℚ) : emin (some x) (some y) = some (Min.min x y) := by
  simp only [emin, elt]
  by_cases h : y < x
  · rw [if_pos (decide_eq_true h), min_eq_right h.le]
  · rw [if_neg (by simpa using h), min_eq_left (le_of_not_lt h)]

theorem emax_some (x y : ℚ) : emax (some x) (some y) = some (Max.max x y) := by
  simp only [emax, elt]
  by_cases h : x < y
  · rw [if_pos (decide_eq_true h), max_eq_right h.le]
  · rw [if_neg (by simpa using h), max_eq_left (le_of_not_lt h)]

theorem goodBox_coords {b : BBox} (h : goodBox b = true) :
    ∃ ax ay az bx bby bz : ℚ,
      b = ⟨⟨some ax, some ay, some az⟩, ⟨some bx, some bby, some bz⟩⟩ := by
  obtain ⟨⟨x1, y1, z1⟩, ⟨x2, y2, z2⟩⟩ := b
  simp only [goodBox, vecIsNaN, Bool.not_eq_true', Bool.or_eq_false_iff] at h
  obtain ⟨⟨⟨h1, h2⟩, h3⟩, ⟨⟨h4, h5⟩, h6⟩⟩ := h
  rcases x1 with _ | ax
  · cases h1
  rcases y1 with _ | ay
  · cases h2
  rcases z1 with _ | az
  · cases h3
  rcases x2 with _ | bx
  · cases h4
  rcases y2 with _ | bby
  · cases h5
  rcases z2 with _ | bz
  · cases h6
  exact ⟨ax, ay, az, bx, bby, bz, rfl⟩

theorem properBox_coords {b : BBox} (h : properBox b = true) :
    ∃ ax ay az bx bby bz : ℚ,
      b = ⟨⟨some ax, some ay, some az⟩, ⟨some bx, some bby, some bz⟩⟩
        ∧ ax ≤ bx ∧ ay ≤ bby ∧ az ≤ bz := by
  obtain ⟨⟨x1, y1, z1⟩, ⟨x2, y2, z2⟩⟩ := b
  simp only [properBox, Bool.and_eq_true] at h
  obtain ⟨⟨h1, h2⟩, h3⟩ := h
  rcases x1 with _ | ax <;> rcases x2 with _ | bx <;> simp [ele] at h1
  rcases y1 with _ | ay <;> rcases y2 with _ | bby <;> simp [ele] at h2
  rcases z1 with _ | az <;> rcases z2 with _ | bz <;> simp [ele] at h3
  exact ⟨ax, ay, az, bx, bby, bz, rfl, h1, h2, h3⟩

theorem properBox_good {b : BBox} (h : properBox b = true) : goodBox b = true := by
  obtain ⟨ax, ay, az, bx, bby, bz, rfl, _, _, _⟩ := properBox_coords h
  simp [goodBox, vecIsNaN]

theorem elt_emin_false_left {p : ENum} {x y : ℚ} (h : elt p (some x) = false) :
    elt p (emin (some x) (some y)) = false := by
  rw [emin_some]
  cases p with
  | none => rfl
  | some pq =>
    simp only [elt, decide_eq_false_iff_not] at h ⊢
    intro hlt
    exact h (hlt.trans_le (min_le_left x y))

theorem elt_emin_false_right {p : ENum} {x y : ℚ} (h : elt p (some y) = false) :
    elt p (emin (some x) (some y)) = false := by
  rw [emin_some]
  cases p with
  | none => rfl
  | some pq =>
    simp only [elt, decide_eq_false_iff_not] at h ⊢
    intro hlt
    exact h (hlt.trans_le (min_le_right x y))

theorem emax_elt_false_left {p : ENum} {x y : ℚ} (h : elt (some x) p = false) :
    elt (emax (some x) (some y)) p = false := by
  rw [emax_some]
  cases p with
  | none => rfl
  | some pq =>
    simp only [elt, decide_eq_false_iff_not] at h ⊢
    intro hlt
    exact h ((le_max_left x y).trans_lt hlt)

theorem emax_elt_false_right {p : ENum} {x y : ℚ} (h : elt (some y) p = false) :
    elt (emax (some x) (some y)) p = false := by
  rw [emax_some]
  cases p with
  | none => rfl
  | some pq =>
    simp only [elt, decide_eq_false_iff_not] at h ⊢
    intro hlt
    exact h ((le_max_right x y).trans_lt hlt)

/-- A point inside either of two NaN-free boxes is inside their merge. -/
theorem containsPoint_merge {a c : BBox} {p : Vec3} (hga : goodBox a = true)
    (hgc : goodBox c = true)
    (h : containsPoint a p = true ∨ containsPoint c p = true) :
    containsPoint (merge a c) p = true := by
  obtain ⟨ax, ay, az, bx, bby, bz, rfl⟩ := goodBox_coords hga
  obtain ⟨cx, cy, cz, ex, ey, ez, rfl⟩ := goodBox_coords hgc
  simp only [containsPoint, merge, Bool.not_eq_true', Bool.or_eq_false_iff] at h ⊢
  rcases h with h | h
  · obtain ⟨⟨⟨⟨⟨h1, h2⟩, h3⟩, h4⟩, h5⟩, h6⟩ := h
    exact ⟨⟨⟨⟨⟨elt_emin_false_left h1, emax_elt_false_left h2⟩,
      elt_emin_false_left h3⟩, emax_elt_false_left h4⟩,
      elt_emin_false_left h5⟩, emax_elt_false_left h6⟩
  · obtain ⟨⟨⟨⟨⟨h1, h2⟩, h3⟩, h4⟩, h5⟩, h6⟩ := h
    exact ⟨⟨⟨⟨⟨elt_emin_false_right h1, emax_elt_false_right h2⟩,
      elt_emin_false_right h3⟩, emax_elt_false_right h4⟩,
      elt_emin_false_right h5⟩, emax_elt_false_right h6⟩

/-- The parameter set a slab stands for. -/
def slabMem (t : ℚ) : AxisSlab → Prop
  | .empty => False
  | .all => True
  | .interval lo hi => lo ≤ t ∧ t ≤ hi

theorem slabCombine_mem (t : ℚ) (s1 s2 : AxisSlab) :
    slabMem t (slabCombine s1 s2) ↔ slabMem t s1 ∧ slabMem t s2 := by
  cases s1 with
  | empty => simp [slabCombine, slabMem]
  | all =>
    cases s2 with
    | empty => simp [slabCombine, slabMem]
    | all => simp [slabCombine, slabMem]
    | interval c d2 => simp [slabCombine, slabMem]
  | interval a b2 =>
    cases s2 with
    | empty => simp [slabCombine, slabMem]
    | all => simp [slabCombine, slabMem]
    | interval c d2 =>
      simp only [slabCombine, slabMem, max_le_iff, le_min_iff]
      constructor
      · rintro ⟨⟨h1, h2⟩, h3, h4⟩
        exact ⟨⟨h1, h3⟩, h2, h4⟩
      · rintro ⟨⟨h1, h3⟩, h2, h4⟩
        exact ⟨⟨h1, h2⟩, h3, h4⟩

theorem slabCheck_iff (s : AxisSlab) :
    slabCheck s = true ↔ ∃ t : ℚ, 0 ≤ t ∧ slabMem t s := by
  cases s with
  | empty => simp [slabCheck, slabMem]
  | all =>
    simp only [slabCheck, slabMem, true_iff]
    exact ⟨0, le_refl 0, trivial⟩
  | interval lo hi =>
    simp only [slabCheck, slabMem, Bool.and_eq_true, decide_eq_true_eq]
    constructor
    · rintro ⟨h1, h2⟩
      by_cases h0l : 0 ≤ lo
      · exact ⟨lo, h0l, le_refl lo, h1⟩
      · exact ⟨0, le_refl 0, le_of_not_le h0l, h2⟩
    · rintro ⟨t, h0, hl, hh⟩
      exact ⟨hl.trans hh, h0.trans hh⟩

theorem axisSlab_mem {o d mn mx : ℚ} (hord : mn ≤ mx) (t : ℚ) :
    slabMem t (axisSlab o d mn mx) ↔ (mn ≤ o + t * d ∧ o + t * d ≤ mx) := by
  unfold axisSlab
  by_cases hd : d = 0
  · subst hd
    rw [if_pos rfl]
    by_cases hc : mn ≤ o ∧ o ≤ mx
    · rw [if_pos hc]
      simp only [slabMem, mul_zero, add_zero, true_iff]
      exact hc
    · rw [if_neg hc]
      simp only [slabMem, mul_zero, add_zero, false_iff]
      exact hc
  · rw [if_neg hd]
    have hmm : slabMem t (AxisSlab.interval
        (Min.min ((mn - o) / d) ((mx - o) / d))
        (Max.max ((mn - o) / d) ((mx - o) / d)))
        ↔ (Min.min ((mn - o) / d) ((mx - o) / d) ≤ t
          ∧ t ≤ Max.max ((mn - o) / d) ((mx - o) / d)) := Iff.rfl
    rw [hmm]
    rcases lt_or_gt_of_ne hd with hneg | hpos
    · have e1 : (mn - o) / d ≤ t ↔ t * d ≤ mn - o := div_le_iff_of_neg hneg
      have e2 : (mx - o) / d ≤ t ↔ t * d ≤ mx - o := div_le_iff_of_neg hneg
      have e3 : t ≤ (mn - o) / d ↔ mn - o ≤ t * d := le_div_iff_of_neg hneg
      have e4 : t ≤ (mx - o) / d ↔ mx - o ≤ t * d := le_div_iff_of_neg hneg
      rcases le_total ((mn - o) / d) ((mx - o) / d) with hq | hq
      · have hq2 := mul_le_mul_of_nonpos_right hq (le_of_lt hneg)
        rw [div_mul_cancel₀ _ hd, div_mul_cancel₀ _ hd] at hq2
        rw [min_eq_left hq, max_eq_right hq]
        rw [e1, e4]
        constructor
        · rintro ⟨h1, h2⟩
          constructor <;> linarith
        · rintro ⟨h1, h2⟩
          constructor <;> linarith
      · rw [min_eq_right hq, max_eq_left hq]
        rw [e2, e3]
        constructor
        · rintro ⟨h1, h2⟩
          constructor <;> linarith
        · rintro ⟨h1, h2⟩
          constructor <;> linarith
    · have e1 : (mn - o) / d ≤ t ↔ mn - o ≤ t * d := div_le_iff hpos
      have e2 : (mx - o) / d ≤ t ↔ mx - o ≤ t * d := div_le_iff hpos
      have e3 : t ≤ (mn - o) / d ↔ t * d ≤ mn - o := le_div_iff hpos
      have e4 : t ≤ (mx - o) / d ↔ t * d ≤ mx - o := le_div_iff hpos
      rcases le_total ((mn - o) / d) ((mx - o) / d) with hq | hq
      · rw [min_eq_left hq, max_eq_right hq]
        rw [e1, e4]
        constructor
        · rintro ⟨h1, h2⟩
          constructor <;> linarith
        · rintro ⟨h1, h2⟩
          constructor <;> linarith
      · have hq2 := mul_le_mul_of_nonneg_right hq (le_of_lt hpos)
        rw [div_mul_cancel₀ _ hd, div_mul_cancel₀ _ hd] at hq2
        rw [min_eq_right hq, max_eq_left hq]
        rw [e2, e3]
        constructor
        · rintro ⟨h1, h2⟩
          constructor <;> linarith
        · rintro ⟨h1, h2⟩
          constructor <;> linarith

theorem rayIntersects_some (ox oy oz dx dy dz ax ay az bx bby bz : ℚ) :
    rayIntersectsBox ⟨⟨some ox, some oy, some oz⟩, ⟨some dx, some dy, some dz⟩⟩
        ⟨⟨some ax, some ay, some az⟩, ⟨some bx, some bby, some bz⟩⟩
      = slabCheck (slabCombine
          (slabCombine (axisSlab ox dx ax bx) (axisSlab oy dy ay bby))
          (axisSlab oz dz az bz)) := rfl

/-- A ray hitting either of two proper boxes hits their merge. -/
theorem rayIntersectsBox_merge {r : Ray} {a c : BBox} (hpa : properBox a = true)
    (hpc : properBox c = true)
    (h : rayIntersectsBox r a = true ∨ rayIntersectsBox r c = true) :
    rayIntersectsBox r (merge a c) = true := by
  obtain ⟨ax, ay, az, bx, bby, bz, rfl, hxa, hya, hza⟩ := properBox_coords hpa
  obtain ⟨cx, cy, cz, ex, ey, ez, rfl, hxc, hyc, hzc⟩ := properBox_coords hpc
  obtain ⟨⟨rox, roy, roz⟩, ⟨rdx, rdy, rdz⟩⟩ := r
  rcases rox with _ | ox
  · exfalso
    rcases h with h | h <;> simp [rayIntersectsBox] at h
  rcases roy with _ | oy
  · exfalso
    rcases h with h | h <;> simp [rayIntersectsBox] at h
  rcases roz with _ | oz
  · exfalso
    rcases h with h | h <;> simp [rayIntersectsBox] at h
  rcases rdx with _ | dx
  · exfalso
    rcases h with h | h <;> simp [rayIntersectsBox] at h
  rcases rdy with _ | dy
  · exfalso
    rcases h with h | h <;> simp [rayIntersectsBox] at h
  rcases rdz with _ | dz
  · exfalso
    rcases h with h | h <;> simp [rayIntersectsBox] at h
  have hmg : merge ⟨⟨some ax, some ay, some az⟩, ⟨some bx, some bby, some bz⟩⟩
      ⟨⟨some cx, some cy, some cz⟩, ⟨some ex, some ey, some ez⟩⟩
      = ⟨⟨some (Min.min ax cx), some (Min.min ay cy), some (Min.min az cz)⟩,
         ⟨some (Max.max bx ex), some (Max.max bby ey), some (Max.max bz ez)⟩⟩ := by
    simp [merge, emin_some, emax_some]
  rw [hmg, rayIntersects_some]
  -- extract a hitting parameter from the hypothesis
  obtain ⟨t, h0, m1, m2, m3⟩ : ∃ t : ℚ, 0 ≤ t
      ∧ (Min.min ax cx ≤ ox + t * dx ∧ ox + t * dx ≤ Max.max bx ex)
      ∧ (Min.min ay cy ≤ oy + t * dy ∧ oy + t * dy ≤ Max.max bby ey)
      ∧ (Min.min az cz ≤ oz + t * dz ∧ oz + t * dz ≤ Max.max bz ez) := by
    rcases h with h | h
    · rw [rayIntersects_some] at h
      obtain ⟨t, h0, hm⟩ := (slabCheck_iff _).mp h
      obtain ⟨hm12, hm3⟩ := (slabCombine_mem t _ _).mp hm
      obtain ⟨hm1, hm2⟩ := (slabCombine_mem t _ _).mp hm12
      obtain ⟨u1, u2⟩ := (axisSlab_mem hxa t).mp hm1
      obtain ⟨v1, v2⟩ := (axisSlab_mem hya t).mp hm2
      obtain ⟨w1, w2⟩ := (axisSlab_mem hza t).mp hm3
      refine ⟨t, h0, ⟨?_, ?_⟩, ⟨?_, ?_⟩, ⟨?_, ?_⟩⟩
      · exact (min_le_left ax cx).trans u1
      · exact u2.trans (le_max_left bx ex)
      · exact (min_le_left ay cy).trans v1
      · exact v2.trans (le_max_left bby ey)
      · exact (min_le_left az cz).trans w1
      · exact w2.trans (le_max_left bz ez)
    · rw [rayIntersects_some] at h
      obtain ⟨t, h0, hm⟩ := (slabCheck_iff _).mp h
      obtain ⟨hm12, hm3⟩ := (slabCombine_mem t _ _).mp hm
      obtain ⟨hm1, hm2⟩ := (slabCombine_mem t _ _).mp hm12
      obtain ⟨u1, u2⟩ := (axisSlab_mem hxc t).mp hm1
      obtain ⟨v1, v2⟩ := (axisSlab_mem hyc t).mp hm2
      obtain ⟨w1, w2⟩ := (axisSlab_mem hzc t).mp hm3
      refine ⟨t, h0, ⟨?_, ?_⟩, ⟨?_, ?_⟩, ⟨?_, ?_⟩⟩
      · exact (min_le_right ax cx).trans u1
      · exact u2.trans (le_max_right bx ex)
      · exact (min_le_right ay cy).trans v1
      · exact v2.trans (le_max_right bby ey)
      · exact (min_le_right az cz).trans w1
      · exact w2.trans (le_max_right bz ez)
  refine (slabCheck_iff _).mpr ⟨t, h0, ?_⟩
  refine (slabCombine_mem t _ _).mpr ⟨(slabCombine_mem t _ _).mpr ⟨?_, ?_⟩, ?_⟩
  · exact (axisSlab_mem ((min_le_left ax cx).trans (hxa.trans (le_max_left bx ex))) t).mpr m1
  · exact (axisSlab_mem ((min_le_left ay cy).trans (hya.trans (le_max_left bby ey))) t).mpr m2
  · exact (axisSlab_mem ((min_le_left az cz).trans (hza.trans (le_max_left bz ez))) t).mpr m3

/-- Proper boxes merge to a proper box. -/
theorem properBox_merge {a c : BBox} (hpa : properBox a = true)
    (hpc : properBox c = true) : properBox (merge a c) = true := by
  obtain ⟨ax, ay, az, bx, bby, bz, rfl, hxa, hya, hza⟩ := properBox_coords hpa
  obtain ⟨cx, cy, cz, ex, ey, ez, rfl, hxc, hyc, hzc⟩ := properBox_coords hpc
  simp only [properBox, merge, emin_some, emax_some, ele, Bool.and_eq_true,
    decide_eq_true_eq]
  refine ⟨⟨?_, ?_⟩, ?_⟩
  · exact (min_le_left ax cx).trans (hxa.trans (le_max_left bx ex))
  · exact (min_le_left ay cy).trans (hya.trans (le_max_left bby ey))
  · exact (min_le_left az cz).trans (hza.trans (le_max_left bz ez))

/-- NaN-free boxes merge to a NaN-free box. -/
theorem goodBox_merge {a c : BBox} (hga : goodBox a = true)
    (hgc : goodBox c = true) : goodBox (merge a c) = true := by
  obtain ⟨ax, ay, az, bx, bby, bz, rfl⟩ := goodBox_coords hga
  obtain ⟨cx, cy, cz, ex, ey, ez, rfl⟩ := goodBox_coords hgc
  simp [goodBox, vecIsNaN, merge, emin_some, emax_some]

/-- The node test of `findIntersectors` is monotone under merging proper
boxes. -/
theorem intersectsTest_merge {r : Ray} {a c : BBox} (hpa : properBox a = true)
    (hpc : properBox c = true)
    (h : intersectsTest r a = true ∨ intersectsTest r c = true) :
    intersectsTest r (merge a c) = true := by
  simp only [intersectsTest, Bool.or_eq_true] at h ⊢
  rcases h with (h | h) | (h | h)
  · exact Or.inl (containsPoint_merge (properBox_good hpa) (properBox_good hpc)
      (Or.inl h))
  · exact Or.inr (rayIntersectsBox_merge hpa hpc (Or.inl h))
  · exact Or.inl (containsPoint_merge (properBox_good hpa) (properBox_good hpc)
      (Or.inr h))
  · exact Or.inr (rayIntersectsBox_merge hpa hpc (Or.inr h))

/-! ## Query traversal correctness -/

/-- A leaf-box predicate holding across a logical tree. -/
def leafBoxesP (P : BBox → Bool) : BTree U → Bool
  | .leaf bb _ => P bb
  | .node l r => leafBoxesP P l && leafBoxesP P r

/-- The brute-force view of a query on the logical tree: every leaf whose box
passes the test, left to right. -/
def queryAbs (test : BBox → Bool) : BTree U → List U
  | .leaf bb dd => if test bb then [dd] else []
  | .node l r => queryAbs test l ++ queryAbs test r

theorem bbounds_P {P : BBox → Bool}
    (hP : ∀ a c, P a = true → P c = true → P (merge a c) = true) :
    ∀ {B : BTree U}, leafBoxesP P B = true → P (bbounds B) = true := by
  intro B
  induction B with
  | leaf bb dd =>
    intro h
    simpa [leafBoxesP, bbounds] using h
  | node l r ihl ihr =>
    intro h
    simp only [leafBoxesP, Bool.and_eq_true] at h
    exact hP _ _ (ihl h.1) (ihr h.2)

theorem queryAbs_nil {P test : BBox → Bool}
    (hP : ∀ a c, P a = true → P c = true → P (merge a c) = true)
    (hmono : ∀ a c, P a = true → P c = true →
      (test a = true ∨ test c = true) → test (merge a c) = true) :
    ∀ {B : BTree U}, leafBoxesP P B = true → test (bbounds B) = false →
      queryAbs test B = [] := by
  intro B
  induction B with
  | leaf bb dd =>
    intro hB ht
    simp only [bbounds] at ht
    simp [queryAbs, ht]
  | node l r ihl ihr =>
    intro hB ht
    simp only [leafBoxesP, Bool.and_eq_true] at hB
    simp only [bbounds] at ht
    have htl : test (bbounds l) = false := by
      cases htl0 : test (bbounds l) with
      | false => rfl
      | true =>
        rw [hmono _ _ (bbounds_P hP hB.1) (bbounds_P hP hB.2) (Or.inl htl0)] at ht
        cases ht
    have htr : test (bbounds r) = false := by
      cases htr0 : test (bbounds r) with
      | false => rfl
      | true =>
        rw [hmono _ _ (bbounds_P hP hB.1) (bbounds_P hP hB.2) (Or.inr htr0)] at ht
        cases ht
    simp [queryAbs, ihl hB.1 htl, ihr hB.2 htr]

/-- On a represented subtree whose leaf boxes satisfy a merge-stable predicate
making the test monotone, the traversal returns exactly the brute-force
answer. -/
theorem visitNode_ok {test P : BBox → Bool}
    (hP : ∀ a c, P a = true → P c = true → P (merge a c) = true)
    (hmono : ∀ a c, P a = true → P c = true →
      (test a = true ∨ test c = true) → test (merge a c) = true)
    (B : BTree U) :
    ∀ (fuel : Nat) (t : AABBTree2 U) (i : Nat) (p : Option Nat) (s : Finset Nat),
      Rep t i p B s → leafBoxesP P B = true → bheight B < fuel →
      visitNode fuel t test i = .ok (queryAbs test B) := by
  induction B with
  | leaf bb dd =>
    intro fuel t i p s hrep hB hfuel
    rcases fuel with _ | f
    · omega
    have hget := hrep.leaf_inv
    simp [visitNode, getNode, hget, queryAbs]
  | node L R ihl ihr =>
    intro fuel t i p s hrep hB hfuel
    rcases fuel with _ | f
    · omega
    simp only [leafBoxesP, Bool.and_eq_true] at hB
    cases hrep with
    | node hget hl hr hdisj hil hir =>
    rename_i l r sl sr
    have hhl : bheight L < f := by
      simp only [bheight] at hfuel
      omega
    have hhr : bheight R < f := by
      simp only [bheight] at hfuel
      omega
    simp only [visitNode, getNode, hget, bind_ok]
    cases ht : test (bbounds (BTree.node L R)) with
    | true =>
      rw [if_pos rfl]
      rw [ihl f t l (some i) sl hl hB.1 hhl, bind_ok,
        ihr f t r (some i) sr hr hB.2 hhr, bind_ok]
      rfl
    | false =>
      rw [if_neg (by simp)]
      rw [queryAbs_nil hP hmono (by simp [leafBoxesP, hB.1, hB.2]) ht]

/-- The traversal never fails on a represented subtree, whatever the test. -/
theorem visitNode_safe (B : BTree U) :
    ∀ (fuel : Nat) (t : AABBTree2 U) (test : BBox → Bool) (i : Nat)
      (p : Option Nat) (s : Finset Nat), Rep t i p B s → bheight B < fuel →
      ∃ res, visitNode fuel t test i = .ok res := by
  induction B with
  | leaf bb dd =>
    intro fuel t test i p s hrep hfuel
    rcases fuel with _ | f
    · omega
    have hget := hrep.leaf_inv
    exact ⟨if test bb = true then [dd] else [], by simp [visitNode, getNode, hget]⟩
  | node L R ihl ihr =>
    intro fuel t test i p s hrep hfuel
    rcases fuel with _ | f
    · omega
    cases hrep with
    | node hget hl hr hdisj hil hir =>
    rename_i l r sl sr
    have hhl : bheight L < f := by
      simp only [bheight] at hfuel
      omega
    have hhr : bheight R < f := by
      simp only [bheight] at hfuel
      omega
    rcases ihl f t test l (some i) sl hl hhl with ⟨resl, hresl⟩
    rcases ihr f t test r (some i) sr hr hhr with ⟨resr, hresr⟩
    rcases ht : test (bbounds (BTree.node L R)) with _ | _
    · refine ⟨[], ?_⟩
      simp only [visitNode, getNode, hget, bind_ok]
      rw [if_neg (by simp [ht])]
    · refine ⟨resl ++ resr, ?_⟩
      simp only [visitNode, getNode, hget, bind_ok]
      rw [if_pos ht, hresl, bind_ok, hresr, bind_ok]

/-- The arena's leaf slots carry exactly the leaves of the logical tree. -/
theorem allLeaves_iff {t : AABBTree2 U} {B s fl} (hwf : WFx t B s fl) :
    ∀ bb dd, (bb, dd) ∈ allLeaves t ↔ (bb, dd) ∈ leavesOf B := by
  intro bb dd
  constructor
  · intro h
    simp only [allLeaves, List.mem_filterMap] at h
    obtain ⟨n, hn, hmatch⟩ := h
    cases n with
    | free nx => simp at hmatch
    | inner b2 p2 l2 r2 h2 => simp at hmatch
    | leaf b2 p2 d2 =>
      simp only [Option.some.injEq, Prod.mk.injEq] at hmatch
      obtain ⟨hb2, hd2⟩ := hmatch
      subst hb2
      subst hd2
      rcases List.mem_iff_getElem?.mp hn with ⟨j, hj⟩
      have hjlt : j < t.nodes.length := (List.getElem?_eq_some_iff.mp hj).1
      have hjs : j ∈ s := by
        rcases hwf.cover j hjlt with h2 | h2
        · exact h2
        · rcases hwf.freechain.mem_free j h2 with ⟨nx, hfree⟩
          rw [hj] at hfree
          cases hfree
      exact hwf.rep.leaf_of_mem j hjs _ p2 _ hj
  · intro h
    obtain ⟨j, hjs, pj, hget⟩ := hwf.rep.mem_leaf bb dd h
    simp only [allLeaves, List.mem_filterMap]
    exact ⟨ANode.leaf bb pj dd, List.mem_iff_getElem?.mpr ⟨j, hget⟩, rfl⟩

theorem queryAbs_mem {test : BBox → Bool} {B : BTree U} :
    ∀ u, u ∈ queryAbs test B ↔ ∃ bb, (bb, u) ∈ leavesOf B ∧ test bb = true := by
  induction B with
  | leaf bb dd =>
    intro u
    simp only [queryAbs, leavesOf]
    by_cases ht : test bb = true
    · rw [if_pos ht]
      simp only [List.mem_singleton, Prod.mk.injEq]
      constructor
      · intro h
        exact ⟨bb, ⟨rfl, h⟩, ht⟩
      · rintro ⟨bb2, ⟨h1, h2⟩, h3⟩
        exact h2
    · rw [if_neg ht]
      constructor
      · intro h
        exact (List.not_mem_nil u h).elim
      · rintro ⟨bb2, h1, h2⟩
        simp only [List.mem_singleton, Prod.mk.injEq] at h1
        rw [h1.1] at h2
        exact absurd h2 ht
  | node l r ihl ihr =>
    intro u
    simp only [queryAbs, List.mem_append, ihl, ihr, leavesOf]
    constructor
    · rintro (⟨bb2, h1, h2⟩ | ⟨bb2, h1, h2⟩)
      · exact ⟨bb2, Or.inl h1, h2⟩
      · exact ⟨bb2, Or.inr h1, h2⟩
    · rintro ⟨bb2, h1 | h1, h2⟩
      · exact Or.inl ⟨bb2, h1, h2⟩
      · exact Or.inr ⟨bb2, h1, h2⟩

/-! ## Structural equality of trees representing the same logical tree -/

theorem compareSubtrees_rep [DecidableEq U] (B : BTree U) :
    ∀ (fuel : Nat) (t1 t2 : AABBTree2 U) (i1 i2 : Nat) (p1 p2 : Option Nat)
      (s1 s2 : Finset Nat), Rep t1 i1 p1 B s1 → Rep t2 i2 p2 B s2 →
      bheight B < fuel →
      compareSubtrees fuel t1.nodes t2.nodes i1 i2 = true := by
  induction B with
  | leaf bb dd =>
    intro fuel t1 t2 i1 i2 p1 p2 s1 s2 h1 h2 hfuel
    rcases fuel with _ | f
    · omega
    have hg1 := h1.leaf_inv
    have hg2 := h2.leaf_inv
    simp [compareSubtrees, hg1, hg2]
  | node L R ihl ihr =>
    intro fuel t1 t2 i1 i2 p1 p2 s1 s2 h1 h2 hfuel
    rcases fuel with _ | f
    · omega
    cases h1 with
    | @node _ _ l1 r1 _ _ sl1 sr1 hg1 hl1 hr1 hd1 hx1 hx2 =>
    cases h2 with
    | @node _ _ l2 r2 _ _ sl2 sr2 hg2 hl2 hr2 hd2 hy1 hy2 =>
    have hhl : bheight L < f := by
      simp only [bheight] at hfuel
      omega
    have hhr : bheight R < f := by
      simp only [bheight] at hfuel
      omega
    simp only [compareSubtrees, hg1, hg2]
    simp [ihl f t1 t2 l1 l2 (some i1) (some i2) sl1 sl2 hl1 hl2 hhl,
      ihr f t1 t2 r1 r2 (some i1) (some i2) sr1 sr2 hr1 hr2 hhr]

/-- Two well-formed trees representing the same logical tree compare equal
under `operator==`. -/
theorem treeEq_of_rep [DecidableEq U] {t1 t2 : AABBTree2 U} {B s1 fl1 s2 fl2}
    (h1 : WFx t1 B s1 fl1) (h2 : WFx t2 B s2 fl2) : treeEq t1 t2 = true := by
  have hfuel : bheight B < t1.nodes.length + t2.nodes.length + 1 := by
    have h3 := h1.rep.bheight_le_card.trans h1.rep.card_le_length
    omega
  have hcmp := compareSubtrees_rep B (t1.nodes.length + t2.nodes.length + 1)
    t1 t2 0 0 none none s1 s2 h1.rep h2.rep hfuel
  simp [treeEq, hcmp]

/-! ## The round trip: insertion and removal of a fresh key cancel -/

theorem Removed.mem {d : U} {B B2 : BTree U} (h : Removed d B B2) :
    ∃ bb, (bb, d) ∈ leavesOf B := by
  induction h with
  | base_left b R => exact ⟨b, by simp [leavesOf]⟩
  | base_right L b => exact ⟨b, by simp [leavesOf]⟩
  | go_left R hI ih =>
    obtain ⟨bb, hm⟩ := ih
    exact ⟨bb, by simp [leavesOf, hm]⟩
  | go_right L hI ih =>
    obtain ⟨bb, hm⟩ := ih
    exact ⟨bb, by simp [leavesOf, hm]⟩

theorem Removed.leaf_elim {d : U} {bb : BBox} {dd : U} {X : BTree U}
    (h : Removed d (.leaf bb dd) X) : False := by
  cases h

theorem Inserted.node {bnd : BBox} {d : U} {B B2 : BTree U}
    (h : Inserted bnd d B B2) : ∃ L R, B2 = .node L R := by
  cases h with
  | leaf b0 d0 => exact ⟨_, _, rfl⟩
  | left R hI => exact ⟨_, _, rfl⟩
  | right L hI => exact ⟨_, _, rfl⟩

/-- Removing a key that was just inserted (and was absent before) undoes the
insertion on the logical tree. -/
theorem removed_unique {bnd : BBox} {d : U} {B B2 X : BTree U}
    (hI : Inserted bnd d B B2) (hd : ∀ bb, (bb, d) ∉ leavesOf B)
    (hR : Removed d B2 X) : X = B := by
  induction hI generalizing X with
  | leaf b0 d0 =>
    cases hR with
    | base_left b R =>
      exact absurd (show (b0, d) ∈ leavesOf (BTree.leaf b0 d) by simp [leavesOf])
        (hd b0)
    | base_right L b => rfl
    | go_left R hRL => exact hRL.leaf_elim.elim
    | go_right L hRR => exact hRR.leaf_elim.elim
  | @left L L2 R hIL ih =>
    have hdL : ∀ bb, (bb, d) ∉ leavesOf L :=
      fun bb hm => hd bb (List.mem_append_left _ hm)
    cases hR with
    | base_left b R2 =>
      obtain ⟨L3, R3, hL⟩ := hIL.node
      simp at hL
    | base_right L3 b =>
      exact absurd (show (b, d) ∈ leavesOf (BTree.node L (BTree.leaf b d)) from
        List.mem_append_right _ (by simp [leavesOf])) (hd b)
    | go_left R2 hRL =>
      rw [ih hdL hRL]
    | go_right L3 hRR =>
      obtain ⟨bb, hm⟩ := hRR.mem
      exact absurd (show (bb, d) ∈ leavesOf (BTree.node L R) from
        List.mem_append_right _ hm) (hd bb)
  | @right L R R2 hIR ih =>
    have hdR : ∀ bb, (bb, d) ∉ leavesOf R :=
      fun bb hm => hd bb (List.mem_append_right _ hm)
    cases hR with
    | base_right L3 b =>
      obtain ⟨L4, R4, hL⟩ := hIR.node
      simp at hL
    | base_left b R3 =>
      exact absurd (show (b, d) ∈ leavesOf (BTree.node (BTree.leaf b d) R) from
        List.mem_append_left _ (by simp [leavesOf])) (hd b)
    | go_right L3 hRR =>
      rw [ih hdR hRR]
    | go_left R3 hRL =>
      obtain ⟨bb, hm⟩ := hRL.mem
      exact absurd (show (bb, d) ∈ leavesOf (BTree.node L R) from
        List.mem_append_left _ hm) (hd bb)

/-! ## The root bounds as the merge of all leaf boxes -/

/-- Left fold of `merge` over a collection of boxes. -/
def mergeAll : BBox → List BBox → BBox
  | b, [] => b
  | b, c :: rest => mergeAll (merge b c) rest

theorem merge_assoc {a c e : BBox} (ha : goodBox a = true) (hc : goodBox c = true)
    (he : goodBox e = true) : merge (merge a c) e = merge a (merge c e) := by
  obtain ⟨ax, ay, az, bx, bby, bz, rfl⟩ := goodBox_coords ha
  obtain ⟨cx, cy, cz, dx, dy, dz, rfl⟩ := goodBox_coords hc
  obtain ⟨ex, ey, ez, fx, fy, fz, rfl⟩ := goodBox_coords he
  simp [merge, emin_some, emax_some, min_assoc, max_assoc]

theorem goodTree_leaves : ∀ {B : BTree U}, goodTree B = true →
    ∀ bb dd, (bb, dd) ∈ leavesOf B → goodBox bb = true := by
  intro B
  induction B with
  | leaf b2 d2 =>
    intro h bb dd hm
    simp only [leavesOf, List.mem_singleton, Prod.mk.injEq] at hm
    rw [hm.1]
    simpa [goodTree] using h
  | node l r ihl ihr =>
    intro h bb dd hm
    simp only [goodTree, Bool.and_eq_true] at h
    rcases List.mem_append.mp hm with hm | hm
    · exact ihl h.1 bb dd hm
    · exact ihr h.2 bb dd hm

theorem mergeAll_append (b : BBox) (l1 l2 : List BBox) :
    mergeAll b (l1 ++ l2) = mergeAll (mergeAll b l1) l2 := by
  induction l1 generalizing b with
  | nil => simp [mergeAll]
  | cons c rest ih =>
    simp only [List.cons_append, mergeAll]
    exact ih (merge b c)

theorem mergeAll_good : ∀ (l : List BBox) (b : BBox), goodBox b = true →
    (∀ c ∈ l, goodBox c = true) → goodBox (mergeAll b l) = true := by
  intro l
  induction l with
  | nil =>
    intro b hb _
    exact hb
  | cons c rest ih =>
    intro b hb hl
    exact ih (merge b c) (goodBox_merge hb (hl c (by simp)))
      (fun e he => hl e (by simp [he]))

theorem mergeAll_merge : ∀ (l : List BBox) (x y : BBox), goodBox x = true →
    goodBox y = true → (∀ c ∈ l, goodBox c = true) →
    mergeAll (merge x y) l = merge x (mergeAll y l) := by
  intro l
  induction l with
  | nil =>
    intro x y _ _ _
    rfl
  | cons c rest ih =>
    intro x y hx hy hl
    simp only [mergeAll]
    rw [merge_assoc hx hy (hl c (by simp))]
    exact ih x (merge y c) hx (goodBox_merge hy (hl c (by simp)))
      (fun e he => hl e (by simp [he]))

/-- On a NaN-free logical tree, the derived root bounds is the iterated merge
of all the leaf boxes. -/
theorem bbounds_mergeAll : ∀ {B : BTree U}, goodTree B = true →
    ∃ bb rest, (leavesOf B).map Prod.fst = bb :: rest
      ∧ bbounds B = mergeAll bb rest := by
  intro B
  induction B with
  | leaf b2 d2 =>
    intro h
    exact ⟨b2, [], by simp [leavesOf], rfl⟩
  | node l r ihl ihr =>
    intro h
    have hgl : ∀ c ∈ (leavesOf l).map Prod.fst, goodBox c = true := by
      intro c hc
      rcases List.mem_map.mp hc with ⟨⟨c1, d1⟩, hm, he⟩
      rw [← he]
      exact goodTree_leaves (by simp only [goodTree, Bool.and_eq_true] at h; exact h.1)
        c1 d1 hm
    have hgr : ∀ c ∈ (leavesOf r).map Prod.fst, goodBox c = true := by
      intro c hc
      rcases List.mem_map.mp hc with ⟨⟨c1, d1⟩, hm, he⟩
      rw [← he]
      exact goodTree_leaves (by simp only [goodTree, Bool.and_eq_true] at h; exact h.2)
        c1 d1 hm
    simp only [goodTree, Bool.and_eq_true] at h
    obtain ⟨bbl, restl, hmapl, hvl⟩ := ihl h.1
    obtain ⟨bbr, restr, hmapr, hvr⟩ := ihr h.2
    rw [hmapl] at hgl
    rw [hmapr] at hgr
    refine ⟨bbl, restl ++ (bbr :: restr), ?_, ?_⟩
    · simp [leavesOf, hmapl, hmapr]
    · show merge (bbounds l) (bbounds r) = _
      rw [hvl, hvr, mergeAll_append]
      show _ = mergeAll (merge (mergeAll bbl restl) bbr) restr
      rw [mergeAll_merge restr (mergeAll bbl restl) bbr
        (mergeAll_good restl bbl (hgl bbl (by simp)) (fun e he => hgl e (by simp [he])))
        (hgr bbr (by simp)) (fun e he => hgr e (by simp [he]))]

/-! ## The shared round-robin counter: a two-instance process -/

/-- One step of a process holding two tree instances: an insertion into tree
`A` or into tree `B`, both reading and advancing the single process-wide
round-robin counter (the function-local `static` in
`selectSubtreeForInsertion`). -/
inductive POp where
  | insA (b : BBox) (d : Nat)
  | insB (b : BBox) (d : Nat)

/-- Run a sequence of operations over the two trees and the shared counter. -/
def runP : List POp → AABBTree2 Nat × AABBTree2 Nat × Nat →
    M (AABBTree2 Nat × AABBTree2 Nat × Nat)
  | [], st => .ok st
  | .insA b d :: rest, (tA, tB, c) => do
      let (tA2, c2) ← insert tA c b d
      runP rest (tA2, tB, c2)
  | .insB b d :: rest, (tA, tB, c) => do
      let (tB2, c2) ← insert tB c b d
      runP rest (tA, tB2, c2)

/-- Three boxes reaching the round-robin tie-break: `box1` and `box2` overlap
and both contain `box3`, so the descent for `box3` skips the volume heuristic
(sole containment fails, both contain) and the cached heights tie at 1. -/
def box1 : BBox := ⟨⟨some 0, some 0, some 0⟩, ⟨some 4, some 1, some 1⟩⟩

def box2 : BBox := ⟨⟨some 2, some 0, some 0⟩, ⟨some 6, some 1, some 1⟩⟩

def box3 : BBox := ⟨⟨some 2, some 0, some 0⟩, ⟨some 3, some 1, some 1⟩⟩

/-- Three insertions into tree `A`, alone in the process. -/
def opsAlone : List POp := [.insA box1 1, .insA box2 2, .insA box3 3]

/-- The same three insertions into tree `A`, with tree `B` receiving its own
insertions in between (advancing the shared counter before `A`'s tie-break). -/
def opsInterleaved : List POp :=
  [.insA box1 1, .insA box2 2, .insB box1 1, .insB box2 2, .insB box3 3,
   .insA box3 3]

/-- The spec's description of `update`: validate the new bounds, perform
`remove` — turning a `false` result into the `NotFound` error — then
`insert`. -/
def updateSpec [DecidableEq U] (t : AABBTree2 U) (choice : Nat)
    (newBounds : BBox) (data : U) : M (AABBTree2 U × Nat) :=
  if ¬ goodBox newBounds = true then .error .invalidBounds
  else
    match remove t data with
    | .error e => .error e
    | .ok (false, _) => .error .notFound
    | .ok (true, t1) => insert t1 choice newBounds data

/-! ## Odds and ends for the claim statements -/

theorem goodTree_eq : ∀ B : BTree U, goodTree B = leafBoxesP goodBox B := by
  intro B
  induction B with
  | leaf bb dd => rfl
  | node l r ihl ihr => simp [goodTree, leafBoxesP, ihl, ihr]

theorem leafBoxesP_of_leaves {P : BBox → Bool} : ∀ {B : BTree U},
    (∀ bb dd, (bb, dd) ∈ leavesOf B → P bb = true) → leafBoxesP P B = true := by
  intro B
  induction B with
  | leaf bb dd =>
    intro h
    exact h bb dd (by simp [leavesOf])
  | node l r ihl ihr =>
    intro h
    simp only [leafBoxesP, Bool.and_eq_true]
    exact ⟨ihl (fun bb dd hm => h bb dd (List.mem_append_left _ hm)),
      ihr (fun bb dd hm => h bb dd (List.mem_append_right _ hm))⟩

/-- Merging a NaN-free box with a contained NaN-free box does not change it:
the `both children contain` case of the insertion heuristic is an exact
volume-increase tie. -/
theorem merge_of_containsBox {a c : BBox} (ha : goodBox a = true)
    (hc : goodBox c = true) (h : containsBox a c = true) : merge a c = a := by
  obtain ⟨ax, ay, az, bx, bby, bz, rfl⟩ := goodBox_coords ha
  obtain ⟨cx, cy, cz, dx, dy, dz, rfl⟩ := goodBox_coords hc
  simp only [containsBox, elt, Bool.not_eq_true', Bool.or_eq_false_iff,
    decide_eq_false_iff_not, not_lt] at h
  obtain ⟨⟨⟨⟨⟨h1, h2⟩, h3⟩, h4⟩, h5⟩, h6⟩ := h
  simp only [merge, emin_some, emax_some]
  rw [min_eq_left h1, max_eq_left h2, min_eq_left h3, max_eq_left h4,
    min_eq_left h5, max_eq_left h6]

/-- A key is mapped after a successful insertion of it. -/
theorem contains_after_insert [DecidableEq U] {t t1 : AABBTree2 U}
    {choice c1 : Nat} {b : BBox} {d : U} (hwf : WF t)
    (h : insert t choice b d = .ok (t1, c1)) : contains t1 d = true := by
  by_cases hb : goodBox b = true
  · by_cases hdup : contains t d = true
    · rw [insert_dup t choice hb hdup] at h
      cases h
    · have hfree : findData t.leafForData d = none := by
        simp only [contains, Bool.not_eq_true] at hdup
        exact Option.not_isSome_iff_eq_none.mp (by rw [hdup]; simp)
      rcases hwf with he | ⟨B, s, fl, hwfx⟩
      · subst he
        rw [insert_empty_ok choice d hb] at h
        injection h with h2
        injection h2 with h3 h4
        subst h3
        simp [contains, findData]
      · rcases insert_ok hwfx choice hb hfree with ⟨t2, c2, B2, s2, fl2, heq, hins, hwfx2⟩
        rw [heq] at h
        injection h with h2
        injection h2 with h3 h4
        subst h3
        have hmem : (b, d) ∈ leavesOf B2 := (hins.mem_leaves b d).mpr (Or.inr ⟨rfl, rfl⟩)
        obtain ⟨j, hjs, pj, hget⟩ := hwfx2.rep.mem_leaf b d hmem
        have hentry : (d, j) ∈ t2.leafForData := hwfx2.mapinv.2.2 j b pj d hget
        simp only [contains]
        rw [mem_findData hwfx2.mapinv.1 hentry]
        rfl
  · rw [insert_nan t choice d hb] at h
    cases h

/-- A small concrete tree: `box1` under key 1 and `box2` under key 2. -/
def demoTree : AABBTree2 Nat :=
  ⟨[.inner ⟨⟨some 0, some 0, some 0⟩, ⟨some 6, some 1, some 1⟩⟩ none 1 2 2,
    .leaf box1 (some 0) 1, .leaf box2 (some 0) 2],
   [(1, 1), (2, 2)], none⟩

theorem reaches_demoTree : Reaches demoTree :=
  Reaches.step_insert
    (Reaches.step_insert Reaches.base
      (show insert (emptyTree : AABBTree2 Nat) 0 box1 1
        = .ok (⟨[.leaf box1 none 1], [(1, 0)], none⟩, 0) from rfl))
    (show insert (⟨[.leaf box1 none 1], [(1, 0)], none⟩ : AABBTree2 Nat) 0 box2 2
      = .ok (demoTree, 0) from rfl)

/-! ## The claims -/

/-- C1: starting from the empty tree, after any sequence of
`insert`/`remove`/`update`/`clear` calls that complete successfully, every
inner slot's cached bounds equals the merge of its two children's bounds and
its cached height equals one plus the maximum of the children's heights (a
leaf's height being 1) — in particular after `remove`, whose upward loop with
coupled stopping conditions is covered by the `Reaches` relation. -/
theorem claim_invariants [DecidableEq U] {t : AABBTree2 U} (hr : Reaches t) :
    ∀ (i : Nat) (bb : BBox) (p : Option Nat) (l r h : Nat),
      t.nodes[i]? = some (ANode.inner bb p l r h) →
      ∃ lb rb lh rh, getNodeBounds t l = .ok lb ∧ getNodeBounds t r = .ok rb
        ∧ bb = merge lb rb
        ∧ getNodeHeight t l = .ok lh ∧ getNodeHeight t r = .ok rh
        ∧ h = Max.max lh rh + 1 := by
  intro i bb p l r h hget
  rcases reaches_wf hr with he | ⟨B, s, fl, hwf⟩
  · subst he
    simp [emptyTree] at hget
  · have hilt : i < t.nodes.length := (List.getElem?_eq_some_iff.mp hget).1
    have his : i ∈ s := by
      rcases hwf.cover i hilt with h2 | h2
      · exact h2
      · rcases hwf.freechain.mem_free i h2 with ⟨nx, hfree⟩
        rw [hget] at hfree
        cases hfree
    obtain ⟨Bi, pi, si, hrep, hsub⟩ := hwf.rep.subtree i his
    cases hrep with
    | leaf hg =>
      rw [hget] at hg
      cases hg
    | @node _ _ l2 r2 L R sl sr hg hl2 hr2 hd hx hy =>
      rw [hget] at hg
      injection hg with hg2
      injection hg2 with e1 e2 e3 e4 e5
      subst e3
      subst e4
      refine ⟨bbounds L, bbounds R, bheight L, bheight R,
        hl2.getNodeBounds_eq, hr2.getNodeBounds_eq, e1,
        hl2.getNodeHeight_eq, hr2.getNodeHeight_eq, e5⟩

/-- C2: on any reachable tree whose stored boxes are proper axis-aligned
boxes, `findContainers` and `findIntersectors` return exactly the keys that a
brute-force scan over all stored (bounds, key) pairs selects with the same
box test, for every query point and ray — the pruning by cached inner bounds
loses no matching leaf and adds none. -/
theorem claim_query_bruteforce [DecidableEq U] {t : AABBTree2 U}
    (hr : Reaches t)
    (hproper : ∀ bb dd, (bb, dd) ∈ allLeaves t → properBox bb = true)
    (point : Vec3) (ray : Ray) :
    ∃ resP resR,
      findContainers t point = .ok resP ∧ findIntersectors t ray = .ok resR
      ∧ (∀ u, u ∈ resP ↔ ∃ bb, (bb, u) ∈ allLeaves t
          ∧ containsPoint bb point = true)
      ∧ (∀ u, u ∈ resR ↔ ∃ bb, (bb, u) ∈ allLeaves t
          ∧ intersectsTest ray bb = true) := by
  rcases reaches_wf hr with he | ⟨B, s, fl, hwf⟩
  · subst he
    refine ⟨[], [], by simp [findContainers, visitNodes, emptyTree],
      by simp [findIntersectors, visitNodes, emptyTree], ?_, ?_⟩
    · intro u
      simp [allLeaves, emptyTree]
    · intro u
      simp [allLeaves, emptyTree]
  · have hfuel : bheight B < t.nodes.length + 1 :=
      Nat.lt_succ_of_le (hwf.rep.bheight_le_card.trans hwf.rep.card_le_length)
    have hgoodB : leafBoxesP goodBox B = true := by
      rw [← goodTree_eq]
      exact hwf.good
    have hproperB : leafBoxesP properBox B = true :=
      leafBoxesP_of_leaves (fun bb dd hm =>
        hproper bb dd ((allLeaves_iff hwf bb dd).mpr hm))
    have hPg : ∀ a c : BBox, goodBox a = true → goodBox c = true →
        goodBox (merge a c) = true := fun a c ha hc => goodBox_merge ha hc
    have hMp : ∀ a c : BBox, goodBox a = true → goodBox c = true →
        (containsPoint a point = true ∨ containsPoint c point = true) →
        containsPoint (merge a c) point = true :=
      fun a c ha hc hor => containsPoint_merge ha hc hor
    have hPp : ∀ a c : BBox, properBox a = true → properBox c = true →
        properBox (merge a c) = true := fun a c ha hc => properBox_merge ha hc
    have hMr : ∀ a c : BBox, properBox a = true → properBox c = true →
        (intersectsTest ray a = true ∨ intersectsTest ray c = true) →
        intersectsTest ray (merge a c) = true :=
      fun a c ha hc hor => intersectsTest_merge ha hc hor
    have hcp := visitNode_ok hPg hMp B (t.nodes.length + 1) t 0 none s
      hwf.rep hgoodB hfuel
    have hcr := visitNode_ok hPp hMr B (t.nodes.length + 1) t 0 none s
      hwf.rep hproperB hfuel
    refine ⟨queryAbs (fun bb => containsPoint bb point) B,
      queryAbs (intersectsTest ray) B, ?_, ?_, ?_, ?_⟩
    · simp only [findContainers, visitNodes, hwf.nonempty]
      rw [if_neg (by simp)]
      exact hcp
    · simp only [findIntersectors, visitNodes, hwf.nonempty]
      rw [if_neg (by simp)]
      exact hcr
    · intro u
      rw [queryAbs_mem u]
      constructor
      · rintro ⟨bb, hm, ht⟩
        exact ⟨bb, (allLeaves_iff hwf bb u).mpr hm, ht⟩
      · rintro ⟨bb, hm, ht⟩
        exact ⟨bb, (allLeaves_iff hwf bb u).mp hm, ht⟩
    · intro u
      rw [queryAbs_mem u]
      constructor
      · rintro ⟨bb, hm, ht⟩
        exact ⟨bb, (allLeaves_iff hwf bb u).mpr hm, ht⟩
      · rintro ⟨bb, hm, ht⟩
        exact ⟨bb, (allLeaves_iff hwf bb u).mp hm, ht⟩

/-- C3: on any reachable tree, inserting a non-NaN box under a fresh key and
then removing that key succeeds, `remove` returns `true`, and the resulting
tree is structurally equal (under `operator==`) to the tree before the
insertion. -/
theorem claim_insert_remove_roundtrip [DecidableEq U] {t : AABBTree2 U}
    (hr : Reaches t) (choice : Nat) {b : BBox} {d : U}
    (hb : goodBox b = true) (hfresh : contains t d = false) :
    ∃ t1 c1 t2, insert t choice b d = .ok (t1, c1)
      ∧ remove t1 d = .ok (true, t2) ∧ treeEq t2 t = true := by
  have hfree : findData t.leafForData d = none := by
    simp only [contains, Bool.not_eq_true] at hfresh
    exact Option.not_isSome_iff_eq_none.mp (by rw [hfresh]; simp)
  rcases reaches_wf hr with he | ⟨B, s, fl, hwf⟩
  · subst he
    refine ⟨⟨[.leaf b none d], [(d, 0)], none⟩, choice, emptyTree,
      insert_empty_ok choice d hb, ?_, by simp [treeEq, emptyTree]⟩
    exact remove_root (by simp [findData])
  · rcases insert_ok hwf choice hb hfree with ⟨t1, c1, B2, s2, fl2, heq, hins, hwf1⟩
    have hmem : (b, d) ∈ leavesOf B2 := (hins.mem_leaves b d).mpr (Or.inr ⟨rfl, rfl⟩)
    obtain ⟨j, hjs, pj, hget⟩ := hwf1.rep.mem_leaf b d hmem
    have hentry : (d, j) ∈ t1.leafForData := hwf1.mapinv.2.2 j b pj d hget
    have hfind1 : findData t1.leafForData d = some j :=
      mem_findData hwf1.mapinv.1 hentry
    have hj0 : j ≠ 0 := by
      intro he
      subst he
      obtain ⟨L2, R2, hB2⟩ := hins.node
      rw [hB2] at hwf1
      obtain ⟨xl, xr, hg0⟩ := hwf1.rep.node_inv
      rw [hget] at hg0
      cases hg0
    rcases remove_ok hwf1 hfind1 hj0 with ⟨t2, X, s3, fl3, heq2, hrm, hwf2⟩
    have hd : ∀ bb, (bb, d) ∉ leavesOf B := by
      intro bb hm
      obtain ⟨j2, hjs2, pj2, hget2⟩ := hwf.rep.mem_leaf bb d hm
      have hentry2 : (d, j2) ∈ t.leafForData := hwf.mapinv.2.2 j2 bb pj2 d hget2
      exact findData_none hfree j2 hentry2
    have hXB : X = B := removed_unique hins hd hrm
    subst hXB
    exact ⟨t1, c1, t2, heq, heq2, treeEq_of_rep hwf2 hwf⟩

/-- C4: `insert` fails exactly on NaN bounds (`invalidBounds`, checked first)
or a duplicate key (`duplicateKey`); in the model both failures return before
producing any new state.  On a reachable tree with valid bounds and a fresh
key it succeeds, after which inserting the same (bounds, key) pair again
fails with `duplicateKey` and the once-inserted tree is what the second call
sees unchanged. -/
theorem claim_insert_errors [DecidableEq U] {t : AABBTree2 U} (hr : Reaches t)
    (choice : Nat) (b : BBox) (d : U) :
    (goodBox b = false → insert t choice b d = .error .invalidBounds)
    ∧ (goodBox b = true → contains t d = true →
        insert t choice b d = .error .duplicateKey)
    ∧ (goodBox b = true → contains t d = false →
        ∃ t1 c1, insert t choice b d = .ok (t1, c1)
          ∧ contains t1 d = true
          ∧ ∀ c2, insert t1 c2 b d = .error .duplicateKey) := by
  refine ⟨fun hb => insert_nan t choice d (by simp [hb]),
    fun hb hc => insert_dup t choice hb hc, fun hb hc => ?_⟩
  have hfree : findData t.leafForData d = none := by
    simp only [contains, Bool.not_eq_true] at hc
    exact Option.not_isSome_iff_eq_none.mp (by rw [hc]; simp)
  rcases reaches_wf hr with he | ⟨B, s, fl, hwf⟩
  · subst he
    refine ⟨⟨[.leaf b none d], [(d, 0)], none⟩, choice,
      insert_empty_ok choice d hb, by simp [contains, findData], ?_⟩
    intro c2
    exact insert_dup _ c2 hb (by simp [contains, findData])
  · rcases insert_ok hwf choice hb hfree with ⟨t1, c1, B2, s2, fl2, heq, hins, hwf1⟩
    have hc1 : contains t1 d = true :=
      contains_after_insert (.inr ⟨B, s, fl, hwf⟩) heq
    exact ⟨t1, c1, heq, hc1, fun c2 => insert_dup t1 c2 hb hc1⟩

/-- C5: at an inner node the insertion descent picks the child by the claimed
priority: sole containment first; otherwise strictly smaller volume increase;
on a volume tie — which includes the case where both children contain the new
box, since merging a NaN-free box into a NaN-free container leaves it
unchanged — the strictly smaller cached height; and on a height tie the
round-robin counter's parity, which is then advanced. -/
theorem claim_selection [DecidableEq U] {t : AABBTree2 U} {l r : Nat}
    {pl pr : Option Nat} {L R : BTree U} {sl sr : Finset Nat}
    (hl : Rep t l pl L sl) (hr : Rep t r pr R sr) (choice : Nat)
    (bounds : BBox) :
    ∃ b1 b2 h1 h2, getNodeBounds t l = .ok b1 ∧ getNodeBounds t r = .ok b2
      ∧ getNodeHeight t l = .ok h1 ∧ getNodeHeight t r = .ok h2
      ∧ (containsBox b1 bounds = true → containsBox b2 bounds = false →
          selectSubtreeForInsertion t choice l r bounds = .ok (l, choice))
      ∧ (containsBox b1 bounds = false → containsBox b2 bounds = true →
          selectSubtreeForInsertion t choice l r bounds = .ok (r, choice))
      ∧ (containsBox b1 bounds = false → containsBox b2 bounds = false →
          elt (esub (volume (merge b1 bounds)) (volume b1))
            (esub (volume (merge b2 bounds)) (volume b2)) = true →
          selectSubtreeForInsertion t choice l r bounds = .ok (l, choice))
      ∧ (containsBox b1 bounds = false → containsBox b2 bounds = false →
          elt (esub (volume (merge b1 bounds)) (volume b1))
            (esub (volume (merge b2 bounds)) (volume b2)) = false →
          elt (esub (volume (merge b2 bounds)) (volume b2))
            (esub (volume (merge b1 bounds)) (volume b1)) = true →
          selectSubtreeForInsertion t choice l r bounds = .ok (r, choice))
      ∧ (((containsBox b1 bounds = true ∧ containsBox b2 bounds = true)
          ∨ (containsBox b1 bounds = false ∧ containsBox b2 bounds = false
            ∧ elt (esub (volume (merge b1 bounds)) (volume b1))
                (esub (volume (merge b2 bounds)) (volume b2)) = false
            ∧ elt (esub (volume (merge b2 bounds)) (volume b2))
                (esub (volume (merge b1 bounds)) (volume b1)) = false)) →
          (h1 < h2 → selectSubtreeForInsertion t choice l r bounds
            = .ok (l, choice))
          ∧ (h2 < h1 → selectSubtreeForInsertion t choice l r bounds
            = .ok (r, choice))
          ∧ (h1 = h2 → choice % 2 = 0 → selectSubtreeForInsertion t choice l r
              bounds = .ok (l, choice + 1))
          ∧ (h1 = h2 → choice % 2 ≠ 0 → selectSubtreeForInsertion t choice l r
              bounds = .ok (r, choice + 1)))
      ∧ (∀ bbx : BBox, goodBox bbx = true → goodBox bounds = true →
          containsBox bbx bounds = true → merge bbx bounds = bbx) := by
  refine ⟨bbounds L, bbounds R, bheight L, bheight R, hl.getNodeBounds_eq,
    hr.getNodeBounds_eq, hl.getNodeHeight_eq, hr.getNodeHeight_eq,
    ?_, ?_, ?_, ?_, ?_, fun bbx h1 h2 h3 => merge_of_containsBox h1 h2 h3⟩
  · intro hc1 hc2
    simp [selectSubtreeForInsertion, hl.getNodeBounds_eq, hr.getNodeBounds_eq,
      hc1, hc2]
  · intro hc1 hc2
    simp [selectSubtreeForInsertion, hl.getNodeBounds_eq, hr.getNodeBounds_eq,
      hc1, hc2]
  · intro hc1 hc2 hv
    simp [selectSubtreeForInsertion, hl.getNodeBounds_eq, hr.getNodeBounds_eq,
      hc1, hc2, hv]
  · intro hc1 hc2 hv1 hv2
    simp [selectSubtreeForInsertion, hl.getNodeBounds_eq, hr.getNodeBounds_eq,
      hc1, hc2, hv1, hv2]
  · intro htie
    have hred : selectSubtreeForInsertion t choice l r bounds =
        (if bheight L < bheight R then .ok (l, choice)
         else if bheight R < bheight L then .ok (r, choice)
         else if choice % 2 = 0 then .ok (l, choice + 1)
         else .ok (r, choice + 1)) := by
      rcases htie with ⟨hc1, hc2⟩ | ⟨hc1, hc2, hv1, hv2⟩
      · simp [selectSubtreeForInsertion, hl.getNodeBounds_eq,
          hr.getNodeBounds_eq, hl.getNodeHeight_eq, hr.getNodeHeight_eq,
          hc1, hc2]
      · simp [selectSubtreeForInsertion, hl.getNodeBounds_eq,
          hr.getNodeBounds_eq, hl.getNodeHeight_eq, hr.getNodeHeight_eq,
          hc1, hc2, hv1, hv2]
    refine ⟨?_, ?_, ?_, ?_⟩
    · intro hlt
      rw [hred, if_pos hlt]
    · intro hlt
      rw [hred, if_neg (by omega), if_pos hlt]
    · intro heq hpar
      rw [hred, if_neg (by omega), if_neg (by omega), if_pos hpar]
    · intro heq hpar
      rw [hred, if_neg (by omega), if_neg (by omega), if_neg hpar]

/-- C6: `update` coincides with the spec's composition: validate the new
bounds for NaN, then `remove` — raising `NotFound` exactly when it returns
`false`, i.e. when the key is absent (in which case `remove` hands the tree
back untouched) — then `insert` with the new bounds. -/
theorem claim_update_composition [DecidableEq U] (t : AABBTree2 U)
    (choice : Nat) (newBounds : BBox) (data : U) :
    update t choice newBounds data = updateSpec t choice newBounds data := by
  unfold update updateSpec
  by_cases hb : goodBox newBounds = true
  · rw [checkBounds_ok hb, if_neg (by simp [hb])]
    simp only [bind_ok]
    cases hrem : remove t data with
    | error e => rfl
    | ok p =>
      obtain ⟨found, t1⟩ := p
      cases found
      · simp
      · simp
  · rw [checkBounds_error hb, if_pos (by simpa using hb)]
    simp

/-- C7: on any reachable tree, `remove` never raises an error; it returns
`false` with the tree handed back untouched exactly when the key has no
mapped leaf, and returns `true` exactly when the key is present. -/
theorem claim_remove_missing [DecidableEq U] {t : AABBTree2 U} (hr : Reaches t)
    (d : U) :
    ∃ r t', remove t d = .ok (r, t') ∧ (r = true ↔ contains t d = true)
      ∧ (r = false → t' = t) := by
  cases hfd : findData t.leafForData d with
  | none =>
    refine ⟨false, t, remove_absent hfd, ?_, fun _ => rfl⟩
    simp [contains, hfd]
  | some i =>
    have hcont : contains t d = true := by simp [contains, hfd]
    by_cases hi0 : i = 0
    · subst hi0
      exact ⟨true, emptyTree, remove_root hfd, by simp [hcont], by simp⟩
    · rcases reaches_wf hr with he | ⟨B, s, fl, hwf⟩
      · subst he
        simp [emptyTree, findData] at hfd
      · rcases remove_ok hwf hfd hi0 with ⟨t5, B2, s2, fl2, heq, hrm, hwf2⟩
        exact ⟨true, t5, heq, by simp [hcont], by simp⟩

/-- C8 (corrected): the round-robin counter is process-wide shared state, not
per-tree-instance: the same three insertions into tree `A`, run once alone
and once with tree `B` receiving its own insertions in between (which advance
the shared counter), both succeed yet end in structurally different trees. -/
theorem claim_counter_shared :
    ∃ stA stI, runP opsAlone (emptyTree, emptyTree, 0) = .ok stA
      ∧ runP opsInterleaved (emptyTree, emptyTree, 0) = .ok stI
      ∧ treeEq stA.1 stI.1 = false := by
  have h : (match runP opsAlone (emptyTree, emptyTree, 0),
      runP opsInterleaved (emptyTree, emptyTree, 0) with
    | .ok a, .ok b => !(treeEq a.1 b.1)
    | _, _ => false) = true := by decide
  split at h
  next a b hA hI => exact ⟨a, b, hA, hI, by simpa using h⟩
  next hA hI => simp at h

/-- C9: `bounds()` on a non-empty reachable tree returns the root slot's
cached bounds, which is the iterated merge of all stored boxes; on an empty
tree it returns the box all of whose coordinates are NaN. -/
theorem claim_bounds [DecidableEq U] {t : AABBTree2 U} (hr : Reaches t) :
    (t.nodes.isEmpty = true → bounds t = .ok nanBox
      ∧ vecIsNaN nanBox.min = true ∧ vecIsNaN nanBox.max = true)
    ∧ (t.nodes.isEmpty = false → ∃ B s fl bb rest, WFx t B s fl
        ∧ bounds t = .ok (bbounds B)
        ∧ (∀ bb2 dd, (bb2, dd) ∈ allLeaves t ↔ (bb2, dd) ∈ leavesOf B)
        ∧ (leavesOf B).map Prod.fst = bb :: rest
        ∧ bbounds B = mergeAll bb rest) := by
  constructor
  · intro he
    refine ⟨by simp [bounds, he], rfl, rfl⟩
  · intro hne
    rcases reaches_wf hr with he | ⟨B, s, fl, hwf⟩
    · rw [he] at hne
      simp [emptyTree] at hne
    · obtain ⟨bb, rest, hmap, hval⟩ := bbounds_mergeAll hwf.good
      refine ⟨B, s, fl, bb, rest, hwf, ?_, allLeaves_iff hwf, hmap, hval⟩
      simp only [bounds, hne]
      rw [if_neg (by simp)]
      exact hwf.rep.getNodeBounds_eq

/-- C10: on any reachable tree the query traversal never reaches a `Free`
slot: both queries succeed for every point and ray, and the root slot of a
non-empty arena is never free (no occupied slot is, by the representation
invariant). -/
theorem claim_queries_safe [DecidableEq U] {t : AABBTree2 U} (hr : Reaches t) :
    (∀ p, ∃ res, findContainers t p = .ok res)
    ∧ (∀ ray, ∃ res, findIntersectors t ray = .ok res)
    ∧ (t.nodes.isEmpty = false → ∀ nx, t.nodes[0]? ≠ some (.free nx)) := by
  rcases reaches_wf hr with he | ⟨B, s, fl, hwf⟩
  · subst he
    refine ⟨fun p => ⟨[], ?_⟩, fun ray => ⟨[], ?_⟩, ?_⟩
    · simp [findContainers, visitNodes, emptyTree]
    · simp [findIntersectors, visitNodes, emptyTree]
    · intro h
      simp [emptyTree] at h
  · have hfuel : bheight B < t.nodes.length + 1 :=
      Nat.lt_succ_of_le (hwf.rep.bheight_le_card.trans hwf.rep.card_le_length)
    refine ⟨fun p => ?_, fun ray => ?_, fun _ => ?_⟩
    · rcases visitNode_safe B (t.nodes.length + 1) t
          (fun bb => containsPoint bb p) 0 none s hwf.rep hfuel with ⟨res, hres⟩
      refine ⟨res, ?_⟩
      simp only [findContainers, visitNodes, hwf.nonempty]
      rw [if_neg (by simp)]
      exact hres
    · rcases visitNode_safe B (t.nodes.length + 1) t
          (intersectsTest ray) 0 none s hwf.rep hfuel with ⟨res, hres⟩
      refine ⟨res, ?_⟩
      simp only [findIntersectors, visitNodes, hwf.nonempty]
      rw [if_neg (by simp)]
      exact hres
    · intro nx hget
      exact hwf.rep.not_free 0 hwf.rep.root_mem nx hget

/-! ## Witnesses -/

/-- Witness for C1 at the demo tree's root inner slot. -/
theorem claim_invariants_witness :
    ∃ lb rb lh rh, getNodeBounds demoTree 1 = .ok lb
      ∧ getNodeBounds demoTree 2 = .ok rb
      ∧ (⟨⟨some 0, some 0, some 0⟩, ⟨some 6, some 1, some 1⟩⟩ : BBox)
          = merge lb rb
      ∧ getNodeHeight demoTree 1 = .ok lh ∧ getNodeHeight demoTree 2 = .ok rh
      ∧ 2 = Max.max lh rh + 1 :=
  claim_invariants reaches_demoTree 0
    ⟨⟨some 0, some 0, some 0⟩, ⟨some 6, some 1, some 1⟩⟩ none 1 2 2 rfl

/-- Witness for C2 at the demo tree with a concrete point and ray. -/
theorem claim_query_bruteforce_witness :
    ∃ resP resR,
      findContainers demoTree ⟨some 1, some 0, some 0⟩ = .ok resP
      ∧ findIntersectors demoTree
          ⟨⟨some 1, some 0, some 0⟩, ⟨some 0, some 0, some 1⟩⟩ = .ok resR
      ∧ (∀ u, u ∈ resP ↔ ∃ bb, (bb, u) ∈ allLeaves demoTree
          ∧ containsPoint bb ⟨some 1, some 0, some 0⟩ = true)
      ∧ (∀ u, u ∈ resR ↔ ∃ bb, (bb, u) ∈ allLeaves demoTree
          ∧ intersectsTest ⟨⟨some 1, some 0, some 0⟩, ⟨some 0, some 0, some 1⟩⟩
              bb = true) :=
  claim_query_bruteforce reaches_demoTree
    (by
      intro bb dd h
      have he : allLeaves demoTree = [(box1, 1), (box2, 2)] := rfl
      rw [he] at h
      rcases List.mem_cons.mp h with h1 | h1
      · have hbb : bb = box1 := congrArg Prod.fst h1
        rw [hbb]
        decide
      · rcases List.mem_cons.mp h1 with h2 | h2
        · have hbb : bb = box2 := congrArg Prod.fst h2
          rw [hbb]
          decide
        · exact absurd h2 (List.not_mem_nil _))
    ⟨some 1, some 0, some 0⟩ ⟨⟨some 1, some 0, some 0⟩, ⟨some 0, some 0, some 1⟩⟩

/-- Witness for C3: insert a fresh key into the demo tree, then remove it. -/
theorem claim_insert_remove_roundtrip_witness :
    ∃ t1 c1 t2, insert demoTree 0 box3 3 = .ok (t1, c1)
      ∧ remove t1 3 = .ok (true, t2) ∧ treeEq t2 demoTree = true :=
  claim_insert_remove_roundtrip reaches_demoTree 0 (by decide) (by decide)

/-- Witness for C4 at the demo tree with a fresh key. -/
theorem claim_insert_errors_witness :
    (goodBox box3 = false → insert demoTree 0 box3 3 = .error .invalidBounds)
    ∧ (goodBox box3 = true → contains demoTree 3 = true →
        insert demoTree 0 box3 3 = .error .duplicateKey)
    ∧ (goodBox box3 = true → contains demoTree 3 = false →
        ∃ t1 c1, insert demoTree 0 box3 3 = .ok (t1, c1)
          ∧ contains t1 3 = true
          ∧ ∀ c2, insert t1 c2 box3 3 = .error .duplicateKey) :=
  claim_insert_errors reaches_demoTree 0 box3 3

/-- Witness for C5 at the demo tree's two leaf children. -/
theorem claim_selection_witness :
    ∃ b1 b2 h1 h2, getNodeBounds demoTree 1 = .ok b1
      ∧ getNodeBounds demoTree 2 = .ok b2
      ∧ getNodeHeight demoTree 1 = .ok h1 ∧ getNodeHeight demoTree 2 = .ok h2
      ∧ (containsBox b1 box3 = true → containsBox b2 box3 = false →
          selectSubtreeForInsertion demoTree 0 1 2 box3 = .ok (1, 0))
      ∧ (containsBox b1 box3 = false → containsBox b2 box3 = true →
          selectSubtreeForInsertion demoTree 0 1 2 box3 = .ok (2, 0))
      ∧ (containsBox b1 box3 = false → containsBox b2 box3 = false →
          elt (esub (volume (merge b1 box3)) (volume b1))
            (esub (volume (merge b2 box3)) (volume b2)) = true →
          selectSubtreeForInsertion demoTree 0 1 2 box3 = .ok (1, 0))
      ∧ (containsBox b1 box3 = false → containsBox b2 box3 = false →
          elt (esub (volume (merge b1 box3)) (volume b1))
            (esub (volume (merge b2 box3)) (volume b2)) = false →
          elt (esub (volume (merge b2 box3)) (volume b2))
            (esub (volume (merge b1 box3)) (volume b1)) = true →
          selectSubtreeForInsertion demoTree 0 1 2 box3 = .ok (2, 0))
      ∧ (((containsBox b1 box3 = true ∧ containsBox b2 box3 = true)
          ∨ (containsBox b1 box3 = false ∧ containsBox b2 box3 = false
            ∧ elt (esub (volume (merge b1 box3)) (volume b1))
                (esub (volume (merge b2 box3)) (volume b2)) = false
            ∧ elt (esub (volume (merge b2 box3)) (volume b2))
                (esub (volume (merge b1 box3)) (volume b1)) = false)) →
          (h1 < h2 → selectSubtreeForInsertion demoTree 0 1 2 box3
            = .ok (1, 0))
          ∧ (h2 < h1 → selectSubtreeForInsertion demoTree 0 1 2 box3
            = .ok (2, 0))
          ∧ (h1 = h2 → 0 % 2 = 0 → selectSubtreeForInsertion demoTree 0 1 2
              box3 = .ok (1, 0 + 1))
          ∧ (h1 = h2 → 0 % 2 ≠ 0 → selectSubtreeForInsertion demoTree 0 1 2
              box3 = .ok (2, 0 + 1)))
      ∧ (∀ bbx : BBox, goodBox bbx = true → goodBox box3 = true →
          containsBox bbx box3 = true → merge bbx box3 = bbx) :=
  claim_selection
    (show Rep demoTree 1 (some 0) (.leaf box1 1) {1} from .leaf rfl)
    (show Rep demoTree 2 (some 0) (.leaf box2 2) {2} from .leaf rfl) 0 box3

/-- Witness for C7 at the demo tree with an absent key. -/
theorem claim_remove_missing_witness :
    ∃ r t', remove demoTree 3 = .ok (r, t')
      ∧ (r = true ↔ contains demoTree 3 = true)
      ∧ (r = false → t' = demoTree) :=
  claim_remove_missing reaches_demoTree 3

/-- Witness for C9 at the demo tree. -/
theorem claim_bounds_witness :
    (demoTree.nodes.isEmpty = true → bounds demoTree = .ok nanBox
      ∧ vecIsNaN nanBox.min = true ∧ vecIsNaN nanBox.max = true)
    ∧ (demoTree.nodes.isEmpty = false → ∃ B s fl bb rest, WFx demoTree B s fl
        ∧ bounds demoTree = .ok (bbounds B)
        ∧ (∀ bb2 dd, (bb2, dd) ∈ allLeaves demoTree ↔ (bb2, dd) ∈ leavesOf B)
        ∧ (leavesOf B).map Prod.fst = bb :: rest
        ∧ bbounds B = mergeAll bb rest) :=
  claim_bounds reaches_demoTree

/-- Witness for C10 at the demo tree. -/
theorem claim_queries_safe_witness :
    (∀ p, ∃ res, findContainers demoTree p = .ok res)
    ∧ (∀ ray, ∃ res, findIntersectors demoTree ray = .ok res)
    ∧ (demoTree.nodes.isEmpty = false →
        ∀ nx, demoTree.nodes[0]? ≠ some (.free nx)) :=
  claim_queries_safe reaches_demoTree

/-- Counterexample to C8 as stated: tree `A` receives the same three
insertions in both runs, yet interleaving insertions on tree `B` — which
advance the process-wide round-robin counter — changes `A`'s final
structure, so the counter is not per-tree-instance state. -/
theorem claim_counter_shared_counterexample :
    (match runP opsAlone (emptyTree, emptyTree, 0),
        runP opsInterleaved (emptyTree, emptyTree, 0) with
      | .ok a, .ok b => treeEq a.1 b.1
      | _, _ => true) = false := by
  decide

end AABB
